import Mathlib

/-!
# Label inference, plan pruning and catalog caches of the graph extension

A shallow embedding of

* `src/backend/optimizer/cypher_graph_opt.c` (the per-query inference context),
* `src/backend/optimizer/cypher_paths.c` (pruning of Append / MergeAppend plans),
* `src/backend/utils/cache/ag_cache.c` and `src/backend/catalog/ag_label.c`
  (catalog rows and the caches in front of them),

followed by the properties proved about them.

Conventions.  C lists (`List *`, with `NIL` the empty list) are Lean lists.  A
`char *` that may be `NULL` is an `Option String`.  Global variables of a C file
become the fields of an explicit state record that is passed in and returned.
`Cost` and row estimates are `double` in C; here they live in an arbitrary
carrier `C` that has a zero and an addition and about which nothing else is
assumed, so that every statement holds for whatever arithmetic the carrier has.
-/

namespace AGE

/-! ## Host types -/

/-- Object identifier of the host database (`Oid`). -/
abbrev Oid := Nat

/-- The reserved invalid identifier (`InvalidOid`). -/
def InvalidOid : Oid := 0

/-- Validity test of an identifier (`OidIsValid`). -/
def OidIsValid (o : Oid) : Bool := o != InvalidOid

/-- Membership test of an OID list (`list_member_oid`). -/
def list_member_oid (l : List Oid) (o : Oid) : Bool :=
  match l with
  | [] => false
  | x :: xs => if x = o then true else list_member_oid xs o

/-- Append at the end of a list (`lappend`, `lappend_oid`, `lappend_int`). -/
def lappend {α : Type} (l : List α) (x : α) : List α := l ++ [x]

/-! ## The inference context (`cypher_graph_opt.c`) -/

/-- Entry in the inferred labels map (`InferredLabelEntry`). -/
structure InferredLabelEntry where
  /-- Variable name (alias) as key; a `char *`. -/
  var_name : Option String
  /-- List of allowed child table OIDs. -/
  child_relids : List Oid
deriving DecidableEq

/-- The two file-level variables of `cypher_graph_opt.c`. -/
structure GraphOptState where
  /-- The list `inferred_label_entries`. -/
  inferred_label_entries : List InferredLabelEntry
  /-- Whether `graph_opt_context` is non-NULL (the memory context exists). -/
  graph_opt_context : Bool
deriving DecidableEq

/-- State at backend start: `inferred_label_entries = NIL`, `graph_opt_context = NULL`. -/
def GraphOptState.initial : GraphOptState := ⟨[], false⟩

/-- Embedding of `graph_opt_context_init`: the context is created or reset, and the
entry list is cleared. -/
def graph_opt_context_init (_st : GraphOptState) : GraphOptState :=
  { inferred_label_entries := [], graph_opt_context := true }

/-- Embedding of `graph_opt_context_cleanup`: clears the list only when the context exists. -/
def graph_opt_context_cleanup (st : GraphOptState) : GraphOptState :=
  if st.graph_opt_context then { st with inferred_label_entries := [] } else st

/-- The test of the loop of `find_inferred_entry`:
`entry->var_name != NULL && strcmp(entry->var_name, var_name) == 0`. -/
def entry_matches (var_name : String) (entry : InferredLabelEntry) : Bool :=
  match entry.var_name with
  | none => false
  | some n => n == var_name

/-- The `foreach` of `find_inferred_entry`: the first entry that matches. -/
def find_inferred_entry_loop (var_name : String) :
    List InferredLabelEntry → Option InferredLabelEntry
  | [] => none
  | entry :: rest =>
    if entry_matches var_name entry then some entry
    else find_inferred_entry_loop var_name rest

/-- Embedding of `find_inferred_entry`. -/
def find_inferred_entry (st : GraphOptState) (var_name : Option String) :
    Option InferredLabelEntry :=
  match var_name with
  | none => none
  | some v => find_inferred_entry_loop v st.inferred_label_entries

/-- The intersection loop of `graph_opt_add_inferred_labels`: walks the entry's
`child_relids` and appends to `intersection` each OID that is a member of `label_relids`. -/
def intersect_loop (label_relids : List Oid) (intersection : List Oid) :
    List Oid → List Oid
  | [] => intersection
  | child_oid :: rest =>
    if list_member_oid label_relids child_oid then
      intersect_loop label_relids (lappend intersection child_oid) rest
    else
      intersect_loop label_relids intersection rest

/-- The in-place update `entry->child_relids = intersection` applied to the entry
that `find_inferred_entry` returns, that is the first matching entry of the list. -/
def update_found_entry (var_name : String) (label_relids : List Oid) :
    List InferredLabelEntry → List InferredLabelEntry
  | [] => []
  | entry :: rest =>
    if entry_matches var_name entry then
      { entry with child_relids := intersect_loop label_relids [] entry.child_relids } :: rest
    else
      entry :: update_found_entry var_name label_relids rest

/-- Embedding of `graph_opt_add_inferred_labels`. -/
def graph_opt_add_inferred_labels (st : GraphOptState) (var_name : Option String)
    (label_relids : List Oid) : GraphOptState :=
  match var_name with
  | none => st
  | some v =>
    if v = "" then st
    else
      let st1 := if st.graph_opt_context then st else graph_opt_context_init st
      match find_inferred_entry st1 (some v) with
      | some _ =>
        { st1 with
          inferred_label_entries := update_found_entry v label_relids st1.inferred_label_entries }
      | none =>
        { st1 with
          inferred_label_entries :=
            lappend st1.inferred_label_entries
              { var_name := some v, child_relids := label_relids } }

/-- Embedding of `graph_opt_get_inferred_labels`; `NIL` is the empty list. -/
def graph_opt_get_inferred_labels (st : GraphOptState) (var_name : Option String) : List Oid :=
  match var_name with
  | none => []
  | some v =>
    match find_inferred_entry st (some v) with
    | some entry => entry.child_relids
    | none => []

/-- Embedding of `graph_opt_has_inferred_entry`. -/
def graph_opt_has_inferred_entry (st : GraphOptState) (var_name : Option String) : Bool :=
  match var_name with
  | none => false
  | some v => (find_inferred_entry st (some v)).isSome

/-! ## Planner data (`cypher_paths.c`) -/

/-- Kind of a range-table entry (`RTEKind` of the host). -/
inductive RTEKind where
  | RTE_RELATION
  | RTE_SUBQUERY
  | RTE_JOIN
  | RTE_FUNCTION
  | RTE_TABLEFUNC
  | RTE_VALUES
  | RTE_CTE
  | RTE_NAMEDTUPLESTORE
  | RTE_RESULT
deriving DecidableEq

/-- The host's `Alias` node, of which only `aliasname` is read. -/
structure Alias where
  aliasname : Option String
deriving DecidableEq

/-- The fields of the host's `RangeTblEntry` that the code reads. -/
structure RangeTblEntry where
  rtekind : RTEKind
  relid : Oid
  inh : Bool
  /-- The field `alias` of the C record (a reserved word here). -/
  rte_alias : Option Alias
deriving DecidableEq

/-- Node tag of a path.  Every path that is neither an `AppendPath` nor a
`MergeAppendPath` is represented by `T_Path`. -/
inductive NodeTag where
  | T_Path
  | T_AppendPath
  | T_MergeAppendPath
deriving DecidableEq

/-- An element of a `pathkeys` list; only emptiness of the list is tested. -/
abbrev PathKey := Nat

/-- The fields of the host's `Path` header that the code reads or writes.
`parent_relid` is `path->parent->relid`. -/
structure Path (C : Type) where
  type : NodeTag
  parent_relid : Nat
  pathkeys : List PathKey
  rows : C
  startup_cost : C
  total_cost : C
deriving DecidableEq

/-- A member of `rel->pathlist` or `rel->partial_pathlist`: the `Path` header (field
`path` of `AppendPath` and `MergeAppendPath`) and the `subpaths` list.  The code reads
of a child only its header, so a child is represented by its header; `subpaths` is
unused for a node that is neither an Append nor a MergeAppend. -/
structure PathNode (C : Type) where
  path : Path C
  subpaths : List (Path C)
deriving DecidableEq

/-- The fields of the host's `RelOptInfo` that the code reads or writes. -/
structure RelOptInfo (C : Type) where
  /-- Whether `reloptkind` is `RELOPT_BASEREL`. -/
  is_baserel : Bool
  relid : Nat
  rows : C
  pathlist : List (PathNode C)
  partial_pathlist : List (PathNode C)
  cheapest_total_path : Option (PathNode C)
deriving DecidableEq

/-- The fields of the host's `PlannerInfo` that the code reads.  `simple_rte_array` is
indexed by range-table index and may hold `NULL`; the model reads an index outside the
array as `NULL`. -/
structure PlannerInfo where
  simple_rte_array : List (Option RangeTblEntry)
  simple_rel_array_size : Nat
deriving DecidableEq

/-- Services of the host that the code calls and that are not part of this repository.
`get_rel_name` is the host's name lookup of a relation (`NULL` when there is none);
`cheapest_total` is the choice that the host's `set_cheapest` makes among the paths of
a relation. -/
structure Host (C : Type) where
  get_rel_name : Oid → Option String
  cheapest_total : List (PathNode C) → Option (PathNode C)

/-- The host's `set_cheapest`: recomputes the cheapest-path bookkeeping of the relation
from its current `pathlist` and leaves the path lists themselves alone.  (The host
raises an internal error for a relation without any path; a relation reaching the
pruning code has paths, and that error is not modelled.) -/
def set_cheapest {C : Type} (host : Host C) (rel : RelOptInfo C) : RelOptInfo C :=
  { rel with cheapest_total_path := host.cheapest_total rel.pathlist }

/-- The range-table entry `root->simple_rte_array[child_rti]`. -/
def simple_rte (root : PlannerInfo) (child_rti : Nat) : Option RangeTblEntry :=
  root.simple_rte_array.getD child_rti none

/-- The test that decides whether a child is kept:
`child_rte != NULL && child_rte->rtekind == RTE_RELATION &&
 list_member_oid(inferred_labels, child_rte->relid)`,
with `child_rte = root->simple_rte_array[subpath->parent->relid]`. -/
def child_allowed {C : Type} (root : PlannerInfo) (inferred_labels : List Oid)
    (subpath : Path C) : Bool :=
  match simple_rte root subpath.parent_relid with
  | none => false
  | some child_rte =>
    decide (child_rte.rtekind = RTEKind.RTE_RELATION) &&
      list_member_oid inferred_labels child_rte.relid

/-- The local variables of a filtering loop. -/
structure FilterAcc (C : Type) where
  filtered_subpaths : List (Path C)
  filtered_count : Nat
  total_cost : C
  startup_cost : C
  total_rows : C
deriving DecidableEq

/-- The local variables before a filtering loop starts. -/
def FilterAcc.init {C : Type} [Zero C] : FilterAcc C :=
  { filtered_subpaths := [], filtered_count := 0, total_cost := 0, startup_cost := 0,
    total_rows := 0 }

/-- The filtering loop of the two `AppendPath` branches: a kept child is appended and
its total cost and rows are accumulated. -/
def append_filter_loop {C : Type} [Add C] (root : PlannerInfo) (inferred_labels : List Oid)
    (acc : FilterAcc C) : List (Path C) → FilterAcc C
  | [] => acc
  | subpath :: rest =>
    if child_allowed root inferred_labels subpath then
      append_filter_loop root inferred_labels
        { acc with
          filtered_subpaths := lappend acc.filtered_subpaths subpath
          filtered_count := acc.filtered_count + 1
          total_cost := acc.total_cost + subpath.total_cost
          total_rows := acc.total_rows + subpath.rows } rest
    else
      append_filter_loop root inferred_labels acc rest

/-- The filtering loop of the two `MergeAppendPath` branches: as for Append, and the
startup cost is accumulated as well. -/
def merge_filter_loop {C : Type} [Add C] (root : PlannerInfo) (inferred_labels : List Oid)
    (acc : FilterAcc C) : List (Path C) → FilterAcc C
  | [] => acc
  | subpath :: rest =>
    if child_allowed root inferred_labels subpath then
      merge_filter_loop root inferred_labels
        { acc with
          filtered_subpaths := lappend acc.filtered_subpaths subpath
          filtered_count := acc.filtered_count + 1
          total_cost := acc.total_cost + subpath.total_cost
          total_rows := acc.total_rows + subpath.rows
          startup_cost := acc.startup_cost + subpath.startup_cost } rest
    else
      merge_filter_loop root inferred_labels acc rest

/-- The loop `startup_cost = 0; foreach ... startup_cost += subpath->startup_cost`. -/
def sum_startup_loop {C : Type} [Add C] (startup_cost : C) : List (Path C) → C
  | [] => startup_cost
  | subpath :: rest => sum_startup_loop (startup_cost + subpath.startup_cost) rest

/-- The startup cost of `linitial(filtered_subpaths)`.  The code calls it on a list
with at least one element only; on the empty list the model yields zero. -/
def linitial_startup_cost {C : Type} [Zero C] : List (Path C) → C
  | [] => 0
  | first_subpath :: _ => first_subpath.startup_cost

/-! ## Pruning of Append and MergeAppend plans (`cypher_paths.c`) -/

/-- The rewrite of one member of `rel->pathlist` when the entry exists and is empty:
an Append or MergeAppend loses its children and gets zero rows and zero costs. -/
def empty_pathlist_node {C : Type} [Zero C] (p : PathNode C) : PathNode C :=
  match p.path.type with
  | NodeTag.T_AppendPath =>
    { path := { p.path with rows := 0, startup_cost := 0, total_cost := 0 }, subpaths := [] }
  | NodeTag.T_MergeAppendPath =>
    { path := { p.path with rows := 0, startup_cost := 0, total_cost := 0 }, subpaths := [] }
  | NodeTag.T_Path => p

/-- The rewrite of one member of `rel->partial_pathlist` when the entry exists and is
empty: the code clears `subpaths` and sets `rows` to zero, and assigns nothing else. -/
def empty_partial_node {C : Type} [Zero C] (p : PathNode C) : PathNode C :=
  match p.path.type with
  | NodeTag.T_AppendPath => { path := { p.path with rows := 0 }, subpaths := [] }
  | NodeTag.T_MergeAppendPath => { path := { p.path with rows := 0 }, subpaths := [] }
  | NodeTag.T_Path => p

/-- The body of the `foreach(lc, rel->pathlist)` loop for a non-empty inferred list. -/
def filter_pathlist_node {C : Type} [Zero C] [Add C] (root : PlannerInfo)
    (inferred_labels : List Oid) (p : PathNode C) : PathNode C :=
  match p.path.type with
  | NodeTag.T_AppendPath =>
    let original_count := p.subpaths.length
    let acc := append_filter_loop root inferred_labels FilterAcc.init p.subpaths
    if 0 < acc.filtered_count ∧ acc.filtered_count < original_count then
      let startup_cost :=
        if p.path.pathkeys = [] then linitial_startup_cost acc.filtered_subpaths
        else sum_startup_loop 0 acc.filtered_subpaths
      { path := { p.path with
                  startup_cost := startup_cost
                  total_cost := acc.total_cost
                  rows := acc.total_rows },
        subpaths := acc.filtered_subpaths }
    else p
  | NodeTag.T_MergeAppendPath =>
    let original_count := p.subpaths.length
    let acc := merge_filter_loop root inferred_labels FilterAcc.init p.subpaths
    if 0 < acc.filtered_count ∧ acc.filtered_count < original_count then
      { path := { p.path with
                  startup_cost := acc.startup_cost
                  total_cost := acc.total_cost
                  rows := acc.total_rows },
        subpaths := acc.filtered_subpaths }
    else p
  | NodeTag.T_Path => p

/-- The body of the `foreach(lc, rel->partial_pathlist)` loop for a non-empty inferred
list.  The Append branch assigns `subpaths`, `total_cost` and `rows` only. -/
def filter_partial_node {C : Type} [Zero C] [Add C] (root : PlannerInfo)
    (inferred_labels : List Oid) (p : PathNode C) : PathNode C :=
  match p.path.type with
  | NodeTag.T_AppendPath =>
    let original_count := p.subpaths.length
    let acc := append_filter_loop root inferred_labels FilterAcc.init p.subpaths
    if 0 < acc.filtered_count ∧ acc.filtered_count < original_count then
      { path := { p.path with
                  total_cost := acc.total_cost
                  rows := acc.total_rows },
        subpaths := acc.filtered_subpaths }
    else p
  | NodeTag.T_MergeAppendPath =>
    let original_count := p.subpaths.length
    let acc := merge_filter_loop root inferred_labels FilterAcc.init p.subpaths
    if 0 < acc.filtered_count ∧ acc.filtered_count < original_count then
      { path := { p.path with
                  startup_cost := acc.startup_cost
                  total_cost := acc.total_cost
                  rows := acc.total_rows },
        subpaths := acc.filtered_subpaths }
    else p
  | NodeTag.T_Path => p

/-- Embedding of `filter_append_paths_for_inferred_labels`.  The inference context is
the file-level state of `cypher_graph_opt.c`, which the function only reads. -/
def filter_append_paths_for_inferred_labels {C : Type} [Zero C] [Add C] (host : Host C)
    (ctx : GraphOptState) (root : PlannerInfo) (rel : RelOptInfo C) (rte : RangeTblEntry) :
    RelOptInfo C :=
  if rte.rtekind ≠ RTEKind.RTE_RELATION ∨ rte.inh = false then rel
  else
    match host.get_rel_name rte.relid with
    | none => rel
    | some rel_name =>
      if rel_name ≠ "_ag_label_vertex" ∧ rel_name ≠ "_ag_label_edge" then rel
      else
        match rte.rte_alias with
        | none => rel
        | some a =>
          match a.aliasname with
          | none => rel
          | some var_name =>
            if graph_opt_has_inferred_entry ctx (some var_name) = false then rel
            else
              let inferred_labels := graph_opt_get_inferred_labels ctx (some var_name)
              if inferred_labels = [] then
                { rel with
                  pathlist := rel.pathlist.map empty_pathlist_node
                  partial_pathlist := rel.partial_pathlist.map empty_partial_node }
              else
                set_cheapest host
                  { rel with
                    pathlist := rel.pathlist.map (filter_pathlist_node root inferred_labels)
                    partial_pathlist :=
                      rel.partial_pathlist.map (filter_partial_node root inferred_labels) }

/-! ## Catalog rows (`ag_graph`, `ag_label`, `ag_graph_schema`) -/

/-- Size of a `NameData` buffer; a name holds at most `NAMEDATALEN - 1` characters. -/
def NAMEDATALEN : Nat := 64

/-- Content of a `NameData`. -/
abbrev Name := String

/-- The host's `namestrcpy`: copies a C string into a `NameData`, cut to the buffer. -/
def namestrcpy (s : String) : Name := String.mk (s.data.take (NAMEDATALEN - 1))

/-- The value `LABEL_KIND_VERTEX`. -/
def LABEL_KIND_VERTEX : Char := 'v'

/-- The value `LABEL_KIND_EDGE`. -/
def LABEL_KIND_EDGE : Char := 'e'

/-- A row of `ag_graph`: columns `graphid`, `name`, `namespace`. -/
structure ag_graph_row where
  oid : Oid
  name : Name
  namespace_oid : Oid
deriving DecidableEq

/-- A row of `ag_label`: columns `name`, `graph`, `id`, `kind`, `relation`, `seq_name`. -/
structure ag_label_row where
  name : Name
  graph : Oid
  id : Int
  kind : Char
  relation : Oid
  seq_name : Name
deriving DecidableEq

/-- A row of `ag_graph_schema`: columns `graph`, `edge_label_id`, `start_label_id`,
`end_label_id`. -/
structure ag_graph_schema_row where
  graph : Oid
  edge_label_id : Int
  start_label_id : Int
  end_label_id : Int
deriving DecidableEq

/-- The three catalog tables, each as the list of its visible rows in scan order.  A row
that is inserted is appended, and a change is visible to every scan that follows it; the
host's transactions and command-counter visibility are not modelled. -/
structure Catalog where
  ag_graph : List ag_graph_row
  ag_label : List ag_label_row
  ag_graph_schema : List ag_graph_schema_row
deriving DecidableEq

/-! ## Cache records (`ag_cache.h`, `ag_cache.c`) -/

/-- Cached copy of an `ag_graph` row (`graph_cache_data`). -/
structure graph_cache_data where
  oid : Oid
  name : Name
  namespace_oid : Oid
deriving DecidableEq

/-- Cached copy of an `ag_label` row (`label_cache_data`). -/
structure label_cache_data where
  name : Name
  graph : Oid
  id : Int
  kind : Char
  relation : Oid
  seq_name : Name
deriving DecidableEq

/-- One (start, end) pair of an edge label (`edge_schema_entry`). -/
structure edge_schema_entry where
  start_label_id : Int
  end_label_id : Int
deriving DecidableEq

/-- Cached schema of one edge label (`edge_schema_cache_data`); the array `entries`
is a list, and the `NULL` array of an entry without pairs is the empty list. -/
structure edge_schema_cache_data where
  graph : Oid
  edge_label_id : Int
  num_entries : Nat
  entries : List edge_schema_entry
deriving DecidableEq

/-- Cached label ids reachable from or to a vertex label
(`vertex_edge_labels_cache_data`). -/
structure vertex_edge_labels_cache_data where
  graph : Oid
  vertex_label_id : Int
  num_label_ids : Nat
  label_ids : List Int
deriving DecidableEq

/-- Hash key of the cache by (label name, graph). -/
structure label_name_graph_cache_key where
  name : Name
  graph : Oid
deriving DecidableEq

/-- Hash key of the cache by (graph, label id). -/
structure label_graph_oid_cache_key where
  graph : Oid
  id : Int
deriving DecidableEq

/-- Hash key of the cache by (sequence name, graph). -/
structure label_seq_name_graph_cache_key where
  name : Name
  graph : Oid
deriving DecidableEq

/-- Hash key of the edge-schema cache. -/
structure edge_schema_cache_key where
  graph : Oid
  edge_label_id : Int
deriving DecidableEq

/-- Hash key of the two vertex-label caches. -/
structure vertex_labels_cache_key where
  graph : Oid
  vertex_label_id : Int
deriving DecidableEq

/-- A hash table of the host (`HTAB`): its entries, key and data, in the order in
which a sequential scan (`hash_seq_search`) visits them.  A table that has not been
created yet holds no entry and is represented by the empty table, so that
`initialize_caches` and the `create_*_cache` functions leave the model state as it is. -/
abbrev HTAB (K V : Type) := List (K × V)

/-- The call `hash_search(t, &key, HASH_FIND, NULL)`: the data stored under the key. -/
def hash_find {K V : Type} [DecidableEq K] (t : HTAB K V) (key : K) : Option V :=
  match t with
  | [] => none
  | e :: rest => if e.1 = key then some e.2 else hash_find rest key

/-- The call `hash_search(t, &key, HASH_ENTER, &found)` followed by the assignment of
the entry's data: an existing entry of the key is overwritten, otherwise a new entry
is added. -/
def hash_enter {K V : Type} [DecidableEq K] (t : HTAB K V) (key : K) (data : V) : HTAB K V :=
  match t with
  | [] => [(key, data)]
  | e :: rest => if e.1 = key then (key, data) :: rest else e :: hash_enter rest key data

/-- The call `hash_search(t, &key, HASH_REMOVE, NULL)`: whether an entry was found (the
returned pointer is non-NULL), and the table without the key. -/
def hash_remove {K V : Type} [DecidableEq K] (t : HTAB K V) (key : K) : Bool × HTAB K V :=
  ((hash_find t key).isSome, t.filter (fun e => decide (e.1 ≠ key)))

/-- Errors that the code raises with `ereport(ERROR, ...)`, and a failed `Assert`. -/
inductive AgError where
  | ERRCODE_UNDEFINED_TABLE (errmsg : String)
  | ERRCODE_UNDEFINED_OBJECT (errmsg : String)
  | ERRCODE_NULL_VALUE_NOT_ALLOWED (errmsg : String)
  | ERRCODE_UNIQUE_VIOLATION (errmsg : String)
  | internal (errmsg : String)
  | assertion (expr : String)
deriving DecidableEq

/-- The nine hash tables of `ag_cache.c`. -/
structure AgCache where
  graph_name_cache_hash : HTAB Name graph_cache_data
  graph_namespace_cache_hash : HTAB Oid graph_cache_data
  label_name_graph_cache_hash : HTAB label_name_graph_cache_key label_cache_data
  label_graph_oid_cache_hash : HTAB label_graph_oid_cache_key label_cache_data
  label_relation_cache_hash : HTAB Oid label_cache_data
  label_seq_name_graph_cache_hash : HTAB label_seq_name_graph_cache_key label_cache_data
  edge_schema_cache_hash : HTAB edge_schema_cache_key edge_schema_cache_data
  start_vertex_end_labels_cache_hash : HTAB vertex_labels_cache_key vertex_edge_labels_cache_data
  end_vertex_start_labels_cache_hash : HTAB vertex_labels_cache_key vertex_edge_labels_cache_data
deriving DecidableEq

/-- The caches before anything has been looked up. -/
def AgCache.empty : AgCache := ⟨[], [], [], [], [], [], [], [], []⟩

/-- Catalog tables and caches of one backend. -/
structure AgState where
  catalog : Catalog
  cache : AgCache
deriving DecidableEq

/-! ## Invalidation (`ag_cache.c`) -/

/-- Embedding of `flush_graph_name_cache`: the table is destroyed and recreated. -/
def flush_graph_name_cache (c : AgCache) : AgCache := { c with graph_name_cache_hash := [] }

/-- Embedding of `flush_graph_namespace_cache`. -/
def flush_graph_namespace_cache (c : AgCache) : AgCache :=
  { c with graph_namespace_cache_hash := [] }

/-- Embedding of `invalidate_graph_caches`: both graph caches are flushed. -/
def invalidate_graph_caches (c : AgCache) : AgCache :=
  flush_graph_namespace_cache (flush_graph_name_cache c)

/-- The `for (;;)` loop of the three scanning invalidation functions: the first
entry, in scan order, whose cached relation is `relid`. -/
def seq_search_relation {K : Type} (relid : Oid) :
    HTAB K label_cache_data → Option (K × label_cache_data)
  | [] => none
  | entry :: rest =>
    if entry.2.relation ≠ relid then seq_search_relation relid rest else some entry

/-- Common body of `invalidate_label_name_graph_cache`, `invalidate_label_graph_oid_cache`
and `invalidate_label_seq_name_graph_cache`, which differ in the table and the message:
the first entry whose relation is `relid` is removed by its key, then the loop is left;
a removal that does not find the entry is an internal error. -/
def invalidate_by_scan {K : Type} [DecidableEq K] (errmsg : String)
    (t : HTAB K label_cache_data) (relid : Oid) : Except AgError (HTAB K label_cache_data) :=
  match seq_search_relation relid t with
  | none => Except.ok t
  | some entry =>
    let removed := hash_remove t entry.1
    if removed.1 = false then Except.error (AgError.internal errmsg)
    else Except.ok removed.2

/-- Embedding of `invalidate_label_name_graph_cache`. -/
def invalidate_label_name_graph_cache (t : HTAB label_name_graph_cache_key label_cache_data)
    (relid : Oid) : Except AgError (HTAB label_name_graph_cache_key label_cache_data) :=
  invalidate_by_scan "label (name, graph) cache corrupted" t relid

/-- Embedding of `invalidate_label_graph_oid_cache`. -/
def invalidate_label_graph_oid_cache (t : HTAB label_graph_oid_cache_key label_cache_data)
    (relid : Oid) : Except AgError (HTAB label_graph_oid_cache_key label_cache_data) :=
  invalidate_by_scan "label (graph, id) cache corrupted" t relid

/-- Embedding of `invalidate_label_relation_cache`: looks the relation up as a key. -/
def invalidate_label_relation_cache (t : HTAB Oid label_cache_data) (relid : Oid) :
    Except AgError (HTAB Oid label_cache_data) :=
  match hash_find t relid with
  | none => Except.ok t
  | some _ =>
    let removed := hash_remove t relid
    if removed.1 = false then Except.error (AgError.internal "label (namespace) cache corrupted")
    else Except.ok removed.2

/-- Embedding of `invalidate_label_seq_name_graph_cache`. -/
def invalidate_label_seq_name_graph_cache
    (t : HTAB label_seq_name_graph_cache_key label_cache_data) (relid : Oid) :
    Except AgError (HTAB label_seq_name_graph_cache_key label_cache_data) :=
  invalidate_by_scan "label (seq_name, graph) cache corrupted" t relid

/-- Embedding of `invalidate_label_caches`, the relation-cache callback: for a valid
`relid` the four label caches are invalidated in turn, otherwise all four are flushed. -/
def invalidate_label_caches (c : AgCache) (relid : Oid) : Except AgError AgCache :=
  if OidIsValid relid then
    match invalidate_label_name_graph_cache c.label_name_graph_cache_hash relid with
    | Except.error e => Except.error e
    | Except.ok t1 =>
      match invalidate_label_graph_oid_cache c.label_graph_oid_cache_hash relid with
      | Except.error e => Except.error e
      | Except.ok t2 =>
        match invalidate_label_relation_cache c.label_relation_cache_hash relid with
        | Except.error e => Except.error e
        | Except.ok t3 =>
          match invalidate_label_seq_name_graph_cache c.label_seq_name_graph_cache_hash relid with
          | Except.error e => Except.error e
          | Except.ok t4 =>
            Except.ok
              { c with
                label_name_graph_cache_hash := t1
                label_graph_oid_cache_hash := t2
                label_relation_cache_hash := t3
                label_seq_name_graph_cache_hash := t4 }
  else
    Except.ok
      { c with
        label_name_graph_cache_hash := []
        label_graph_oid_cache_hash := []
        label_relation_cache_hash := []
        label_seq_name_graph_cache_hash := [] }

/-- Embedding of `invalidate_edge_schema_caches_for_graph`: whatever the graph, the
three edge-schema caches are flushed. -/
def invalidate_edge_schema_caches_for_graph (c : AgCache) (_graph : Oid) : AgCache :=
  { c with
    edge_schema_cache_hash := []
    start_vertex_end_labels_cache_hash := []
    end_vertex_start_labels_cache_hash := [] }

/-- An invalidation message of the host for which `ag_cache.c` registers a callback:
a change of the namespace catalog (callback `invalidate_graph_caches`) or a relation
event (callback `invalidate_label_caches`). -/
inductive InvalMsg where
  | namespace_event (hash_value : Nat)
  | relcache_event (relid : Oid)
deriving DecidableEq

/-- The callback that the host runs for one message. -/
def deliver_inval (c : AgCache) (msg : InvalMsg) : Except AgError AgCache :=
  match msg with
  | InvalMsg.namespace_event _ => Except.ok (invalidate_graph_caches c)
  | InvalMsg.relcache_event relid => invalidate_label_caches c relid

/-- The host's `AcceptInvalidationMessages`, which `table_open` may run: the pending
messages are delivered in order. -/
def AcceptInvalidationMessages (c : AgCache) : List InvalMsg → Except AgError AgCache
  | [] => Except.ok c
  | msg :: rest =>
    match deliver_inval c msg with
    | Except.error e => Except.error e
    | Except.ok c1 => AcceptInvalidationMessages c1 rest

/-! ## Cache lookups (`ag_cache.c`)

Every lookup takes the list `msgs` of invalidation messages that are pending when its
miss path opens the catalog table: `table_open` may deliver them before the scan.  An
`Assert` on an argument is an obligation of the caller and is not modelled; the
`Assert(!found)` of a fill path is modelled as the error `AgError.assertion`. -/

/-- Embedding of `fill_graph_cache_data`. -/
def fill_graph_cache_data (tuple : ag_graph_row) : graph_cache_data :=
  { oid := tuple.oid, name := namestrcpy tuple.name, namespace_oid := tuple.namespace_oid }

/-- Embedding of `fill_label_cache_data`. -/
def fill_label_cache_data (tuple : ag_label_row) : label_cache_data :=
  { name := namestrcpy tuple.name, graph := tuple.graph, id := tuple.id, kind := tuple.kind,
    relation := tuple.relation, seq_name := namestrcpy tuple.seq_name }

/-- The common end of the six fill paths that cache one row: without a tuple the
result is `NULL` and the table is left alone; with a tuple the key is entered, which
must not have been found, and the entry is filled. -/
def enter_tuple {K V : Type} [DecidableEq K] (t : HTAB K V) (key : K) (tuple : Option V) :
    Except AgError (Option V × HTAB K V) :=
  match tuple with
  | none => Except.ok (none, t)
  | some data =>
    if (hash_find t key).isSome then Except.error (AgError.assertion "!found")
    else Except.ok (some data, hash_enter t key data)

/-- Embedding of `search_graph_name_cache_miss`. -/
def search_graph_name_cache_miss (st : AgState) (msgs : List InvalMsg) (name : Name) :
    Except AgError (Option graph_cache_data × AgState) :=
  match AcceptInvalidationMessages st.cache msgs with
  | Except.error e => Except.error e
  | Except.ok c =>
    let tuple := st.catalog.ag_graph.find? (fun r => decide (r.name = name))
    match enter_tuple c.graph_name_cache_hash name (tuple.map fill_graph_cache_data) with
    | Except.error e => Except.error e
    | Except.ok (res, t) =>
      Except.ok (res, { st with cache := { c with graph_name_cache_hash := t } })

/-- Embedding of `search_graph_name_cache`. -/
def search_graph_name_cache (st : AgState) (msgs : List InvalMsg) (name : String) :
    Except AgError (Option graph_cache_data × AgState) :=
  let name_key := namestrcpy name
  match hash_find st.cache.graph_name_cache_hash name_key with
  | some data => Except.ok (some data, st)
  | none => search_graph_name_cache_miss st msgs name_key

/-- Embedding of `search_graph_namespace_cache_miss`. -/
def search_graph_namespace_cache_miss (st : AgState) (msgs : List InvalMsg)
    (namespace_oid : Oid) : Except AgError (Option graph_cache_data × AgState) :=
  match AcceptInvalidationMessages st.cache msgs with
  | Except.error e => Except.error e
  | Except.ok c =>
    let tuple := st.catalog.ag_graph.find? (fun r => decide (r.namespace_oid = namespace_oid))
    match enter_tuple c.graph_namespace_cache_hash namespace_oid
        (tuple.map fill_graph_cache_data) with
    | Except.error e => Except.error e
    | Except.ok (res, t) =>
      Except.ok (res, { st with cache := { c with graph_namespace_cache_hash := t } })

/-- Embedding of `search_graph_namespace_cache`. -/
def search_graph_namespace_cache (st : AgState) (msgs : List InvalMsg) (namespace_oid : Oid) :
    Except AgError (Option graph_cache_data × AgState) :=
  match hash_find st.cache.graph_namespace_cache_hash namespace_oid with
  | some data => Except.ok (some data, st)
  | none => search_graph_namespace_cache_miss st msgs namespace_oid

/-- The key that `label_name_graph_cache_hash_search` builds. -/
def label_name_graph_key (name : Name) (graph : Oid) : label_name_graph_cache_key :=
  { name := namestrcpy name, graph := graph }

/-- Embedding of `search_label_name_graph_cache_miss`. -/
def search_label_name_graph_cache_miss (st : AgState) (msgs : List InvalMsg) (name : Name)
    (graph : Oid) : Except AgError (Option label_cache_data × AgState) :=
  match AcceptInvalidationMessages st.cache msgs with
  | Except.error e => Except.error e
  | Except.ok c =>
    let tuple := st.catalog.ag_label.find? (fun r => decide (r.name = name ∧ r.graph = graph))
    match enter_tuple c.label_name_graph_cache_hash (label_name_graph_key name graph)
        (tuple.map fill_label_cache_data) with
    | Except.error e => Except.error e
    | Except.ok (res, t) =>
      Except.ok (res, { st with cache := { c with label_name_graph_cache_hash := t } })

/-- Embedding of `search_label_name_graph_cache`. -/
def search_label_name_graph_cache (st : AgState) (msgs : List InvalMsg) (name : String)
    (graph : Oid) : Except AgError (Option label_cache_data × AgState) :=
  let name_key := namestrcpy name
  match hash_find st.cache.label_name_graph_cache_hash (label_name_graph_key name_key graph) with
  | some data => Except.ok (some data, st)
  | none => search_label_name_graph_cache_miss st msgs name_key graph

/-- The key that `label_graph_oid_cache_hash_search` builds. -/
def label_graph_oid_key (graph : Oid) (id : Int) : label_graph_oid_cache_key :=
  { graph := graph, id := id }

/-- Embedding of `search_label_graph_oid_cache_miss`. -/
def search_label_graph_oid_cache_miss (st : AgState) (msgs : List InvalMsg) (graph : Oid)
    (id : Int) : Except AgError (Option label_cache_data × AgState) :=
  match AcceptInvalidationMessages st.cache msgs with
  | Except.error e => Except.error e
  | Except.ok c =>
    let tuple := st.catalog.ag_label.find? (fun r => decide (r.graph = graph ∧ r.id = id))
    match enter_tuple c.label_graph_oid_cache_hash (label_graph_oid_key graph id)
        (tuple.map fill_label_cache_data) with
    | Except.error e => Except.error e
    | Except.ok (res, t) =>
      Except.ok (res, { st with cache := { c with label_graph_oid_cache_hash := t } })

/-- Embedding of `search_label_graph_oid_cache`. -/
def search_label_graph_oid_cache (st : AgState) (msgs : List InvalMsg) (graph_oid : Oid)
    (id : Int) : Except AgError (Option label_cache_data × AgState) :=
  match hash_find st.cache.label_graph_oid_cache_hash (label_graph_oid_key graph_oid id) with
  | some data => Except.ok (some data, st)
  | none => search_label_graph_oid_cache_miss st msgs graph_oid id

/-- The byte at position `i` of the buffer of a `NameData` that holds the name `n`: a
character of the name stands for one byte, and `namestrcpy` has set the bytes behind
the name to zero. -/
def name_byte (n : Name) (i : Nat) : Nat :=
  match n.data[i]? with
  | some c => c.toNat % 256
  | none => 0

/-- Four consecutive bytes read as a 32-bit value, the first byte the least
significant one. -/
def uint32_of_bytes (b0 b1 b2 b3 : Nat) : Nat := b0 + 256 * b1 + 65536 * b2 + 16777216 * b3

/-- The first `sizeof(Oid)` bytes of the buffer of a `NameData`, read as an `Oid`. -/
def name_head_oid (n : Name) : Oid :=
  uint32_of_bytes (name_byte n 0) (name_byte n 1) (name_byte n 2) (name_byte n 3)

/-- The string that starts `sizeof(Oid)` bytes into the buffer of a `NameData`. -/
def name_tail (n : Name) : Name := String.mk (n.data.drop 4)

/-- What the two fields of a `label_relation_cache_entry`, the key `relation` (at
offset 0, four bytes) and `data` (behind it), hold after a `label_cache_data` has been
written at the start of the entry.  Of the record `written`, the first four bytes of
`name` lie in the key; `data.name` starts four bytes into `name`; `data.graph` lies on
`id`, `data.id` on `kind` and the three padding bytes behind it (no assignment writes
them; they are taken as zero), `data.kind` on the first byte of `relation`,
`data.relation` on the first four bytes of `seq_name`, and `data.seq_name` starts four
bytes into `seq_name`. -/
def entry_written_at_start (written : label_cache_data) : Oid × label_cache_data :=
  (name_head_oid written.name,
   { name := name_tail written.name
     graph := (written.id % 4294967296).toNat
     id := ((written.kind.toNat % 256 : Nat) : Int)
     kind := Char.ofNat (written.relation % 256)
     relation := name_head_oid written.seq_name
     seq_name := name_tail written.seq_name })

/-- Embedding of `search_label_relation_cache_miss`.  Unlike the other fill paths,
which declare `entry` as a pointer to the hash entry and fill `&entry->data`, this
function declares `entry` as a `label_cache_data *`, passes `entry` itself to
`fill_label_cache_data` and returns it: the record is written at the start of the new
hash entry, over its key, and the caller gets the record as it was written.  The
table holds the new entry, behind the others, as `entry_written_at_start` describes
it; a lookup finds an entry by the key that the entry holds. -/
def search_label_relation_cache_miss (st : AgState) (msgs : List InvalMsg) (relation : Oid) :
    Except AgError (Option label_cache_data × AgState) :=
  match AcceptInvalidationMessages st.cache msgs with
  | Except.error e => Except.error e
  | Except.ok c =>
    match st.catalog.ag_label.find? (fun r => decide (r.relation = relation)) with
    | none => Except.ok (none, { st with cache := c })
    | some tuple =>
      if (hash_find c.label_relation_cache_hash relation).isSome then
        Except.error (AgError.assertion "!found")
      else
        let written := fill_label_cache_data tuple
        Except.ok
          (some written,
           { st with
             cache :=
               { c with
                 label_relation_cache_hash :=
                   lappend c.label_relation_cache_hash (entry_written_at_start written) } })

/-- Embedding of `search_label_relation_cache`. -/
def search_label_relation_cache (st : AgState) (msgs : List InvalMsg) (relation : Oid) :
    Except AgError (Option label_cache_data × AgState) :=
  match hash_find st.cache.label_relation_cache_hash relation with
  | some data => Except.ok (some data, st)
  | none => search_label_relation_cache_miss st msgs relation

/-- The key that `label_seq_name_graph_cache_hash_search` builds. -/
def label_seq_name_graph_key (name : Name) (graph : Oid) : label_seq_name_graph_cache_key :=
  { name := namestrcpy name, graph := graph }

/-- Embedding of `search_label_seq_name_graph_cache_miss`. -/
def search_label_seq_name_graph_cache_miss (st : AgState) (msgs : List InvalMsg) (name : Name)
    (graph : Oid) : Except AgError (Option label_cache_data × AgState) :=
  match AcceptInvalidationMessages st.cache msgs with
  | Except.error e => Except.error e
  | Except.ok c =>
    let tuple :=
      st.catalog.ag_label.find? (fun r => decide (r.seq_name = name ∧ r.graph = graph))
    match enter_tuple c.label_seq_name_graph_cache_hash (label_seq_name_graph_key name graph)
        (tuple.map fill_label_cache_data) with
    | Except.error e => Except.error e
    | Except.ok (res, t) =>
      Except.ok (res, { st with cache := { c with label_seq_name_graph_cache_hash := t } })

/-- Embedding of `search_label_seq_name_graph_cache`. -/
def search_label_seq_name_graph_cache (st : AgState) (msgs : List InvalMsg) (name : String)
    (graph : Oid) : Except AgError (Option label_cache_data × AgState) :=
  let name_key := namestrcpy name
  match hash_find st.cache.label_seq_name_graph_cache_hash
      (label_seq_name_graph_key name_key graph) with
  | some data => Except.ok (some data, st)
  | none => search_label_seq_name_graph_cache_miss st msgs name_key graph

/-- Membership test of an integer list (`list_member_int`). -/
def list_member_int (l : List Int) (x : Int) : Bool :=
  match l with
  | [] => false
  | y :: ys => if y = x then true else list_member_int ys x

/-- The scan loop of `search_edge_schema_cache_miss`: every row of the graph and edge
label contributes its (start, end) pair, appended to `entries_list`. -/
def edge_schema_scan_loop (graph : Oid) (edge_label_id : Int)
    (entries_list : List edge_schema_entry) :
    List ag_graph_schema_row → List edge_schema_entry
  | [] => entries_list
  | tuple :: rest =>
    if tuple.graph = graph ∧ tuple.edge_label_id = edge_label_id then
      edge_schema_scan_loop graph edge_label_id
        (lappend entries_list
          { start_label_id := tuple.start_label_id, end_label_id := tuple.end_label_id }) rest
    else
      edge_schema_scan_loop graph edge_label_id entries_list rest

/-- The scan loop of `search_start_vertex_end_labels_cache_miss`: the end label of every
row of the graph and start label, appended unless it is in the list already. -/
def end_labels_scan_loop (graph : Oid) (start_label_id : Int) (label_ids_list : List Int) :
    List ag_graph_schema_row → List Int
  | [] => label_ids_list
  | tuple :: rest =>
    if tuple.graph = graph ∧ tuple.start_label_id = start_label_id then
      if list_member_int label_ids_list tuple.end_label_id = false then
        end_labels_scan_loop graph start_label_id
          (lappend label_ids_list tuple.end_label_id) rest
      else
        end_labels_scan_loop graph start_label_id label_ids_list rest
    else
      end_labels_scan_loop graph start_label_id label_ids_list rest

/-- The scan loop of `search_end_vertex_start_labels_cache_miss`: the start label of
every row of the graph and end label, appended unless it is in the list already. -/
def start_labels_scan_loop (graph : Oid) (end_label_id : Int) (label_ids_list : List Int) :
    List ag_graph_schema_row → List Int
  | [] => label_ids_list
  | tuple :: rest =>
    if tuple.graph = graph ∧ tuple.end_label_id = end_label_id then
      if list_member_int label_ids_list tuple.start_label_id = false then
        start_labels_scan_loop graph end_label_id
          (lappend label_ids_list tuple.start_label_id) rest
      else
        start_labels_scan_loop graph end_label_id label_ids_list rest
    else
      start_labels_scan_loop graph end_label_id label_ids_list rest

/-- The entry that `search_edge_schema_cache_miss` fills from the scanned list. -/
def edge_schema_data (graph : Oid) (edge_label_id : Int)
    (entries_list : List edge_schema_entry) : edge_schema_cache_data :=
  { graph := graph, edge_label_id := edge_label_id, num_entries := entries_list.length,
    entries := if 0 < entries_list.length then entries_list else [] }

/-- The entry that the two vertex-label fill paths fill from the scanned list. -/
def vertex_labels_data (graph : Oid) (vertex_label_id : Int) (label_ids_list : List Int) :
    vertex_edge_labels_cache_data :=
  { graph := graph, vertex_label_id := vertex_label_id,
    num_label_ids := label_ids_list.length,
    label_ids := if 0 < label_ids_list.length then label_ids_list else [] }

/-- The common end of the three fill paths of the edge-schema caches: the key is
entered, which must not have been found, and the entry is filled. -/
def enter_data {K V : Type} [DecidableEq K] (t : HTAB K V) (key : K) (data : V) :
    Except AgError (V × HTAB K V) :=
  if (hash_find t key).isSome then Except.error (AgError.assertion "!found")
  else Except.ok (data, hash_enter t key data)

/-- Embedding of `search_edge_schema_cache_miss`. -/
def search_edge_schema_cache_miss (st : AgState) (msgs : List InvalMsg) (graph : Oid)
    (edge_label_id : Int) : Except AgError (edge_schema_cache_data × AgState) :=
  match AcceptInvalidationMessages st.cache msgs with
  | Except.error e => Except.error e
  | Except.ok c =>
    let entries_list :=
      edge_schema_scan_loop graph edge_label_id [] st.catalog.ag_graph_schema
    match enter_data c.edge_schema_cache_hash
        { graph := graph, edge_label_id := edge_label_id }
        (edge_schema_data graph edge_label_id entries_list) with
    | Except.error e => Except.error e
    | Except.ok (res, t) =>
      Except.ok (res, { st with cache := { c with edge_schema_cache_hash := t } })

/-- Embedding of `search_edge_schema_cache`. -/
def search_edge_schema_cache (st : AgState) (msgs : List InvalMsg) (graph : Oid)
    (edge_label_id : Int) : Except AgError (edge_schema_cache_data × AgState) :=
  match hash_find st.cache.edge_schema_cache_hash
      { graph := graph, edge_label_id := edge_label_id } with
  | some data => Except.ok (data, st)
  | none => search_edge_schema_cache_miss st msgs graph edge_label_id

/-- Embedding of `search_start_vertex_end_labels_cache_miss`. -/
def search_start_vertex_end_labels_cache_miss (st : AgState) (msgs : List InvalMsg)
    (graph : Oid) (start_label_id : Int) :
    Except AgError (vertex_edge_labels_cache_data × AgState) :=
  match AcceptInvalidationMessages st.cache msgs with
  | Except.error e => Except.error e
  | Except.ok c =>
    let label_ids_list :=
      end_labels_scan_loop graph start_label_id [] st.catalog.ag_graph_schema
    match enter_data c.start_vertex_end_labels_cache_hash
        { graph := graph, vertex_label_id := start_label_id }
        (vertex_labels_data graph start_label_id label_ids_list) with
    | Except.error e => Except.error e
    | Except.ok (res, t) =>
      Except.ok (res, { st with cache := { c with start_vertex_end_labels_cache_hash := t } })

/-- Embedding of `search_start_vertex_end_labels_cache`. -/
def search_start_vertex_end_labels_cache (st : AgState) (msgs : List InvalMsg) (graph : Oid)
    (start_label_id : Int) : Except AgError (vertex_edge_labels_cache_data × AgState) :=
  match hash_find st.cache.start_vertex_end_labels_cache_hash
      { graph := graph, vertex_label_id := start_label_id } with
  | some data => Except.ok (data, st)
  | none => search_start_vertex_end_labels_cache_miss st msgs graph start_label_id

/-- Embedding of `search_end_vertex_start_labels_cache_miss`. -/
def search_end_vertex_start_labels_cache_miss (st : AgState) (msgs : List InvalMsg)
    (graph : Oid) (end_label_id : Int) :
    Except AgError (vertex_edge_labels_cache_data × AgState) :=
  match AcceptInvalidationMessages st.cache msgs with
  | Except.error e => Except.error e
  | Except.ok c =>
    let label_ids_list :=
      start_labels_scan_loop graph end_label_id [] st.catalog.ag_graph_schema
    match enter_data c.end_vertex_start_labels_cache_hash
        { graph := graph, vertex_label_id := end_label_id }
        (vertex_labels_data graph end_label_id label_ids_list) with
    | Except.error e => Except.error e
    | Except.ok (res, t) =>
      Except.ok (res, { st with cache := { c with end_vertex_start_labels_cache_hash := t } })

/-- Embedding of `search_end_vertex_start_labels_cache`. -/
def search_end_vertex_start_labels_cache (st : AgState) (msgs : List InvalMsg) (graph : Oid)
    (end_label_id : Int) : Except AgError (vertex_edge_labels_cache_data × AgState) :=
  match hash_find st.cache.end_vertex_start_labels_cache_hash
      { graph := graph, vertex_label_id := end_label_id } with
  | some data => Except.ok (data, st)
  | none => search_end_vertex_start_labels_cache_miss st msgs graph end_label_id

/-! ## Catalog changes (`ag_label.c`) -/

/-- Modelled from the spec: the unique indexes of `ag_label`, on `(name, graph)`,
`(graph, id)`, `relation` and `(seq_name, graph)`, which are declared outside the C
sources.  The test tells whether inserting `row` would violate one of them. -/
def ag_label_unique_violation (rows : List ag_label_row) (row : ag_label_row) : Bool :=
  rows.any (fun r =>
    decide (r.name = row.name ∧ r.graph = row.graph) ||
    decide (r.graph = row.graph ∧ r.id = row.id) ||
    decide (r.relation = row.relation) ||
    decide (r.seq_name = row.seq_name ∧ r.graph = row.graph))

/-- Embedding of `insert_label`: the row is formed and inserted; the insertion fails
when a unique index rejects the row.  No cache is touched. -/
def insert_label (st : AgState) (label_name : String) (graph_oid : Oid) (label_id : Int)
    (label_kind : Char) (label_relation : Oid) (seq_name : String) : Except AgError AgState :=
  let tuple : ag_label_row :=
    { name := namestrcpy label_name, graph := graph_oid, id := label_id, kind := label_kind,
      relation := label_relation, seq_name := namestrcpy seq_name }
  if ag_label_unique_violation st.catalog.ag_label tuple then
    Except.error (AgError.ERRCODE_UNIQUE_VIOLATION
      "duplicate key value violates unique constraint")
  else
    Except.ok
      { st with catalog := { st.catalog with ag_label := lappend st.catalog.ag_label tuple } }

/-- Embedding of `insert_edge_schema_entry`: the row is appended, the edge-schema
caches are invalidated, and the row is visible to the lookups that follow. -/
def insert_edge_schema_entry (st : AgState) (graph_oid : Oid) (edge_label_id : Int)
    (start_label_id : Int) (end_label_id : Int) : AgState :=
  { catalog :=
      { st.catalog with
        ag_graph_schema :=
          lappend st.catalog.ag_graph_schema
            { graph := graph_oid, edge_label_id := edge_label_id,
              start_label_id := start_label_id, end_label_id := end_label_id } },
    cache := invalidate_edge_schema_caches_for_graph st.cache graph_oid }

/-- Embedding of `edge_schema_entry_exists`. -/
def edge_schema_entry_exists (st : AgState) (graph_oid : Oid) (edge_label_id : Int)
    (start_label_id : Int) (end_label_id : Int) : Bool :=
  (st.catalog.ag_graph_schema.find? (fun r =>
    decide (r.graph = graph_oid ∧ r.edge_label_id = edge_label_id ∧
      r.start_label_id = start_label_id ∧ r.end_label_id = end_label_id))).isSome

/-- Embedding of `graph_has_edge_schema_entries`. -/
def graph_has_edge_schema_entries (st : AgState) (graph_oid : Oid) : Bool :=
  (st.catalog.ag_graph_schema.find? (fun r => decide (r.graph = graph_oid))).isSome

/-- Embedding of `delete_edge_schema_entries`: every row of the graph and edge label is
deleted, then the edge-schema caches are invalidated. -/
def delete_edge_schema_entries (st : AgState) (graph_oid : Oid) (edge_label_id : Int) :
    AgState :=
  { catalog :=
      { st.catalog with
        ag_graph_schema :=
          st.catalog.ag_graph_schema.filter (fun r =>
            !decide (r.graph = graph_oid ∧ r.edge_label_id = edge_label_id)) },
    cache := invalidate_edge_schema_caches_for_graph st.cache graph_oid }

/-- Embedding of `delete_edge_schema_entries_for_graph`. -/
def delete_edge_schema_entries_for_graph (st : AgState) (graph_oid : Oid) : AgState :=
  { catalog :=
      { st.catalog with
        ag_graph_schema :=
          st.catalog.ag_graph_schema.filter (fun r => !decide (r.graph = graph_oid)) },
    cache := invalidate_edge_schema_caches_for_graph st.cache graph_oid }

/-- Embedding of `delete_edge_schema_entries_for_vertex`: among the rows of the graph,
those whose start or end label is the vertex label are deleted. -/
def delete_edge_schema_entries_for_vertex (st : AgState) (graph_oid : Oid)
    (vertex_label_id : Int) : AgState :=
  { catalog :=
      { st.catalog with
        ag_graph_schema :=
          st.catalog.ag_graph_schema.filter (fun r =>
            !decide (r.graph = graph_oid ∧
              (r.start_label_id = vertex_label_id ∨ r.end_label_id = vertex_label_id))) },
    cache := invalidate_edge_schema_caches_for_graph st.cache graph_oid }

/-- Embedding of `delete_label`: the row of the relation is looked up, its absence is
an error; the row is deleted and the edge-schema rows that refer to the label are
deleted according to the label kind. -/
def delete_label (st : AgState) (relation : Oid) : Except AgError AgState :=
  match st.catalog.ag_label.find? (fun r => decide (r.relation = relation)) with
  | none =>
    Except.error (AgError.ERRCODE_UNDEFINED_TABLE "label (relation=%u) does not exist")
  | some tuple =>
    let graph_oid := tuple.graph
    let label_id := tuple.id
    let label_kind := tuple.kind
    let st1 : AgState :=
      { st with
        catalog :=
          { st.catalog with
            ag_label := st.catalog.ag_label.eraseP (fun r => decide (r.relation = relation)) } }
    if label_kind = LABEL_KIND_EDGE then
      Except.ok (delete_edge_schema_entries st1 graph_oid label_id)
    else if label_kind = LABEL_KIND_VERTEX then
      Except.ok (delete_edge_schema_entries_for_vertex st1 graph_oid label_id)
    else
      Except.ok st1

/-! ## Vocabulary of the statements -/

/-- Left-to-right sum starting from zero, the order in which the loops accumulate. -/
def sum_left {C : Type} [Zero C] [Add C] (l : List C) : C := l.foldl (fun a b => a + b) 0

/-- The relation described by `rte` is a polymorphic storage root (an inheritance
parent named `_ag_label_vertex` or `_ag_label_edge`) whose alias has an inference
entry, and `S` is the inferred list of that alias. -/
def prunes_with {C : Type} (host : Host C) (ctx : GraphOptState) (rte : RangeTblEntry)
    (S : List Oid) : Prop :=
  rte.rtekind = RTEKind.RTE_RELATION ∧ rte.inh = true ∧
  (host.get_rel_name rte.relid = some "_ag_label_vertex" ∨
    host.get_rel_name rte.relid = some "_ag_label_edge") ∧
  ∃ v : String, rte.rte_alias = some { aliasname := some v } ∧
    graph_opt_has_inferred_entry ctx (some v) = true ∧
    graph_opt_get_inferred_labels ctx (some v) = S

/-- The plan is an Append or a MergeAppend. -/
def is_union_plan {C : Type} (p : PathNode C) : Prop :=
  p.path.type = NodeTag.T_AppendPath ∨ p.path.type = NodeTag.T_MergeAppendPath

/-- The children of a plan whose backing relation is in the inferred list. -/
def retained {C : Type} (root : PlannerInfo) (S : List Oid) (p : PathNode C) : List (Path C) :=
  p.subpaths.filter (child_allowed root S)

/-! ## Direct catalog queries

What a query of the catalog rows returns for a key, written from the description of
the catalog: the row of a unique key, or the projection of the rows of a graph and one
other key, without duplicates.  The cache lookups are compared with these. -/

/-- The graph record with the given name, if any. -/
def direct_graph_by_name (cat : Catalog) (name : Name) : Option graph_cache_data :=
  (cat.ag_graph.find? (fun r => decide (r.name = name))).map fill_graph_cache_data

/-- The graph record with the given namespace, if any. -/
def direct_graph_by_namespace (cat : Catalog) (namespace_oid : Oid) : Option graph_cache_data :=
  (cat.ag_graph.find? (fun r => decide (r.namespace_oid = namespace_oid))).map
    fill_graph_cache_data

/-- The label record with the given name in the given graph, if any. -/
def direct_label_by_name_graph (cat : Catalog) (name : Name) (graph : Oid) :
    Option label_cache_data :=
  (cat.ag_label.find? (fun r => decide (r.name = name ∧ r.graph = graph))).map
    fill_label_cache_data

/-- The label record with the given id in the given graph, if any. -/
def direct_label_by_graph_oid (cat : Catalog) (graph : Oid) (id : Int) :
    Option label_cache_data :=
  (cat.ag_label.find? (fun r => decide (r.graph = graph ∧ r.id = id))).map
    fill_label_cache_data

/-- The label record with the given relation, if any. -/
def direct_label_by_relation (cat : Catalog) (relation : Oid) : Option label_cache_data :=
  (cat.ag_label.find? (fun r => decide (r.relation = relation))).map fill_label_cache_data

/-- The label record with the given sequence name in the given graph, if any. -/
def direct_label_by_seq_name_graph (cat : Catalog) (name : Name) (graph : Oid) :
    Option label_cache_data :=
  (cat.ag_label.find? (fun r => decide (r.seq_name = name ∧ r.graph = graph))).map
    fill_label_cache_data

/-- A list without its repetitions: every value stays at its first occurrence. -/
def dedup_first : List Int → List Int
  | [] => []
  | x :: xs => x :: (dedup_first xs).filter (fun y => decide (y ≠ x))

/-- The (start, end) pairs of the rows of a graph and edge label, in row order. -/
def direct_edge_schema (cat : Catalog) (graph : Oid) (edge_label_id : Int) :
    edge_schema_cache_data :=
  let rows :=
    cat.ag_graph_schema.filter (fun r =>
      decide (r.graph = graph ∧ r.edge_label_id = edge_label_id))
  { graph := graph, edge_label_id := edge_label_id, num_entries := rows.length,
    entries :=
      rows.map (fun r =>
        { start_label_id := r.start_label_id, end_label_id := r.end_label_id }) }

/-- The end labels of the rows of a graph and start label, without repetitions. -/
def direct_end_labels (cat : Catalog) (graph : Oid) (start_label_id : Int) :
    vertex_edge_labels_cache_data :=
  let ids :=
    dedup_first
      ((cat.ag_graph_schema.filter (fun r =>
          decide (r.graph = graph ∧ r.start_label_id = start_label_id))).map
        (fun r => r.end_label_id))
  { graph := graph, vertex_label_id := start_label_id, num_label_ids := ids.length,
    label_ids := ids }

/-- The start labels of the rows of a graph and end label, without repetitions. -/
def direct_start_labels (cat : Catalog) (graph : Oid) (end_label_id : Int) :
    vertex_edge_labels_cache_data :=
  let ids :=
    dedup_first
      ((cat.ag_graph_schema.filter (fun r =>
          decide (r.graph = graph ∧ r.end_label_id = end_label_id))).map
        (fun r => r.start_label_id))
  { graph := graph, vertex_label_id := end_label_id, num_label_ids := ids.length,
    label_ids := ids }

/-! ## Sequences of operations -/

/-- One operation on the catalog and the caches: a catalog change of `ag_label.c`, an
invalidation message delivered between two operations, or a cache lookup (with the
messages that are pending when its miss path opens the table). -/
inductive Op where
  | insert_label (label_name : String) (graph_oid : Oid) (label_id : Int) (label_kind : Char)
      (label_relation : Oid) (seq_name : String)
  | delete_label (relation : Oid)
  | insert_edge_schema_entry (graph_oid : Oid) (edge_label_id start_label_id end_label_id : Int)
  | delete_edge_schema_entries (graph_oid : Oid) (edge_label_id : Int)
  | delete_edge_schema_entries_for_vertex (graph_oid : Oid) (vertex_label_id : Int)
  | delete_edge_schema_entries_for_graph (graph_oid : Oid)
  | invalidation (msg : InvalMsg)
  | search_graph_name (msgs : List InvalMsg) (name : String)
  | search_graph_namespace (msgs : List InvalMsg) (namespace_oid : Oid)
  | search_label_name_graph (msgs : List InvalMsg) (name : String) (graph : Oid)
  | search_label_graph_oid (msgs : List InvalMsg) (graph : Oid) (id : Int)
  | search_label_relation (msgs : List InvalMsg) (relation : Oid)
  | search_label_seq_name_graph (msgs : List InvalMsg) (name : String) (graph : Oid)
  | search_edge_schema (msgs : List InvalMsg) (graph : Oid) (edge_label_id : Int)
  | search_start_vertex_end_labels (msgs : List InvalMsg) (graph : Oid) (start_label_id : Int)
  | search_end_vertex_start_labels (msgs : List InvalMsg) (graph : Oid) (end_label_id : Int)
deriving DecidableEq

/-- The state that a successful lookup leaves. -/
def state_after {α : Type} (r : Except AgError (α × AgState)) : Except AgError AgState :=
  match r with
  | Except.error e => Except.error e
  | Except.ok res => Except.ok res.2

/-- The effect of one operation. -/
def step (st : AgState) : Op → Except AgError AgState
  | Op.insert_label n g i k r s => insert_label st n g i k r s
  | Op.delete_label r => delete_label st r
  | Op.insert_edge_schema_entry g e s t => Except.ok (insert_edge_schema_entry st g e s t)
  | Op.delete_edge_schema_entries g e => Except.ok (delete_edge_schema_entries st g e)
  | Op.delete_edge_schema_entries_for_vertex g v =>
    Except.ok (delete_edge_schema_entries_for_vertex st g v)
  | Op.delete_edge_schema_entries_for_graph g =>
    Except.ok (delete_edge_schema_entries_for_graph st g)
  | Op.invalidation msg =>
    match deliver_inval st.cache msg with
    | Except.error e => Except.error e
    | Except.ok c => Except.ok { st with cache := c }
  | Op.search_graph_name msgs name => state_after (search_graph_name_cache st msgs name)
  | Op.search_graph_namespace msgs ns => state_after (search_graph_namespace_cache st msgs ns)
  | Op.search_label_name_graph msgs name g =>
    state_after (search_label_name_graph_cache st msgs name g)
  | Op.search_label_graph_oid msgs g id => state_after (search_label_graph_oid_cache st msgs g id)
  | Op.search_label_relation msgs r => state_after (search_label_relation_cache st msgs r)
  | Op.search_label_seq_name_graph msgs name g =>
    state_after (search_label_seq_name_graph_cache st msgs name g)
  | Op.search_edge_schema msgs g e => state_after (search_edge_schema_cache st msgs g e)
  | Op.search_start_vertex_end_labels msgs g s =>
    state_after (search_start_vertex_end_labels_cache st msgs g s)
  | Op.search_end_vertex_start_labels msgs g e =>
    state_after (search_end_vertex_start_labels_cache st msgs g e)

/-- The effect of a sequence of operations; it stops at the first error. -/
def run (st : AgState) : List Op → Except AgError AgState
  | [] => Except.ok st
  | op :: rest =>
    match step st op with
    | Except.error e => Except.error e
    | Except.ok st1 => run st1 rest

/-- A sequence in which every `delete_label` of a relation is followed at once by the
relation event of that relation, as the host sends it when the relation of a label is
dropped. -/
def disciplined : List Op → Bool
  | [] => true
  | Op.delete_label r :: rest =>
    match rest with
    | Op.invalidation (InvalMsg.relcache_event r') :: rest' =>
      decide (r = r') && disciplined rest'
    | _ => false
  | _ :: rest => disciplined rest

/-- Every entry of every cache but the cache by relation agrees with the catalog: a
cached graph or label record is the record that the catalog holds for the entry's key,
a cached schema entry is the projection of the current rows of its key; and no two
label rows share a relation.  The cache by relation is left out: its fill path writes
the record over the key of the entry (`entry_written_at_start`). -/
structure Coherent (st : AgState) : Prop where
  relation_unique : (st.catalog.ag_label.map (fun r => r.relation)).Nodup
  graph_name : ∀ e ∈ st.cache.graph_name_cache_hash,
    direct_graph_by_name st.catalog e.1 = some e.2
  graph_namespace : ∀ e ∈ st.cache.graph_namespace_cache_hash,
    direct_graph_by_namespace st.catalog e.1 = some e.2
  label_name_graph : ∀ e ∈ st.cache.label_name_graph_cache_hash,
    direct_label_by_name_graph st.catalog e.1.name e.1.graph = some e.2
  label_graph_oid : ∀ e ∈ st.cache.label_graph_oid_cache_hash,
    direct_label_by_graph_oid st.catalog e.1.graph e.1.id = some e.2
  label_seq_name_graph : ∀ e ∈ st.cache.label_seq_name_graph_cache_hash,
    direct_label_by_seq_name_graph st.catalog e.1.name e.1.graph = some e.2
  edge_schema : ∀ e ∈ st.cache.edge_schema_cache_hash,
    e.2 = direct_edge_schema st.catalog e.1.graph e.1.edge_label_id
  start_vertex_end_labels : ∀ e ∈ st.cache.start_vertex_end_labels_cache_hash,
    e.2 = direct_end_labels st.catalog e.1.graph e.1.vertex_label_id
  end_vertex_start_labels : ∀ e ∈ st.cache.end_vertex_start_labels_cache_hash,
    e.2 = direct_start_labels st.catalog e.1.graph e.1.vertex_label_id

/-- Every table of the first cache holds entries of the second cache only. -/
structure CacheSub (c' c : AgCache) : Prop where
  graph_name : ∀ e ∈ c'.graph_name_cache_hash, e ∈ c.graph_name_cache_hash
  graph_namespace : ∀ e ∈ c'.graph_namespace_cache_hash, e ∈ c.graph_namespace_cache_hash
  label_name_graph : ∀ e ∈ c'.label_name_graph_cache_hash, e ∈ c.label_name_graph_cache_hash
  label_graph_oid : ∀ e ∈ c'.label_graph_oid_cache_hash, e ∈ c.label_graph_oid_cache_hash
  label_relation : ∀ e ∈ c'.label_relation_cache_hash, e ∈ c.label_relation_cache_hash
  label_seq_name_graph : ∀ e ∈ c'.label_seq_name_graph_cache_hash,
    e ∈ c.label_seq_name_graph_cache_hash
  edge_schema : ∀ e ∈ c'.edge_schema_cache_hash, e ∈ c.edge_schema_cache_hash
  start_vertex_end_labels : ∀ e ∈ c'.start_vertex_end_labels_cache_hash,
    e ∈ c.start_vertex_end_labels_cache_hash
  end_vertex_start_labels : ∀ e ∈ c'.end_vertex_start_labels_cache_hash,
    e ∈ c.end_vertex_start_labels_cache_hash

/-! ## Sequences of calls on the inference context -/

/-- One call of the interface of `cypher_graph_opt.c` that changes the context. -/
inductive GraphOptCall where
  | init
  | cleanup
  | add (var_name : Option String) (label_relids : List Oid)
deriving DecidableEq

/-- The effect of one call. -/
def graph_opt_call (st : GraphOptState) : GraphOptCall → GraphOptState
  | GraphOptCall.init => graph_opt_context_init st
  | GraphOptCall.cleanup => graph_opt_context_cleanup st
  | GraphOptCall.add var_name label_relids => graph_opt_add_inferred_labels st var_name label_relids

/-- The effect of a sequence of calls, first call first. -/
def graph_opt_calls (st : GraphOptState) : List GraphOptCall → GraphOptState
  | [] => st
  | call :: rest => graph_opt_calls (graph_opt_call st call) rest

/-! ## Readers of the edge schema (`ag_label.c`)

A loop `for (i = 0; i < n; i++)` over `array[i]` visits the first `n` elements of the
array, which the model writes as `array.take n`. -/

/-- The loop of `get_edge_start_label_ids` and `get_edge_end_label_ids`: a label id is
appended unless it is in the list already. -/
def append_unique_loop (label_ids : List Int) : List Int → List Int
  | [] => label_ids
  | label_id :: rest =>
    if list_member_int label_ids label_id = false then
      append_unique_loop (lappend label_ids label_id) rest
    else
      append_unique_loop label_ids rest

/-- Embedding of `get_edge_start_label_ids`. -/
def get_edge_start_label_ids (st : AgState) (msgs : List InvalMsg) (graph_oid : Oid)
    (edge_label_id : Int) : Except AgError (List Int × AgState) :=
  match search_edge_schema_cache st msgs graph_oid edge_label_id with
  | Except.error e => Except.error e
  | Except.ok (cached, st1) =>
    Except.ok
      (append_unique_loop []
        ((cached.entries.take cached.num_entries).map (fun entry => entry.start_label_id)),
       st1)

/-- Embedding of `get_edge_end_label_ids`. -/
def get_edge_end_label_ids (st : AgState) (msgs : List InvalMsg) (graph_oid : Oid)
    (edge_label_id : Int) : Except AgError (List Int × AgState) :=
  match search_edge_schema_cache st msgs graph_oid edge_label_id with
  | Except.error e => Except.error e
  | Except.ok (cached, st1) =>
    Except.ok
      (append_unique_loop []
        ((cached.entries.take cached.num_entries).map (fun entry => entry.end_label_id)),
       st1)

/-- The loop `label_ids = lappend_int(label_ids, cached->label_ids[i])`. -/
def copy_loop (label_ids : List Int) : List Int → List Int
  | [] => label_ids
  | label_id :: rest => copy_loop (lappend label_ids label_id) rest

/-- Embedding of `get_end_labels_from_start_vertex`. -/
def get_end_labels_from_start_vertex (st : AgState) (msgs : List InvalMsg) (graph_oid : Oid)
    (start_vertex_label_id : Int) : Except AgError (List Int × AgState) :=
  match search_start_vertex_end_labels_cache st msgs graph_oid start_vertex_label_id with
  | Except.error e => Except.error e
  | Except.ok (cached, st1) =>
    Except.ok (copy_loop [] (cached.label_ids.take cached.num_label_ids), st1)

/-- Embedding of `get_start_labels_from_end_vertex`. -/
def get_start_labels_from_end_vertex (st : AgState) (msgs : List InvalMsg) (graph_oid : Oid)
    (end_vertex_label_id : Int) : Except AgError (List Int × AgState) :=
  match search_end_vertex_start_labels_cache st msgs graph_oid end_vertex_label_id with
  | Except.error e => Except.error e
  | Except.ok (cached, st1) =>
    Except.ok (copy_loop [] (cached.label_ids.take cached.num_label_ids), st1)

/-- Every entry of the three edge-schema caches is the projection of the current
`ag_graph_schema` rows of its key. -/
structure SchemaCoherent (st : AgState) : Prop where
  edge_schema : ∀ e ∈ st.cache.edge_schema_cache_hash,
    e.2 = direct_edge_schema st.catalog e.1.graph e.1.edge_label_id
  start_vertex_end_labels : ∀ e ∈ st.cache.start_vertex_end_labels_cache_hash,
    e.2 = direct_end_labels st.catalog e.1.graph e.1.vertex_label_id
  end_vertex_start_labels : ∀ e ∈ st.cache.end_vertex_start_labels_cache_hash,
    e.2 = direct_start_labels st.catalog e.1.graph e.1.vertex_label_id

/-! ## The planner hooks (`cypher_paths.c`) -/

/-- Kind of Cypher clause of a range-table entry (`cypher_clause_kind`). -/
inductive cypher_clause_kind where
  | CYPHER_CLAUSE_NONE
  | CYPHER_CLAUSE_CREATE
  | CYPHER_CLAUSE_SET
  | CYPHER_CLAUSE_DELETE
  | CYPHER_CLAUSE_MERGE
deriving DecidableEq

/-- Embedding of `get_cypher_clause_kind`.  An entry that is not a subquery is no Cypher
clause.  A subquery is classified from the last entry of its target list, which is
not among the fields of `RangeTblEntry` kept here: `subquery_kind` is the
classification that the rest of the function computes for a subquery. -/
def get_cypher_clause_kind (rte : RangeTblEntry) (subquery_kind : cypher_clause_kind) :
    cypher_clause_kind :=
  if rte.rtekind ≠ RTEKind.RTE_SUBQUERY then cypher_clause_kind.CYPHER_CLAUSE_NONE
  else subquery_kind

/-- Embedding of `set_rel_pathlist`, the `set_rel_pathlist_hook` of the extension.
`age_infer_labels` is the configuration variable `age.infer_labels`,
`prev_set_rel_pathlist_hook` the hook that was installed before, and
`handle_cypher_clause` stands for the four handlers of the data-modifying clauses,
which replace the paths by a custom path built outside these sources. -/
def set_rel_pathlist {C : Type} [Zero C] [Add C] (host : Host C) (ctx : GraphOptState)
    (age_infer_labels : Bool)
    (prev_set_rel_pathlist_hook :
      Option (PlannerInfo → RelOptInfo C → Nat → RangeTblEntry → RelOptInfo C))
    (handle_cypher_clause :
      cypher_clause_kind → PlannerInfo → RelOptInfo C → Nat → RangeTblEntry → RelOptInfo C)
    (subquery_kind : cypher_clause_kind)
    (root : PlannerInfo) (rel : RelOptInfo C) (rti : Nat) (rte : RangeTblEntry) :
    RelOptInfo C :=
  let rel :=
    match prev_set_rel_pathlist_hook with
    | some hook => hook root rel rti rte
    | none => rel
  match get_cypher_clause_kind rte subquery_kind with
  | cypher_clause_kind.CYPHER_CLAUSE_NONE =>
    if age_infer_labels = true then
      filter_append_paths_for_inferred_labels host ctx root rel rte
    else rel
  | kind => handle_cypher_clause kind root rel rti rte

/-- The body of the `foreach(lc, initial_rels)` loop of
`update_rel_rows_after_filtering` for one relation; every `continue` leaves the
relation as it is. -/
def update_rel_rows_of_rel {C : Type} [DecidableEq C] (host : Host C) (ctx : GraphOptState)
    (root : PlannerInfo) (rel : RelOptInfo C) : RelOptInfo C :=
  if rel.is_baserel = false then rel
  else if root.simple_rel_array_size ≤ rel.relid then rel
  else
    match simple_rte root rel.relid with
    | none => rel
    | some rte =>
      if rte.rtekind ≠ RTEKind.RTE_RELATION ∨ rte.inh = false then rel
      else
        match host.get_rel_name rte.relid with
        | none => rel
        | some rel_name =>
          if rel_name ≠ "_ag_label_vertex" ∧ rel_name ≠ "_ag_label_edge" then rel
          else
            match rte.rte_alias with
            | none => rel
            | some a =>
              match a.aliasname with
              | none => rel
              | some var_name =>
                if graph_opt_has_inferred_entry ctx (some var_name) = false then rel
                else
                  match rel.cheapest_total_path with
                  | none => rel
                  | some cheapest_path =>
                    if cheapest_path.path.rows ≠ rel.rows then
                      { rel with rows := cheapest_path.path.rows }
                    else rel

/-- Embedding of `update_rel_rows_after_filtering`: the relations of `initial_rels`
are updated in place, one after the other. -/
def update_rel_rows_after_filtering {C : Type} [DecidableEq C] (host : Host C)
    (ctx : GraphOptState) (root : PlannerInfo) (initial_rels : List (RelOptInfo C)) :
    List (RelOptInfo C) :=
  initial_rels.map (update_rel_rows_of_rel host ctx root)

/-- Embedding of `age_join_search`, the `join_search_hook` of the extension.
`prev_join_search_hook` is the hook that was installed before and
`standard_join_search` the host's join search; both receive the relations as the
update has left them. -/
def age_join_search {C R : Type} [DecidableEq C] (host : Host C) (ctx : GraphOptState)
    (age_infer_labels : Bool)
    (prev_join_search_hook : Option (PlannerInfo → Nat → List (RelOptInfo C) → R))
    (standard_join_search : PlannerInfo → Nat → List (RelOptInfo C) → R)
    (root : PlannerInfo) (levels_needed : Nat) (initial_rels : List (RelOptInfo C)) : R :=
  let initial_rels :=
    if age_infer_labels = true then
      update_rel_rows_after_filtering host ctx root initial_rels
    else initial_rels
  match prev_join_search_hook with
  | some hook => hook root levels_needed initial_rels
  | none => standard_join_search root levels_needed initial_rels

/-! ## Registrations since the last reset

The variable names that the calls of a sequence have registered since its last
`graph_opt_context_init` or `graph_opt_context_cleanup`, written from the description
of the interface; the entry list of the code is compared with it. -/

/-- The names registered so far, after one more call: a reset forgets them all, a
registration under a name that is not empty adds the name. -/
def registered_step (names : List String) : GraphOptCall → List String
  | GraphOptCall.init => []
  | GraphOptCall.cleanup => []
  | GraphOptCall.add none _ => names
  | GraphOptCall.add (some v) _ => if v = "" then names else names ++ [v]

/-- The names registered by the calls after the last reset of the sequence. -/
def registered_since_reset (calls : List GraphOptCall) : List String :=
  calls.foldl registered_step []

/-! ## Fills of a hash table -/

/-- A fill path has left the table `after` from the table `before`, which it found when
it came to insert under `key`, without inserting a key twice: the key was absent from
`before`; `after` is `before`, or `before` with one entry added behind it; and `after`
holds at most one entry under the key. -/
def filled_without_duplicate {K V : Type} [DecidableEq K] (before after : HTAB K V)
    (key : K) : Prop :=
  hash_find before key = none ∧
  (after = before ∨ ∃ e, after = before ++ [e]) ∧
  (after.filter (fun e => decide (e.1 = key))).length ≤ 1

/-! ## The SQL function `_label_name` (`ag_label.c`) -/

/-- A host in which relation 100 is `_ag_label_vertex` and relation 200 is
`_ag_label_edge`, and whose cheapest path is the first one; costs are natural numbers. -/
def ex_host : Host Nat :=
  { get_rel_name := fun o =>
      if o = 100 then some "_ag_label_vertex"
      else if o = 200 then some "_ag_label_edge" else none
    cheapest_total := fun l => l.head? }

/-- The range-table entry of the vertex root, with alias `n`. -/
def ex_rte : RangeTblEntry :=
  { rtekind := RTEKind.RTE_RELATION, relid := 100, inh := true,
    rte_alias := some { aliasname := some "n" } }

/-- A child table of the root. -/
def ex_child_rte (relid : Oid) : RangeTblEntry :=
  { rtekind := RTEKind.RTE_RELATION, relid := relid, inh := false, rte_alias := none }

/-- A range table: index 1 is the root, indexes 2, 3, 4 are children with OIDs 5, 6, 8. -/
def ex_root : PlannerInfo :=
  { simple_rte_array :=
      [none, some ex_rte, some (ex_child_rte 5), some (ex_child_rte 6), some (ex_child_rte 8)]
    simple_rel_array_size := 5 }

/-- A scan of the child at range-table index `rti`. -/
def ex_scan (rti rows startup_cost total_cost : Nat) : Path Nat :=
  { type := NodeTag.T_Path, parent_relid := rti, pathkeys := [], rows := rows,
    startup_cost := startup_cost, total_cost := total_cost }

/-- An unordered Append over the children with OIDs 5 and 6, costed as the host costs
it: startup of the first child, total and rows summed. -/
def ex_append : PathNode Nat :=
  { path := { type := NodeTag.T_AppendPath, parent_relid := 1, pathkeys := [], rows := 30,
              startup_cost := 1, total_cost := 60 }
    subpaths := [ex_scan 2 10 1 20, ex_scan 3 20 2 40] }

/-- A MergeAppend over the same children. -/
def ex_merge : PathNode Nat :=
  { path := { type := NodeTag.T_MergeAppendPath, parent_relid := 1, pathkeys := [1], rows := 30,
              startup_cost := 3, total_cost := 60 }
    subpaths := [ex_scan 2 10 1 20, ex_scan 3 20 2 40] }

/-- The relation of the root with the given path lists. -/
def ex_rel (pathlist partial_pathlist : List (PathNode Nat)) : RelOptInfo Nat :=
  { is_baserel := true, relid := 1, rows := 30, pathlist := pathlist,
    partial_pathlist := partial_pathlist, cheapest_total_path := pathlist.head? }

/-- The inference context after the list `S` has been registered for `n`. -/
def ex_ctx (S : List Oid) : GraphOptState :=
  graph_opt_add_inferred_labels GraphOptState.initial (some "n") S

/-- Cached copy of a label `Person` of graph 1 with relation 16400, under the name `name`. -/
def ex_label_data (name : Name) : label_cache_data :=
  { name := name, graph := 1, id := 3, kind := LABEL_KIND_VERTEX, relation := 16400,
    seq_name := "Person_id_seq" }

/-- Caches in which the cache by (name, graph) holds two entries of relation 16400, one
under the name `Person` and one under the name `Human`. -/
def ex_cache_two_names : AgCache :=
  { AgCache.empty with
    label_name_graph_cache_hash :=
      [({ name := "Person", graph := 1 }, ex_label_data "Person"),
       ({ name := "Human", graph := 1 }, ex_label_data "Human")] }

/-- Caches in which each of the four label caches holds the entry of relation 16400 and
the entry of another label, of relation 16500. -/
def ex_cache_one_each : AgCache :=
  { AgCache.empty with
    label_name_graph_cache_hash :=
      [({ name := "Person", graph := 1 }, ex_label_data "Person"),
       ({ name := "City", graph := 1 },
        { ex_label_data "City" with id := 4, relation := 16500, seq_name := "City_id_seq" })]
    label_graph_oid_cache_hash := [({ graph := 1, id := 3 }, ex_label_data "Person")]
    label_relation_cache_hash := [(16400, ex_label_data "Person")]
    label_seq_name_graph_cache_hash :=
      [({ name := "Person_id_seq", graph := 1 }, ex_label_data "Person")] }

/-- A backend without any catalog row and with empty caches. -/
def ex_state_empty : AgState := { catalog := { ag_graph := [], ag_label := [], ag_graph_schema := [] },
                                  cache := AgCache.empty }

/-- The label `Person` of graph 1 is created and looked up by its name, then deleted;
no relation event follows. -/
def ex_ops_stale : List Op :=
  [Op.insert_label "Person" 1 3 LABEL_KIND_VERTEX 16400 "Person_id_seq",
   Op.search_label_name_graph [] "Person" 1,
   Op.delete_label 16400]

/-- The state that `ex_ops_stale` leaves: no label row, and the record of the label in
the cache by (name, graph). -/
def ex_state_stale : AgState :=
  { catalog := { ag_graph := [], ag_label := [], ag_graph_schema := [] },
    cache :=
      { AgCache.empty with
        label_name_graph_cache_hash :=
          [({ name := "Person", graph := 1 }, ex_label_data "Person")] } }

/-- As `ex_ops_stale`, with the relation event after the deletion, followed by an
edge-schema insertion and a lookup of the edge schema. -/
def ex_ops_disciplined : List Op :=
  [Op.insert_label "Person" 1 3 LABEL_KIND_VERTEX 16400 "Person_id_seq",
   Op.search_label_name_graph [] "Person" 1,
   Op.delete_label 16400,
   Op.invalidation (InvalMsg.relcache_event 16400),
   Op.insert_edge_schema_entry 1 7 3 4,
   Op.search_edge_schema [] 1 7]

/-- The state that `ex_ops_disciplined` leaves. -/
def ex_state_disciplined : AgState :=
  { catalog :=
      { ag_graph := [], ag_label := [],
        ag_graph_schema :=
          [{ graph := 1, edge_label_id := 7, start_label_id := 3, end_label_id := 4 }] },
    cache :=
      { AgCache.empty with
        edge_schema_cache_hash :=
          [({ graph := 1, edge_label_id := 7 },
            { graph := 1, edge_label_id := 7, num_entries := 1,
              entries := [{ start_label_id := 3, end_label_id := 4 }] })] } }

/-- The row of the vertex label `Person`: graph 1, label id 3, relation 16400. -/
def ex_row_person : ag_label_row :=
  { name := "Person", graph := 1, id := 3, kind := LABEL_KIND_VERTEX, relation := 16400,
    seq_name := "Person_id_seq" }

/-- The row of the edge label `KNOWS`: graph 1, label id 7, relation 16600. -/
def ex_row_knows : ag_label_row :=
  { name := "KNOWS", graph := 1, id := 7, kind := LABEL_KIND_EDGE, relation := 16600,
    seq_name := "KNOWS_id_seq" }

/-- A row of `ag_graph_schema`. -/
def ex_schema_row (graph : Oid) (edge start_label end_label : Int) : ag_graph_schema_row :=
  { graph := graph, edge_label_id := edge, start_label_id := start_label,
    end_label_id := end_label }

/-- A backend in which graph 1 has the vertex label 3 (`Person`) and the edge label 7
(`KNOWS`).  Label 3 is the end label of three edge-schema rows of graph 1 and the start
label of one; one row of graph 1 does not refer to it, and one row of graph 2 uses the
same numbers.  The cache of end labels holds the end labels of start label 3. -/
def ex_state_scenario : AgState :=
  { catalog :=
      { ag_graph := [],
        ag_label := [ex_row_person, ex_row_knows],
        ag_graph_schema :=
          [ex_schema_row 1 7 4 3, ex_schema_row 1 8 4 3, ex_schema_row 1 9 5 3,
           ex_schema_row 1 7 3 4, ex_schema_row 1 8 4 4, ex_schema_row 2 7 3 3] },
    cache :=
      { AgCache.empty with
        start_vertex_end_labels_cache_hash :=
          [({ graph := 1, vertex_label_id := 3 },
            { graph := 1, vertex_label_id := 3, num_label_ids := 1, label_ids := [4] })] } }

/-- Two edge-schema rows are inserted for edge label 7 of graph 1, from start label 3
to the end labels 4 and 5. -/
def ex_ops_two_ends : List Op :=
  [Op.insert_edge_schema_entry 1 7 3 4, Op.insert_edge_schema_entry 1 7 3 5]

/-- The state that `ex_ops_two_ends` leaves. -/
def ex_state_two_ends : AgState :=
  { catalog :=
      { ag_graph := [], ag_label := [],
        ag_graph_schema := [ex_schema_row 1 7 3 4, ex_schema_row 1 7 3 5] },
    cache := AgCache.empty }

/-- The relation of the root after the pruning pass with the list `[6]`: its row
estimate is still 30, and its cheapest path is the Append reduced to the child 6, of
20 rows. -/
def ex_rel_pruned : RelOptInfo Nat :=
  filter_append_paths_for_inferred_labels ex_host (ex_ctx [6]) ex_root
    (ex_rel [ex_append] []) ex_rte

/-- The relation of the child at range-table index 2, estimated at 50 rows, whose
cheapest path has 10 rows. -/
def ex_rel_child : RelOptInfo Nat :=
  { is_baserel := true, relid := 2, rows := 50,
    pathlist := [{ path := ex_scan 2 10 1 20, subpaths := [] }],
    partial_pathlist := [],
    cheapest_total_path := some { path := ex_scan 2 10 1 20, subpaths := [] } }

/-- The relation of the root as the hook receives it from the host, which computes the
cheapest paths only after the hook has returned: an Append in each path list, and no
cheapest path yet. -/
def ex_rel_fresh : RelOptInfo Nat :=
  { ex_rel [ex_append] [ex_append] with cheapest_total_path := none }

/-- The Append `ex_append` after the empty-entry rewrite of the pathlist. -/
def ex_append_zeroed : PathNode Nat :=
  { path := { type := NodeTag.T_AppendPath, parent_relid := 1, pathkeys := [], rows := 0,
              startup_cost := 0, total_cost := 0 }
    subpaths := [] }

/-- The row of a vertex label `AB`: graph 1, label id 5, relation 16961.  The first four
bytes of its name, read as an `Oid`, are its relation: 65 + 256 * 66 = 16961. -/
def ex_row_ab : ag_label_row :=
  { name := "AB", graph := 1, id := 5, kind := LABEL_KIND_VERTEX, relation := 16961,
    seq_name := "AB_id_seq" }

/-- A backend whose catalog holds the graph `g` with namespace 1 and its labels `Person`
and `AB`, with empty caches. -/
def ex_state_labels : AgState :=
  { catalog :=
      { ag_graph := [{ oid := 1, name := "g", namespace_oid := 1 }],
        ag_label := [ex_row_person, ex_row_ab], ag_graph_schema := [] },
    cache := AgCache.empty }

/-- The edge schema of edge label 7 of graph 1 is looked up while the catalog is empty,
the row (1, 7, 3, 4) is inserted, and the three edge-schema caches are looked up, the
cache of start labels for the end label 9, which no row has. -/
def ex_ops_schema : List Op :=
  [Op.search_edge_schema [] 1 7,
   Op.insert_edge_schema_entry 1 7 3 4,
   Op.search_edge_schema [] 1 7,
   Op.search_start_vertex_end_labels [] 1 3,
   Op.search_end_vertex_start_labels [] 1 9]

/-- The state that `ex_ops_schema` leaves: the inserted row, and one entry in each of the
three edge-schema caches, an empty one in the cache of start labels. -/
def ex_state_schema : AgState :=
  { catalog := { ag_graph := [], ag_label := [], ag_graph_schema := [ex_schema_row 1 7 3 4] },
    cache :=
      { AgCache.empty with
        edge_schema_cache_hash :=
          [({ graph := 1, edge_label_id := 7 },
            { graph := 1, edge_label_id := 7, num_entries := 1,
              entries := [{ start_label_id := 3, end_label_id := 4 }] })]
        start_vertex_end_labels_cache_hash :=
          [({ graph := 1, vertex_label_id := 3 },
            { graph := 1, vertex_label_id := 3, num_label_ids := 1, label_ids := [4] })]
        end_vertex_start_labels_cache_hash :=
          [({ graph := 1, vertex_label_id := 9 },
            { graph := 1, vertex_label_id := 9, num_label_ids := 0, label_ids := [] })] } }

/-! # Properties -/

/-! ## Lists -/

theorem list_member_oid_iff (l : List Oid) (o : Oid) : list_member_oid l o = true ↔ o ∈ l := by
  induction l with
  | nil => simp [list_member_oid]
  | cons x xs ih =>
    unfold list_member_oid
    by_cases h : x = o
    · simp [h]
    · simp [h, ih, Ne.symm h]

theorem intersect_loop_eq (B acc l : List Oid) :
    intersect_loop B acc l = acc ++ l.filter (list_member_oid B) := by
  induction l generalizing acc with
  | nil => simp [intersect_loop]
  | cons x xs ih =>
    unfold intersect_loop
    by_cases h : list_member_oid B x = true
    · simp [h, ih, lappend]
    · simp [h, ih]

/-! ## The inference context -/

theorem find_loop_eq_none_iff (v : String) (l : List InferredLabelEntry) :
    find_inferred_entry_loop v l = none ↔ ∀ e ∈ l, e.var_name ≠ some v := by
  induction l with
  | nil => simp [find_inferred_entry_loop]
  | cons e es ih =>
    unfold find_inferred_entry_loop
    by_cases h : entry_matches v e = true
    · have : e.var_name = some v := by
        unfold entry_matches at h
        cases hn : e.var_name with
        | none => simp [hn] at h
        | some n => simp [hn] at h; simp [h]
      simp [h, this]
    · have : e.var_name ≠ some v := by
        intro hc
        apply h
        simp [entry_matches, hc]
      simp [h, ih, this]

theorem find_loop_append_new (v : String) (l : List InferredLabelEntry) (ids : List Oid)
    (h : find_inferred_entry_loop v l = none) :
    find_inferred_entry_loop v (l ++ [{ var_name := some v, child_relids := ids }]) =
      some { var_name := some v, child_relids := ids } := by
  induction l with
  | nil => simp [find_inferred_entry_loop, entry_matches]
  | cons e es ih =>
    unfold find_inferred_entry_loop at h
    cases hm : entry_matches v e with
    | true => simp [hm] at h
    | false =>
      simp only [hm, Bool.false_eq_true, if_false] at h
      simp only [List.cons_append, find_inferred_entry_loop, hm, Bool.false_eq_true, if_false]
      exact ih h

theorem update_found_append_new (v : String) (l : List InferredLabelEntry) (ids B : List Oid)
    (h : find_inferred_entry_loop v l = none) :
    update_found_entry v B (l ++ [{ var_name := some v, child_relids := ids }]) =
      l ++ [{ var_name := some v, child_relids := intersect_loop B [] ids }] := by
  induction l with
  | nil => simp [update_found_entry, entry_matches]
  | cons e es ih =>
    unfold find_inferred_entry_loop at h
    cases hm : entry_matches v e with
    | true => simp [hm] at h
    | false =>
      simp only [hm, Bool.false_eq_true, if_false] at h
      simp only [List.cons_append, update_found_entry, hm, Bool.false_eq_true, if_false]
      exact congrArg (fun r => e :: r) (ih h)

theorem add_new_entry (st : GraphOptState) (v : String) (A : List Oid) (hv : v ≠ "")
    (hno : find_inferred_entry st (some v) = none) :
    ∃ l, find_inferred_entry_loop v l = none ∧
      graph_opt_add_inferred_labels st (some v) A =
        { inferred_label_entries := l ++ [{ var_name := some v, child_relids := A }],
          graph_opt_context := true } := by
  unfold graph_opt_add_inferred_labels
  by_cases hc : st.graph_opt_context = true
  · refine ⟨st.inferred_label_entries, hno, ?_⟩
    simp only [hv, hc, if_true, if_false]
    rw [hno]
    simp [lappend, ← hc]
  · refine ⟨[], rfl, ?_⟩
    simp [hv, hc, graph_opt_context_init, find_inferred_entry, find_inferred_entry_loop, lappend]

/-- C1. Inference intersection law: for a non-empty name `v` without an entry, after
`graph_opt_add_inferred_labels(v, A)` and then `graph_opt_add_inferred_labels(v, B)`
the list that `graph_opt_get_inferred_labels(v)` returns has as members exactly the
OIDs that are members of both `A` and `B`. -/
theorem inference_intersection_law (st : GraphOptState) (v : String) (A B : List Oid)
    (x : Oid) (hv : v ≠ "") (hno : ∀ e ∈ st.inferred_label_entries, e.var_name ≠ some v) :
    x ∈ graph_opt_get_inferred_labels
          (graph_opt_add_inferred_labels (graph_opt_add_inferred_labels st (some v) A)
            (some v) B) (some v)
      ↔ x ∈ A ∧ x ∈ B := by
  have hnone : find_inferred_entry st (some v) = none :=
    (find_loop_eq_none_iff v st.inferred_label_entries).2 hno
  obtain ⟨l, hl, hadd⟩ := add_new_entry st v A hv hnone
  rw [hadd]
  have hfound := find_loop_append_new v l A hl
  simp only [graph_opt_add_inferred_labels, hv, if_false, if_true, find_inferred_entry, hfound,
    graph_opt_get_inferred_labels]
  rw [update_found_append_new v l A B hl, find_loop_append_new v l _ hl]
  simp [intersect_loop_eq, list_member_oid_iff]

/-- Witness of C1 on the name `n` with `A = [5, 6]` and `B = [6, 7]`. -/
theorem inference_intersection_law_witness :
    (("n" : String) ≠ "" ∧
      ∀ e ∈ GraphOptState.initial.inferred_label_entries, e.var_name ≠ some "n") ∧
    (6 ∈ graph_opt_get_inferred_labels
          (graph_opt_add_inferred_labels
            (graph_opt_add_inferred_labels GraphOptState.initial (some "n") [5, 6])
            (some "n") [6, 7]) (some "n")
      ↔ 6 ∈ [5, 6] ∧ 6 ∈ [6, 7]) :=
  ⟨⟨by decide, by simp [GraphOptState.initial]⟩,
    inference_intersection_law GraphOptState.initial "n" [5, 6] [6, 7] 6 (by decide)
      (by simp [GraphOptState.initial])⟩

/-! ## The filtering loops -/

theorem append_filter_loop_spec {C : Type} [Add C] (root : PlannerInfo) (S : List Oid)
    (acc : FilterAcc C) (l : List (Path C)) :
    append_filter_loop root S acc l =
      { filtered_subpaths := acc.filtered_subpaths ++ l.filter (child_allowed root S)
        filtered_count := acc.filtered_count + (l.filter (child_allowed root S)).length
        total_cost :=
          ((l.filter (child_allowed root S)).map (fun c => c.total_cost)).foldl
            (fun a b => a + b) acc.total_cost
        startup_cost := acc.startup_cost
        total_rows :=
          ((l.filter (child_allowed root S)).map (fun c => c.rows)).foldl
            (fun a b => a + b) acc.total_rows } := by
  induction l generalizing acc with
  | nil => simp [append_filter_loop]
  | cons c cs ih =>
    unfold append_filter_loop
    cases hc : child_allowed root S c with
    | true =>
      simp only [if_true, ih, lappend, List.filter_cons, hc, List.append_assoc,
        List.singleton_append, List.length_cons, List.map_cons, List.foldl_cons]
      congr 1
      omega
    | false =>
      simp only [Bool.false_eq_true, if_false, ih, List.filter_cons, hc]

theorem merge_filter_loop_spec {C : Type} [Add C] (root : PlannerInfo) (S : List Oid)
    (acc : FilterAcc C) (l : List (Path C)) :
    merge_filter_loop root S acc l =
      { filtered_subpaths := acc.filtered_subpaths ++ l.filter (child_allowed root S)
        filtered_count := acc.filtered_count + (l.filter (child_allowed root S)).length
        total_cost :=
          ((l.filter (child_allowed root S)).map (fun c => c.total_cost)).foldl
            (fun a b => a + b) acc.total_cost
        startup_cost :=
          ((l.filter (child_allowed root S)).map (fun c => c.startup_cost)).foldl
            (fun a b => a + b) acc.startup_cost
        total_rows :=
          ((l.filter (child_allowed root S)).map (fun c => c.rows)).foldl
            (fun a b => a + b) acc.total_rows } := by
  induction l generalizing acc with
  | nil => simp [merge_filter_loop]
  | cons c cs ih =>
    unfold merge_filter_loop
    cases hc : child_allowed root S c with
    | true =>
      simp only [if_true, ih, lappend, List.filter_cons, hc, List.append_assoc,
        List.singleton_append, List.length_cons, List.map_cons, List.foldl_cons]
      congr 1
      omega
    | false =>
      simp only [Bool.false_eq_true, if_false, ih, List.filter_cons, hc]

theorem sum_startup_loop_spec {C : Type} [Add C] (s : C) (l : List (Path C)) :
    sum_startup_loop s l = (l.map (fun c => c.startup_cost)).foldl (fun a b => a + b) s := by
  induction l generalizing s with
  | nil => rfl
  | cons c cs ih => simp [sum_startup_loop, ih]

theorem append_filter_init {C : Type} [Zero C] [Add C] (root : PlannerInfo) (S : List Oid)
    (p : PathNode C) :
    append_filter_loop root S FilterAcc.init p.subpaths =
      { filtered_subpaths := retained root S p
        filtered_count := (retained root S p).length
        total_cost := sum_left ((retained root S p).map (fun c => c.total_cost))
        startup_cost := 0
        total_rows := sum_left ((retained root S p).map (fun c => c.rows)) } := by
  rw [append_filter_loop_spec]
  simp [FilterAcc.init, retained, sum_left]

theorem merge_filter_init {C : Type} [Zero C] [Add C] (root : PlannerInfo) (S : List Oid)
    (p : PathNode C) :
    merge_filter_loop root S FilterAcc.init p.subpaths =
      { filtered_subpaths := retained root S p
        filtered_count := (retained root S p).length
        total_cost := sum_left ((retained root S p).map (fun c => c.total_cost))
        startup_cost := sum_left ((retained root S p).map (fun c => c.startup_cost))
        total_rows := sum_left ((retained root S p).map (fun c => c.rows)) } := by
  rw [merge_filter_loop_spec]
  simp [FilterAcc.init, retained, sum_left]

/-! ## The main function, case by case -/

theorem filter_of_nonempty {C : Type} [Zero C] [Add C] (host : Host C) (ctx : GraphOptState)
    (root : PlannerInfo) (rel : RelOptInfo C) (rte : RangeTblEntry) (S : List Oid)
    (h : prunes_with host ctx rte S) (hS : S ≠ []) :
    filter_append_paths_for_inferred_labels host ctx root rel rte =
      set_cheapest host
        { rel with
          pathlist := rel.pathlist.map (filter_pathlist_node root S)
          partial_pathlist := rel.partial_pathlist.map (filter_partial_node root S) } := by
  obtain ⟨h1, h2, h3, v, h4, h5, h6⟩ := h
  unfold filter_append_paths_for_inferred_labels
  rcases h3 with h3 | h3 <;> simp [h1, h2, h3, h4, h5, h6, hS]

theorem filter_of_empty {C : Type} [Zero C] [Add C] (host : Host C) (ctx : GraphOptState)
    (root : PlannerInfo) (rel : RelOptInfo C) (rte : RangeTblEntry)
    (h : prunes_with host ctx rte []) :
    filter_append_paths_for_inferred_labels host ctx root rel rte =
      { rel with
        pathlist := rel.pathlist.map empty_pathlist_node
        partial_pathlist := rel.partial_pathlist.map empty_partial_node } := by
  obtain ⟨h1, h2, h3, v, h4, h5, h6⟩ := h
  unfold filter_append_paths_for_inferred_labels
  rcases h3 with h3 | h3 <;> simp [h1, h2, h3, h4, h5, h6]

theorem filter_pathlist_node_subpaths {C : Type} [Zero C] [Add C] (root : PlannerInfo)
    (S : List Oid) (p : PathNode C) (hu : is_union_plan p) :
    (filter_pathlist_node root S p).subpaths =
      if 0 < (retained root S p).length ∧ (retained root S p).length < p.subpaths.length
      then retained root S p else p.subpaths := by
  unfold filter_pathlist_node
  rcases hu with hu | hu
  · simp only [hu, append_filter_init]
    split <;> rfl
  · simp only [hu, merge_filter_init]
    split <;> rfl

theorem filter_partial_node_subpaths {C : Type} [Zero C] [Add C] (root : PlannerInfo)
    (S : List Oid) (p : PathNode C) (hu : is_union_plan p) :
    (filter_partial_node root S p).subpaths =
      if 0 < (retained root S p).length ∧ (retained root S p).length < p.subpaths.length
      then retained root S p else p.subpaths := by
  unfold filter_partial_node
  rcases hu with hu | hu
  · simp only [hu, append_filter_init]
    split <;> rfl
  · simp only [hu, merge_filter_init]
    split <;> rfl

theorem retained_length_le {C : Type} (root : PlannerInfo) (S : List Oid) (p : PathNode C) :
    (retained root S p).length ≤ p.subpaths.length :=
  List.length_filter_le _ _

theorem retained_eq_self_of_length {C : Type} (root : PlannerInfo) (S : List Oid)
    (p : PathNode C) (h : (retained root S p).length = p.subpaths.length) :
    retained root S p = p.subpaths := by
  unfold retained at *
  exact List.filter_eq_self.2 (fun a ha => by
    by_contra hc
    have hlt : (List.filter (child_allowed root S) p.subpaths).length < p.subpaths.length := by
      have := List.length_filter_lt_length_iff_exists.2 ⟨a, ha, hc⟩
      exact this
    omega)

theorem ex_prunes_with (S : List Oid) : prunes_with ex_host (ex_ctx S) ex_rte S := by
  refine ⟨rfl, rfl, Or.inl rfl, "n", rfl, ?_, ?_⟩ <;>
    simp [ex_ctx, graph_opt_add_inferred_labels, graph_opt_get_inferred_labels,
      graph_opt_has_inferred_entry, find_inferred_entry, find_inferred_entry_loop,
      entry_matches, GraphOptState.initial, graph_opt_context_init, lappend]

/-! ## Pruning: which children stay -/

/-- C2 (counterexample). With the inferred list `[7]` registered for `n`, the Append over
the children 5 and 6 has no child in the list, and after the call its child list is
still both children, not the (empty) list of children whose OID is in the list. -/
theorem pruning_children_counterexample :
    prunes_with ex_host (ex_ctx [7]) ex_rte [7] ∧
    (ex_rel [ex_append] []).pathlist = [ex_append] ∧
    is_union_plan ex_append ∧
    retained ex_root [7] ex_append = [] ∧
    ((filter_append_paths_for_inferred_labels ex_host (ex_ctx [7]) ex_root
        (ex_rel [ex_append] []) ex_rte).pathlist.map (fun q => q.subpaths))
      = [[ex_scan 2 10 1 20, ex_scan 3 20 2 40]] :=
  ⟨ex_prunes_with [7], rfl, Or.inl rfl, by decide, by decide⟩

theorem subpaths_cases {C : Type} (root : PlannerInfo) (S : List Oid) (p : PathNode C)
    (l : List (Path C))
    (hl : l = if 0 < (retained root S p).length ∧
        (retained root S p).length < p.subpaths.length
      then retained root S p else p.subpaths) :
    (retained root S p ≠ [] → l = retained root S p) ∧
    (retained root S p = [] → l = p.subpaths) := by
  subst hl
  constructor
  · intro he
    have hpos : 0 < (retained root S p).length := List.length_pos.2 he
    by_cases hlt : (retained root S p).length < p.subpaths.length
    · simp [hpos, hlt]
    · have heq : (retained root S p).length = p.subpaths.length :=
        le_antisymm (retained_length_le root S p) (not_lt.1 hlt)
      simp [hlt, retained_eq_self_of_length root S p heq]
  · intro he
    simp [he]

/-- C2 (amended). For a qualifying relation with the non-empty inferred list `S` and an
Append or MergeAppend plan at position `i` of the pathlist or of the partial pathlist:
after the call the plan at that position has as children exactly the original children
whose relation is in `S`, provided at least one child is; when none is, it keeps all
its children. -/
theorem pruning_children {C : Type} [Zero C] [Add C] (host : Host C) (ctx : GraphOptState)
    (root : PlannerInfo) (rel : RelOptInfo C) (rte : RangeTblEntry) (S : List Oid)
    (i : Nat) (p : PathNode C)
    (h : prunes_with host ctx rte S) (hS : S ≠ []) (hu : is_union_plan p) :
    (rel.pathlist[i]? = some p →
      ∃ q, (filter_append_paths_for_inferred_labels host ctx root rel rte).pathlist[i]? = some q ∧
        (retained root S p ≠ [] → q.subpaths = retained root S p) ∧
        (retained root S p = [] → q.subpaths = p.subpaths)) ∧
    (rel.partial_pathlist[i]? = some p →
      ∃ q, (filter_append_paths_for_inferred_labels host ctx root rel rte).partial_pathlist[i]?
          = some q ∧
        (retained root S p ≠ [] → q.subpaths = retained root S p) ∧
        (retained root S p = [] → q.subpaths = p.subpaths)) := by
  rw [filter_of_nonempty host ctx root rel rte S h hS]
  constructor
  · intro hp
    refine ⟨filter_pathlist_node root S p, ?_, ?_⟩
    · simp [set_cheapest, List.getElem?_map, hp]
    · exact subpaths_cases root S p _ (filter_pathlist_node_subpaths root S p hu)
  · intro hp
    refine ⟨filter_partial_node root S p, ?_, ?_⟩
    · simp [set_cheapest, List.getElem?_map, hp]
    · exact subpaths_cases root S p _ (filter_partial_node_subpaths root S p hu)

/-- Witness of C2 (amended): the list `[6]` keeps the child with OID 6 of the Append. -/
theorem pruning_children_witness :
    (prunes_with ex_host (ex_ctx [6]) ex_rte [6] ∧ ([6] : List Oid) ≠ [] ∧
      is_union_plan ex_append) ∧
    ((ex_rel [ex_append] [ex_append]).pathlist[0]? = some ex_append →
      ∃ q, (filter_append_paths_for_inferred_labels ex_host (ex_ctx [6]) ex_root
          (ex_rel [ex_append] [ex_append]) ex_rte).pathlist[0]? = some q ∧
        (retained ex_root [6] ex_append ≠ [] → q.subpaths = retained ex_root [6] ex_append) ∧
        (retained ex_root [6] ex_append = [] → q.subpaths = ex_append.subpaths)) ∧
    ((ex_rel [ex_append] [ex_append]).partial_pathlist[0]? = some ex_append →
      ∃ q, (filter_append_paths_for_inferred_labels ex_host (ex_ctx [6]) ex_root
          (ex_rel [ex_append] [ex_append]) ex_rte).partial_pathlist[0]? = some q ∧
        (retained ex_root [6] ex_append ≠ [] → q.subpaths = retained ex_root [6] ex_append) ∧
        (retained ex_root [6] ex_append = [] → q.subpaths = ex_append.subpaths)) :=
  ⟨⟨ex_prunes_with [6], by decide, Or.inl rfl⟩,
    pruning_children ex_host (ex_ctx [6]) ex_root (ex_rel [ex_append] [ex_append]) ex_rte [6]
      0 ex_append (ex_prunes_with [6]) (by decide) (Or.inl rfl)⟩

/-! ## Pruning: the empty entry -/

/-- C3 (the code at the failing input). With the empty list registered for `n`, the
Append of the pathlist ends without children and with zero rows and zero costs, while
the same Append in the partial pathlist ends without children and with zero rows but
keeps its startup cost 1 and its total cost 60. -/
theorem empty_entry_partial_costs_kept :
    prunes_with ex_host (ex_ctx []) ex_rte [] ∧
    filter_append_paths_for_inferred_labels ex_host (ex_ctx []) ex_root
        (ex_rel [ex_append] [ex_append]) ex_rte =
      { is_baserel := true, relid := 1, rows := 30,
        pathlist :=
          [{ path := { type := NodeTag.T_AppendPath, parent_relid := 1, pathkeys := [],
                       rows := 0, startup_cost := 0, total_cost := 0 },
             subpaths := [] }],
        partial_pathlist :=
          [{ path := { type := NodeTag.T_AppendPath, parent_relid := 1, pathkeys := [],
                       rows := 0, startup_cost := 1, total_cost := 60 },
             subpaths := [] }],
        cheapest_total_path := some ex_append } :=
  ⟨ex_prunes_with [], by decide⟩

/-! ## Pruning: no child in the list -/

/-- C4 (counterexample). With the list `[7]` registered for `n`, no child of the
MergeAppend of the partial pathlist is in the list, and after the call the plan still
has its two children, its 30 rows and its costs 3 and 60. -/
theorem no_child_allowed_counterexample :
    prunes_with ex_host (ex_ctx [7]) ex_rte [7] ∧
    retained ex_root [7] ex_merge = [] ∧
    (filter_append_paths_for_inferred_labels ex_host (ex_ctx [7]) ex_root
        (ex_rel [ex_merge] [ex_merge]) ex_rte).partial_pathlist =
      [{ path := { type := NodeTag.T_MergeAppendPath, parent_relid := 1, pathkeys := [1],
                   rows := 30, startup_cost := 3, total_cost := 60 },
         subpaths := [ex_scan 2 10 1 20, ex_scan 3 20 2 40] }] :=
  ⟨ex_prunes_with [7], by decide, by decide⟩

theorem filter_pathlist_node_of_none {C : Type} [Zero C] [Add C] (root : PlannerInfo)
    (S : List Oid) (p : PathNode C) (hnone : retained root S p = []) :
    filter_pathlist_node root S p = p := by
  unfold filter_pathlist_node
  split
  · simp [append_filter_init, hnone]
  · simp [merge_filter_init, hnone]
  · rfl

theorem filter_partial_node_of_none {C : Type} [Zero C] [Add C] (root : PlannerInfo)
    (S : List Oid) (p : PathNode C) (hnone : retained root S p = []) :
    filter_partial_node root S p = p := by
  unfold filter_partial_node
  split
  · simp [append_filter_init, hnone]
  · simp [merge_filter_init, hnone]
  · rfl

/-- C4 (amended). For a qualifying relation with the non-empty inferred list `S`, a plan
at position `i` of the pathlist or of the partial pathlist none of whose children has
its relation in `S` is left as it is: same children, same row estimate, same costs. -/
theorem no_child_allowed_untouched {C : Type} [Zero C] [Add C] (host : Host C)
    (ctx : GraphOptState) (root : PlannerInfo) (rel : RelOptInfo C) (rte : RangeTblEntry)
    (S : List Oid) (i : Nat) (p : PathNode C)
    (h : prunes_with host ctx rte S) (hS : S ≠ []) (hnone : retained root S p = []) :
    (rel.pathlist[i]? = some p →
      (filter_append_paths_for_inferred_labels host ctx root rel rte).pathlist[i]? = some p) ∧
    (rel.partial_pathlist[i]? = some p →
      (filter_append_paths_for_inferred_labels host ctx root rel rte).partial_pathlist[i]?
        = some p) := by
  rw [filter_of_nonempty host ctx root rel rte S h hS]
  constructor
  · intro hp
    simp [set_cheapest, List.getElem?_map, hp, filter_pathlist_node_of_none root S p hnone]
  · intro hp
    simp [set_cheapest, List.getElem?_map, hp, filter_partial_node_of_none root S p hnone]

/-- Witness of C4 (amended) on the list `[7]` and the Append over the children 5 and 6. -/
theorem no_child_allowed_untouched_witness :
    (prunes_with ex_host (ex_ctx [7]) ex_rte [7] ∧ ([7] : List Oid) ≠ [] ∧
      retained ex_root [7] ex_append = []) ∧
    ((ex_rel [ex_append] [ex_append]).pathlist[0]? = some ex_append →
      (filter_append_paths_for_inferred_labels ex_host (ex_ctx [7]) ex_root
        (ex_rel [ex_append] [ex_append]) ex_rte).pathlist[0]? = some ex_append) ∧
    ((ex_rel [ex_append] [ex_append]).partial_pathlist[0]? = some ex_append →
      (filter_append_paths_for_inferred_labels ex_host (ex_ctx [7]) ex_root
        (ex_rel [ex_append] [ex_append]) ex_rte).partial_pathlist[0]? = some ex_append) :=
  ⟨⟨ex_prunes_with [7], by decide, by decide⟩,
    no_child_allowed_untouched ex_host (ex_ctx [7]) ex_root (ex_rel [ex_append] [ex_append])
      ex_rte [7] 0 ex_append (ex_prunes_with [7]) (by decide) (by decide)⟩

/-! ## Pruning: no entry -/

/-- C5. When the context holds no entry for `v`, `graph_opt_has_inferred_entry(v)` is
false, and `filter_append_paths_for_inferred_labels` returns the relation aliased `v`
as it received it: both path lists, hence every plan with its children, row estimate
and costs, are unchanged. -/
theorem no_entry_untouched {C : Type} [Zero C] [Add C] (host : Host C) (ctx : GraphOptState)
    (root : PlannerInfo) (rel : RelOptInfo C) (rte : RangeTblEntry) (v : String)
    (hno : ∀ e ∈ ctx.inferred_label_entries, e.var_name ≠ some v)
    (halias : rte.rte_alias = some { aliasname := some v }) :
    graph_opt_has_inferred_entry ctx (some v) = false ∧
    filter_append_paths_for_inferred_labels host ctx root rel rte = rel := by
  have hnone : find_inferred_entry ctx (some v) = none :=
    (find_loop_eq_none_iff v ctx.inferred_label_entries).2 hno
  have hhas : graph_opt_has_inferred_entry ctx (some v) = false := by
    simp [graph_opt_has_inferred_entry, hnone]
  refine ⟨hhas, ?_⟩
  unfold filter_append_paths_for_inferred_labels
  split
  · rfl
  · split
    · rfl
    · split
      · rfl
      · simp [halias, hhas]

/-- Witness of C5: an entry exists for `m` only, and the relation aliased `n` with an
Append in each path list comes back unchanged. -/
theorem no_entry_untouched_witness :
    ((∀ e ∈ (graph_opt_add_inferred_labels GraphOptState.initial (some "m")
          [6]).inferred_label_entries, e.var_name ≠ some "n") ∧
      ex_rte.rte_alias = some { aliasname := some "n" }) ∧
    graph_opt_has_inferred_entry
        (graph_opt_add_inferred_labels GraphOptState.initial (some "m") [6]) (some "n") = false ∧
    filter_append_paths_for_inferred_labels ex_host
        (graph_opt_add_inferred_labels GraphOptState.initial (some "m") [6]) ex_root
        (ex_rel [ex_append] [ex_merge]) ex_rte = ex_rel [ex_append] [ex_merge] :=
  ⟨⟨by decide, rfl⟩,
    no_entry_untouched ex_host
      (graph_opt_add_inferred_labels GraphOptState.initial (some "m") [6]) ex_root
      (ex_rel [ex_append] [ex_merge]) ex_rte "n" (by decide) rfl⟩

/-! ## Pruning: recomputed costs -/

theorem filter_pathlist_node_reduced {C : Type} [Zero C] [Add C] (root : PlannerInfo)
    (S : List Oid) (p : PathNode C) (hu : is_union_plan p)
    (hred : 0 < (retained root S p).length ∧ (retained root S p).length < p.subpaths.length) :
    (filter_pathlist_node root S p).path.total_cost =
        sum_left ((retained root S p).map (fun c => c.total_cost)) ∧
    (filter_pathlist_node root S p).path.rows =
        sum_left ((retained root S p).map (fun c => c.rows)) := by
  unfold filter_pathlist_node
  rcases hu with hu | hu
  · simp only [hu, append_filter_init]
    simp [hred]
  · simp only [hu, merge_filter_init]
    simp [hred]

theorem filter_partial_node_reduced {C : Type} [Zero C] [Add C] (root : PlannerInfo)
    (S : List Oid) (p : PathNode C) (hu : is_union_plan p)
    (hred : 0 < (retained root S p).length ∧ (retained root S p).length < p.subpaths.length) :
    (filter_partial_node root S p).path.total_cost =
        sum_left ((retained root S p).map (fun c => c.total_cost)) ∧
    (filter_partial_node root S p).path.rows =
        sum_left ((retained root S p).map (fun c => c.rows)) := by
  unfold filter_partial_node
  rcases hu with hu | hu
  · simp only [hu, append_filter_init]
    simp [hred]
  · simp only [hu, merge_filter_init]
    simp [hred]

/-- C9. Cost additivity.  For a qualifying relation with the non-empty inferred list `S`
and an Append or MergeAppend plan at position `i` of the pathlist or of the partial
pathlist whose children are reduced (at least one child and fewer than all are
retained): after the call the plan's total cost is the sum of the retained children's
total costs, and its row estimate is the sum of their row estimates. -/
theorem pruned_total_cost_and_rows {C : Type} [Zero C] [Add C] (host : Host C)
    (ctx : GraphOptState) (root : PlannerInfo) (rel : RelOptInfo C) (rte : RangeTblEntry)
    (S : List Oid) (i : Nat) (p : PathNode C)
    (h : prunes_with host ctx rte S) (hS : S ≠ []) (hu : is_union_plan p)
    (hred : 0 < (retained root S p).length ∧ (retained root S p).length < p.subpaths.length) :
    (rel.pathlist[i]? = some p →
      ∃ q, (filter_append_paths_for_inferred_labels host ctx root rel rte).pathlist[i]? = some q ∧
        q.path.total_cost = sum_left ((retained root S p).map (fun c => c.total_cost)) ∧
        q.path.rows = sum_left ((retained root S p).map (fun c => c.rows))) ∧
    (rel.partial_pathlist[i]? = some p →
      ∃ q, (filter_append_paths_for_inferred_labels host ctx root rel rte).partial_pathlist[i]?
          = some q ∧
        q.path.total_cost = sum_left ((retained root S p).map (fun c => c.total_cost)) ∧
        q.path.rows = sum_left ((retained root S p).map (fun c => c.rows))) := by
  rw [filter_of_nonempty host ctx root rel rte S h hS]
  constructor
  · intro hp
    refine ⟨filter_pathlist_node root S p, ?_, filter_pathlist_node_reduced root S p hu hred⟩
    simp [set_cheapest, List.getElem?_map, hp]
  · intro hp
    refine ⟨filter_partial_node root S p, ?_, filter_partial_node_reduced root S p hu hred⟩
    simp [set_cheapest, List.getElem?_map, hp]

/-- Witness of C9: the list `[6]` keeps one of the two children of the MergeAppend. -/
theorem pruned_total_cost_and_rows_witness :
    (prunes_with ex_host (ex_ctx [6]) ex_rte [6] ∧ ([6] : List Oid) ≠ [] ∧
      is_union_plan ex_merge ∧
      0 < (retained ex_root [6] ex_merge).length ∧
      (retained ex_root [6] ex_merge).length < ex_merge.subpaths.length) ∧
    ((ex_rel [ex_merge] [ex_merge]).pathlist[0]? = some ex_merge →
      ∃ q, (filter_append_paths_for_inferred_labels ex_host (ex_ctx [6]) ex_root
          (ex_rel [ex_merge] [ex_merge]) ex_rte).pathlist[0]? = some q ∧
        q.path.total_cost =
          sum_left ((retained ex_root [6] ex_merge).map (fun c => c.total_cost)) ∧
        q.path.rows = sum_left ((retained ex_root [6] ex_merge).map (fun c => c.rows))) ∧
    ((ex_rel [ex_merge] [ex_merge]).partial_pathlist[0]? = some ex_merge →
      ∃ q, (filter_append_paths_for_inferred_labels ex_host (ex_ctx [6]) ex_root
          (ex_rel [ex_merge] [ex_merge]) ex_rte).partial_pathlist[0]? = some q ∧
        q.path.total_cost =
          sum_left ((retained ex_root [6] ex_merge).map (fun c => c.total_cost)) ∧
        q.path.rows = sum_left ((retained ex_root [6] ex_merge).map (fun c => c.rows))) :=
  ⟨⟨ex_prunes_with [6], by decide, Or.inr rfl, by decide, by decide⟩,
    pruned_total_cost_and_rows ex_host (ex_ctx [6]) ex_root (ex_rel [ex_merge] [ex_merge])
      ex_rte [6] 0 ex_merge (ex_prunes_with [6]) (by decide) (Or.inr rfl)
      ⟨by decide, by decide⟩⟩

/-- C10 (the code at the failing input). With the list `[6]` registered for `n`, the
unordered Append over the children 5 and 6 is reduced to the child 6, whose startup
cost is 2.  In the pathlist the plan's startup cost becomes 2; in the partial pathlist
the plan keeps the startup cost 1 that it had before pruning. -/
theorem partial_append_startup_cost_stale :
    prunes_with ex_host (ex_ctx [6]) ex_rte [6] ∧
    retained ex_root [6] ex_append = [ex_scan 3 20 2 40] ∧
    ex_append.path.pathkeys = [] ∧
    (filter_append_paths_for_inferred_labels ex_host (ex_ctx [6]) ex_root
        (ex_rel [ex_append] [ex_append]) ex_rte).pathlist =
      [{ path := { type := NodeTag.T_AppendPath, parent_relid := 1, pathkeys := [],
                   rows := 20, startup_cost := 2, total_cost := 40 },
         subpaths := [ex_scan 3 20 2 40] }] ∧
    (filter_append_paths_for_inferred_labels ex_host (ex_ctx [6]) ex_root
        (ex_rel [ex_append] [ex_append]) ex_rte).partial_pathlist =
      [{ path := { type := NodeTag.T_AppendPath, parent_relid := 1, pathkeys := [],
                   rows := 20, startup_cost := 1, total_cost := 40 },
         subpaths := [ex_scan 3 20 2 40] }] :=
  ⟨ex_prunes_with [6], by decide, rfl, by decide, by decide⟩

/-! ## Hash tables -/

theorem hash_find_eq_none_iff {K V : Type} [DecidableEq K] (t : HTAB K V) (k : K) :
    hash_find t k = none ↔ ∀ e ∈ t, e.1 ≠ k := by
  induction t with
  | nil => simp [hash_find]
  | cons e es ih =>
    unfold hash_find
    by_cases h : e.1 = k
    · simp [h]
    · simp [h, ih]

theorem hash_find_mem {K V : Type} [DecidableEq K] (t : HTAB K V) (k : K) (v : V)
    (h : hash_find t k = some v) : (k, v) ∈ t := by
  induction t with
  | nil => simp [hash_find] at h
  | cons e es ih =>
    unfold hash_find at h
    by_cases hk : e.1 = k
    · simp only [hk, if_true, Option.some.injEq] at h
      have : e = (k, v) := Prod.ext hk h
      simp [this]
    · simp only [hk, if_false] at h
      exact List.mem_cons_of_mem _ (ih h)

theorem hash_find_isSome_of_mem {K V : Type} [DecidableEq K] (t : HTAB K V) (e : K × V)
    (h : e ∈ t) : (hash_find t e.1).isSome = true := by
  cases hf : hash_find t e.1 with
  | some v => rfl
  | none => exact absurd rfl ((hash_find_eq_none_iff t e.1).1 hf e h)

theorem mem_hash_enter {K V : Type} [DecidableEq K] (t : HTAB K V) (k : K) (v : V)
    (e : K × V) (h : e ∈ hash_enter t k v) : e = (k, v) ∨ e ∈ t := by
  induction t with
  | nil => simp [hash_enter] at h; exact Or.inl h
  | cons x xs ih =>
    unfold hash_enter at h
    by_cases hk : x.1 = k
    · simp only [hk, if_true, List.mem_cons] at h
      rcases h with h | h
      · exact Or.inl h
      · exact Or.inr (List.mem_cons_of_mem _ h)
    · simp only [hk, if_false, List.mem_cons] at h
      rcases h with h | h
      · exact Or.inr (by simp [h])
      · rcases ih h with h1 | h1
        · exact Or.inl h1
        · exact Or.inr (List.mem_cons_of_mem _ h1)

theorem hash_find_hash_enter_self {K V : Type} [DecidableEq K] (t : HTAB K V) (k : K) (v : V) :
    hash_find (hash_enter t k v) k = some v := by
  induction t with
  | nil => simp [hash_enter, hash_find]
  | cons x xs ih =>
    unfold hash_enter
    by_cases hk : x.1 = k
    · simp [hk, hash_find]
    · simp [hk, hash_find, ih]

theorem seq_search_relation_none {K : Type} (relid : Oid) (t : HTAB K label_cache_data)
    (h : seq_search_relation relid t = none) : ∀ e ∈ t, e.2.relation ≠ relid := by
  induction t with
  | nil => simp
  | cons x xs ih =>
    unfold seq_search_relation at h
    by_cases hx : x.2.relation = relid
    · simp [hx] at h
    · simp only [ne_eq, hx, not_false_eq_true, if_true] at h
      intro e he
      rcases List.mem_cons.1 he with he | he
      · simpa [he] using hx
      · exact ih h e he

theorem seq_search_relation_some {K : Type} (relid : Oid) (t : HTAB K label_cache_data)
    (e : K × label_cache_data) (h : seq_search_relation relid t = some e) :
    e ∈ t ∧ e.2.relation = relid := by
  induction t with
  | nil => simp [seq_search_relation] at h
  | cons x xs ih =>
    unfold seq_search_relation at h
    by_cases hx : x.2.relation = relid
    · simp only [ne_eq, hx, not_true_eq_false, if_false, Option.some.injEq] at h
      subst h
      exact ⟨List.mem_cons_self _ _, hx⟩
    · simp only [ne_eq, hx, not_false_eq_true, if_true] at h
      exact ⟨List.mem_cons_of_mem _ (ih h).1, (ih h).2⟩

/-- The scanning invalidation never raises its error, removes nothing but entries of the
table, and leaves no entry of the relation when all such entries lie under one key. -/
theorem invalidate_by_scan_spec {K : Type} [DecidableEq K] (errmsg : String)
    (t : HTAB K label_cache_data) (relid : Oid) :
    ∃ t', invalidate_by_scan errmsg t relid = Except.ok t' ∧
      (∀ e ∈ t', e ∈ t) ∧
      ((∀ e ∈ t, ∀ e' ∈ t, e.2.relation = relid → e'.2.relation = relid → e.1 = e'.1) →
        ∀ e ∈ t', e.2.relation ≠ relid) := by
  unfold invalidate_by_scan
  cases hs : seq_search_relation relid t with
  | none =>
    exact ⟨t, rfl, fun e he => he, fun _ e he => seq_search_relation_none relid t hs e he⟩
  | some x =>
    obtain ⟨hx, hxr⟩ := seq_search_relation_some relid t x hs
    have hfound : (hash_find t x.1).isSome = true := hash_find_isSome_of_mem t x hx
    refine ⟨t.filter (fun e => decide (e.1 ≠ x.1)), ?_, ?_, ?_⟩
    · simp [hash_remove, hfound]
    · intro e he
      exact (List.mem_filter.1 he).1
    · intro hkey e he
      obtain ⟨het, hek⟩ := List.mem_filter.1 he
      intro her
      have := hkey e het x hx her hxr
      simp [this] at hek

/-- The invalidation of the cache by relation never raises its error, removes nothing
but entries of the table, and leaves no entry of the relation when every entry of the
relation is stored under the relation as its key. -/
theorem invalidate_label_relation_cache_spec (t : HTAB Oid label_cache_data) (relid : Oid) :
    ∃ t', invalidate_label_relation_cache t relid = Except.ok t' ∧
      (∀ e ∈ t', e ∈ t) ∧
      ((∀ e ∈ t, e.2.relation = relid → e.1 = relid) → ∀ e ∈ t', e.2.relation ≠ relid) := by
  unfold invalidate_label_relation_cache
  cases hf : hash_find t relid with
  | none =>
    refine ⟨t, rfl, fun e he => he, ?_⟩
    intro hkey e he her
    exact (hash_find_eq_none_iff t relid).1 hf e he (hkey e he her)
  | some v =>
    refine ⟨t.filter (fun e => decide (e.1 ≠ relid)), ?_, ?_, ?_⟩
    · simp [hash_remove, hf]
    · intro e he
      exact (List.mem_filter.1 he).1
    · intro hkey e he her
      obtain ⟨het, hek⟩ := List.mem_filter.1 he
      simp [hkey e het her] at hek

/-! ## Invalidation completeness -/

/-- C7 (counterexample). The cache by (name, graph) holds two entries of relation 16400,
under the names `Person` and `Human`; `invalidate_label_caches` for 16400 succeeds and
removes the first one only, so that an entry of relation 16400 is still cached. -/
theorem invalidation_leaves_second_entry :
    OidIsValid 16400 = true ∧
    invalidate_label_caches ex_cache_two_names 16400 =
      Except.ok
        { AgCache.empty with
          label_name_graph_cache_hash :=
            [({ name := "Human", graph := 1 }, ex_label_data "Human")] } ∧
    (ex_label_data "Human").relation = 16400 :=
  ⟨by decide, by rfl, rfl⟩

/-- C7 (amended). Let `R` be a valid relation OID and let the caches be such that, in each
of the three caches that are scanned (by (name, graph), by (graph, id), by (sequence
name, graph)), all entries whose relation is `R` lie under one key, and in the cache by
relation every entry whose relation is `R` is stored under the key `R`.  Then
`invalidate_label_caches` for `R` succeeds, and afterwards none of the four caches
holds an entry whose cached relation is `R`. -/
theorem invalidation_complete (c : AgCache) (R : Oid) (hR : OidIsValid R = true)
    (h1 : ∀ e ∈ c.label_name_graph_cache_hash, ∀ e' ∈ c.label_name_graph_cache_hash,
      e.2.relation = R → e'.2.relation = R → e.1 = e'.1)
    (h2 : ∀ e ∈ c.label_graph_oid_cache_hash, ∀ e' ∈ c.label_graph_oid_cache_hash,
      e.2.relation = R → e'.2.relation = R → e.1 = e'.1)
    (h3 : ∀ e ∈ c.label_relation_cache_hash, e.2.relation = R → e.1 = R)
    (h4 : ∀ e ∈ c.label_seq_name_graph_cache_hash, ∀ e' ∈ c.label_seq_name_graph_cache_hash,
      e.2.relation = R → e'.2.relation = R → e.1 = e'.1) :
    ∃ c', invalidate_label_caches c R = Except.ok c' ∧
      (∀ e ∈ c'.label_name_graph_cache_hash, e.2.relation ≠ R) ∧
      (∀ e ∈ c'.label_graph_oid_cache_hash, e.2.relation ≠ R) ∧
      (∀ e ∈ c'.label_relation_cache_hash, e.2.relation ≠ R) ∧
      (∀ e ∈ c'.label_seq_name_graph_cache_hash, e.2.relation ≠ R) := by
  obtain ⟨t1, e1, -, k1⟩ :=
    invalidate_by_scan_spec "label (name, graph) cache corrupted"
      c.label_name_graph_cache_hash R
  obtain ⟨t2, e2, -, k2⟩ :=
    invalidate_by_scan_spec "label (graph, id) cache corrupted"
      c.label_graph_oid_cache_hash R
  obtain ⟨t3, e3, -, k3⟩ := invalidate_label_relation_cache_spec c.label_relation_cache_hash R
  obtain ⟨t4, e4, -, k4⟩ :=
    invalidate_by_scan_spec "label (seq_name, graph) cache corrupted"
      c.label_seq_name_graph_cache_hash R
  refine ⟨{ c with label_name_graph_cache_hash := t1, label_graph_oid_cache_hash := t2,
                   label_relation_cache_hash := t3, label_seq_name_graph_cache_hash := t4 },
    ?_, k1 h1, k2 h2, k3 h3, k4 h4⟩
  simp only [invalidate_label_caches, hR, if_true, invalidate_label_name_graph_cache,
    invalidate_label_graph_oid_cache, invalidate_label_seq_name_graph_cache, e1, e2, e3, e4]

/-- Witness of C7 (amended): each cache holds one entry of relation 16400, the cache by
(name, graph) also an entry of relation 16500; after the call no entry of relation
16400 is left. -/
theorem invalidation_complete_witness :
    (OidIsValid 16400 = true ∧
      (∀ e ∈ ex_cache_one_each.label_name_graph_cache_hash,
        ∀ e' ∈ ex_cache_one_each.label_name_graph_cache_hash,
        e.2.relation = 16400 → e'.2.relation = 16400 → e.1 = e'.1) ∧
      (∀ e ∈ ex_cache_one_each.label_graph_oid_cache_hash,
        ∀ e' ∈ ex_cache_one_each.label_graph_oid_cache_hash,
        e.2.relation = 16400 → e'.2.relation = 16400 → e.1 = e'.1) ∧
      (∀ e ∈ ex_cache_one_each.label_relation_cache_hash, e.2.relation = 16400 → e.1 = 16400) ∧
      (∀ e ∈ ex_cache_one_each.label_seq_name_graph_cache_hash,
        ∀ e' ∈ ex_cache_one_each.label_seq_name_graph_cache_hash,
        e.2.relation = 16400 → e'.2.relation = 16400 → e.1 = e'.1)) ∧
    ∃ c', invalidate_label_caches ex_cache_one_each 16400 = Except.ok c' ∧
      (∀ e ∈ c'.label_name_graph_cache_hash, e.2.relation ≠ 16400) ∧
      (∀ e ∈ c'.label_graph_oid_cache_hash, e.2.relation ≠ 16400) ∧
      (∀ e ∈ c'.label_relation_cache_hash, e.2.relation ≠ 16400) ∧
      (∀ e ∈ c'.label_seq_name_graph_cache_hash, e.2.relation ≠ 16400) :=
  ⟨⟨by decide, by decide, by decide, by decide, by decide⟩,
    invalidation_complete ex_cache_one_each 16400 (by decide) (by decide) (by decide)
      (by decide) (by decide)⟩

/-! ## Flush of the edge-schema caches on write -/

/-- C8. After `insert_edge_schema_entry`, `delete_edge_schema_entries`,
`delete_edge_schema_entries_for_vertex` or `delete_edge_schema_entries_for_graph` for a
graph `G`, each of the three edge-schema caches is empty, so that it holds no entry
cached before the call, for `G` or any other graph; the next lookup of any key misses
and takes the path that scans the catalog rows. -/
theorem schema_caches_flushed_on_write (st : AgState) (G : Oid) (e s t v : Int)
    (st' : AgState)
    (hop : st' = insert_edge_schema_entry st G e s t ∨ st' = delete_edge_schema_entries st G e ∨
      st' = delete_edge_schema_entries_for_vertex st G v ∨
      st' = delete_edge_schema_entries_for_graph st G) :
    st'.cache.edge_schema_cache_hash = [] ∧
    st'.cache.start_vertex_end_labels_cache_hash = [] ∧
    st'.cache.end_vertex_start_labels_cache_hash = [] ∧
    (∀ msgs g k, search_edge_schema_cache st' msgs g k =
      search_edge_schema_cache_miss st' msgs g k) ∧
    (∀ msgs g k, search_start_vertex_end_labels_cache st' msgs g k =
      search_start_vertex_end_labels_cache_miss st' msgs g k) ∧
    (∀ msgs g k, search_end_vertex_start_labels_cache st' msgs g k =
      search_end_vertex_start_labels_cache_miss st' msgs g k) := by
  have h1 : st'.cache.edge_schema_cache_hash = [] := by
    rcases hop with h | h | h | h <;> subst h <;> rfl
  have h2 : st'.cache.start_vertex_end_labels_cache_hash = [] := by
    rcases hop with h | h | h | h <;> subst h <;> rfl
  have h3 : st'.cache.end_vertex_start_labels_cache_hash = [] := by
    rcases hop with h | h | h | h <;> subst h <;> rfl
  refine ⟨h1, h2, h3, ?_, ?_, ?_⟩
  · intro msgs g k
    simp [search_edge_schema_cache, h1, hash_find]
  · intro msgs g k
    simp [search_start_vertex_end_labels_cache, h2, hash_find]
  · intro msgs g k
    simp [search_end_vertex_start_labels_cache, h3, hash_find]

/-! ## Scans of the edge-schema rows -/

theorem namestrcpy_idem (s : String) : namestrcpy (namestrcpy s) = namestrcpy s := by
  simp [namestrcpy, List.take_take]

theorem list_member_int_iff (l : List Int) (x : Int) : list_member_int l x = true ↔ x ∈ l := by
  induction l with
  | nil => simp [list_member_int]
  | cons y ys ih =>
    unfold list_member_int
    by_cases h : y = x
    · simp [h]
    · simp [h, ih, Ne.symm h]

theorem entries_if_eq {α : Type} (l : List α) : (if 0 < l.length then l else []) = l := by
  cases l <;> simp

theorem edge_schema_scan_loop_eq (graph : Oid) (edge_label_id : Int)
    (acc : List edge_schema_entry) (rows : List ag_graph_schema_row) :
    edge_schema_scan_loop graph edge_label_id acc rows =
      acc ++ (rows.filter (fun r =>
          decide (r.graph = graph ∧ r.edge_label_id = edge_label_id))).map
        (fun r => { start_label_id := r.start_label_id, end_label_id := r.end_label_id }) := by
  induction rows generalizing acc with
  | nil => simp [edge_schema_scan_loop]
  | cons r rs ih =>
    unfold edge_schema_scan_loop
    by_cases h : r.graph = graph ∧ r.edge_label_id = edge_label_id
    · simp [h, ih, lappend]
    · simp [h, ih]

/-- Appending the values that are not in the list yet adds the first occurrences of
the values that the list lacks. -/
theorem dedup_append_spec (acc l : List Int) :
    l.foldl (fun a x => if list_member_int a x = false then lappend a x else a) acc =
      acc ++ (dedup_first l).filter (fun y => decide (y ∉ acc)) := by
  induction l generalizing acc with
  | nil => simp [dedup_first]
  | cons x xs ih =>
    simp only [List.foldl_cons, dedup_first]
    by_cases hx : x ∈ acc
    · have hm : list_member_int acc x = true := (list_member_int_iff acc x).2 hx
      simp only [hm, Bool.true_eq_false, if_false, ih]
      congr 1
      simp only [List.filter_cons, hx, not_true_eq_false, decide_False, Bool.false_eq_true,
        if_false, List.filter_filter]
      apply List.filter_congr
      intro y _
      by_cases hy : y ∈ acc
      · simp [hy]
      · have : y ≠ x := fun h => hy (h ▸ hx)
        simp [hy, this]
    · have hm : list_member_int acc x = false := by
        cases h : list_member_int acc x with
        | false => rfl
        | true => exact absurd ((list_member_int_iff acc x).1 h) hx
      simp only [hm, if_true]
      rw [ih]
      simp only [lappend, List.filter_cons, hx, not_false_eq_true, decide_True, if_true,
        List.append_assoc, List.singleton_append, List.filter_filter]
      congr 2
      apply List.filter_congr
      intro y _
      by_cases hy : y ∈ acc
      · simp [hy]
      · by_cases hyx : y = x
        · simp [hyx]
        · simp [hy, hyx]

theorem end_labels_scan_loop_eq (graph : Oid) (start_label_id : Int) (acc : List Int)
    (rows : List ag_graph_schema_row) :
    end_labels_scan_loop graph start_label_id acc rows =
      ((rows.filter (fun r =>
          decide (r.graph = graph ∧ r.start_label_id = start_label_id))).map
        (fun r => r.end_label_id)).foldl
        (fun a x => if list_member_int a x = false then lappend a x else a) acc := by
  induction rows generalizing acc with
  | nil => simp [end_labels_scan_loop]
  | cons r rs ih =>
    unfold end_labels_scan_loop
    by_cases h : r.graph = graph ∧ r.start_label_id = start_label_id
    · cases hm : list_member_int acc r.end_label_id <;> simp [h, hm, ih]
    · simp [h, ih]

theorem start_labels_scan_loop_eq (graph : Oid) (end_label_id : Int) (acc : List Int)
    (rows : List ag_graph_schema_row) :
    start_labels_scan_loop graph end_label_id acc rows =
      ((rows.filter (fun r =>
          decide (r.graph = graph ∧ r.end_label_id = end_label_id))).map
        (fun r => r.start_label_id)).foldl
        (fun a x => if list_member_int a x = false then lappend a x else a) acc := by
  induction rows generalizing acc with
  | nil => simp [start_labels_scan_loop]
  | cons r rs ih =>
    unfold start_labels_scan_loop
    by_cases h : r.graph = graph ∧ r.end_label_id = end_label_id
    · cases hm : list_member_int acc r.start_label_id <;> simp [h, hm, ih]
    · simp [h, ih]

theorem edge_schema_scan_direct (cat : Catalog) (graph : Oid) (edge_label_id : Int) :
    edge_schema_data graph edge_label_id
        (edge_schema_scan_loop graph edge_label_id [] cat.ag_graph_schema) =
      direct_edge_schema cat graph edge_label_id := by
  simp [edge_schema_data, direct_edge_schema, edge_schema_scan_loop_eq, entries_if_eq]

theorem end_labels_scan_direct (cat : Catalog) (graph : Oid) (start_label_id : Int) :
    vertex_labels_data graph start_label_id
        (end_labels_scan_loop graph start_label_id [] cat.ag_graph_schema) =
      direct_end_labels cat graph start_label_id := by
  simp [vertex_labels_data, direct_end_labels, end_labels_scan_loop_eq, dedup_append_spec,
    entries_if_eq]

theorem start_labels_scan_direct (cat : Catalog) (graph : Oid) (end_label_id : Int) :
    vertex_labels_data graph end_label_id
        (start_labels_scan_loop graph end_label_id [] cat.ag_graph_schema) =
      direct_start_labels cat graph end_label_id := by
  simp [vertex_labels_data, direct_start_labels, start_labels_scan_loop_eq, dedup_append_spec,
    entries_if_eq]

/-! ## Invalidation only removes entries -/

theorem CacheSub.refl (c : AgCache) : CacheSub c c :=
  ⟨fun _ h => h, fun _ h => h, fun _ h => h, fun _ h => h, fun _ h => h, fun _ h => h,
    fun _ h => h, fun _ h => h, fun _ h => h⟩

theorem CacheSub.trans {a b c : AgCache} (h1 : CacheSub a b) (h2 : CacheSub b c) :
    CacheSub a c :=
  ⟨fun e h => h2.graph_name e (h1.graph_name e h),
    fun e h => h2.graph_namespace e (h1.graph_namespace e h),
    fun e h => h2.label_name_graph e (h1.label_name_graph e h),
    fun e h => h2.label_graph_oid e (h1.label_graph_oid e h),
    fun e h => h2.label_relation e (h1.label_relation e h),
    fun e h => h2.label_seq_name_graph e (h1.label_seq_name_graph e h),
    fun e h => h2.edge_schema e (h1.edge_schema e h),
    fun e h => h2.start_vertex_end_labels e (h1.start_vertex_end_labels e h),
    fun e h => h2.end_vertex_start_labels e (h1.end_vertex_start_labels e h)⟩

theorem invalidate_label_caches_sub (c : AgCache) (relid : Oid) :
    ∃ c', invalidate_label_caches c relid = Except.ok c' ∧ CacheSub c' c := by
  by_cases hR : OidIsValid relid = true
  · obtain ⟨t1, e1, s1, -⟩ :=
      invalidate_by_scan_spec "label (name, graph) cache corrupted"
        c.label_name_graph_cache_hash relid
    obtain ⟨t2, e2, s2, -⟩ :=
      invalidate_by_scan_spec "label (graph, id) cache corrupted"
        c.label_graph_oid_cache_hash relid
    obtain ⟨t3, e3, s3, -⟩ :=
      invalidate_label_relation_cache_spec c.label_relation_cache_hash relid
    obtain ⟨t4, e4, s4, -⟩ :=
      invalidate_by_scan_spec "label (seq_name, graph) cache corrupted"
        c.label_seq_name_graph_cache_hash relid
    refine ⟨{ c with label_name_graph_cache_hash := t1, label_graph_oid_cache_hash := t2,
                     label_relation_cache_hash := t3, label_seq_name_graph_cache_hash := t4 },
      ?_, ?_⟩
    · simp only [invalidate_label_caches, hR, if_true, invalidate_label_name_graph_cache,
        invalidate_label_graph_oid_cache, invalidate_label_seq_name_graph_cache, e1, e2, e3, e4]
    · exact ⟨fun _ h => h, fun _ h => h, s1, s2, s3, s4, fun _ h => h, fun _ h => h,
        fun _ h => h⟩
  · refine ⟨{ c with label_name_graph_cache_hash := [], label_graph_oid_cache_hash := [],
                     label_relation_cache_hash := [], label_seq_name_graph_cache_hash := [] },
      ?_, ?_⟩
    · simp [invalidate_label_caches, hR]
    · exact ⟨fun _ h => h, fun _ h => h, fun _ h => by simp at h, fun _ h => by simp at h,
        fun _ h => by simp at h, fun _ h => by simp at h, fun _ h => h, fun _ h => h,
        fun _ h => h⟩

theorem deliver_inval_sub (c : AgCache) (msg : InvalMsg) :
    ∃ c', deliver_inval c msg = Except.ok c' ∧ CacheSub c' c := by
  cases msg with
  | namespace_event hv =>
    refine ⟨invalidate_graph_caches c, rfl, ?_⟩
    exact ⟨fun _ h => by simp [invalidate_graph_caches, flush_graph_namespace_cache,
        flush_graph_name_cache] at h,
      fun _ h => by simp [invalidate_graph_caches, flush_graph_namespace_cache,
        flush_graph_name_cache] at h,
      fun _ h => h, fun _ h => h, fun _ h => h, fun _ h => h, fun _ h => h, fun _ h => h,
      fun _ h => h⟩
  | relcache_event relid => exact invalidate_label_caches_sub c relid

theorem accept_invalidation_sub (c : AgCache) (msgs : List InvalMsg) :
    ∃ c', AcceptInvalidationMessages c msgs = Except.ok c' ∧ CacheSub c' c := by
  induction msgs generalizing c with
  | nil => exact ⟨c, rfl, CacheSub.refl c⟩
  | cons m ms ih =>
    obtain ⟨c1, h1, s1⟩ := deliver_inval_sub c m
    obtain ⟨c2, h2, s2⟩ := ih c1
    refine ⟨c2, ?_, CacheSub.trans s2 s1⟩
    simp [AcceptInvalidationMessages, h1, h2]

theorem Coherent.of_sub {cat : Catalog} {c c' : AgCache}
    (h : Coherent { catalog := cat, cache := c }) (hs : CacheSub c' c) :
    Coherent { catalog := cat, cache := c' } :=
  { relation_unique := h.relation_unique
    graph_name := fun e he => h.graph_name e (hs.graph_name e he)
    graph_namespace := fun e he => h.graph_namespace e (hs.graph_namespace e he)
    label_name_graph := fun e he => h.label_name_graph e (hs.label_name_graph e he)
    label_graph_oid := fun e he => h.label_graph_oid e (hs.label_graph_oid e he)
    label_seq_name_graph := fun e he => h.label_seq_name_graph e (hs.label_seq_name_graph e he)
    edge_schema := fun e he => h.edge_schema e (hs.edge_schema e he)
    start_vertex_end_labels := fun e he =>
      h.start_vertex_end_labels e (hs.start_vertex_end_labels e he)
    end_vertex_start_labels := fun e he =>
      h.end_vertex_start_labels e (hs.end_vertex_start_labels e he) }

theorem hash_find_none_of_sub {K V : Type} [DecidableEq K] (t t' : HTAB K V) (k : K)
    (hs : ∀ e ∈ t', e ∈ t) (h : hash_find t k = none) : hash_find t' k = none :=
  (hash_find_eq_none_iff t' k).2 (fun e he => (hash_find_eq_none_iff t k).1 h e (hs e he))

/-! ## The fill paths -/

theorem enter_tuple_spec {K V : Type} [DecidableEq K] (t : HTAB K V) (key : K)
    (tuple : Option V) (h : hash_find t key = none) :
    ∃ t', enter_tuple t key tuple = Except.ok (tuple, t') ∧
      ∀ e ∈ t', e ∈ t ∨ (e.1 = key ∧ tuple = some e.2) := by
  cases tuple with
  | none => exact ⟨t, rfl, fun e he => Or.inl he⟩
  | some d =>
    refine ⟨hash_enter t key d, by simp [enter_tuple, h], ?_⟩
    intro e he
    rcases mem_hash_enter t key d e he with h1 | h1
    · exact Or.inr (by simp [h1])
    · exact Or.inl h1

theorem enter_data_spec {K V : Type} [DecidableEq K] (t : HTAB K V) (key : K) (data : V)
    (h : hash_find t key = none) :
    ∃ t', enter_data t key data = Except.ok (data, t') ∧
      ∀ e ∈ t', e ∈ t ∨ (e.1 = key ∧ e.2 = data) := by
  refine ⟨hash_enter t key data, by simp [enter_data, h], ?_⟩
  intro e he
  rcases mem_hash_enter t key data e he with h1 | h1
  · exact Or.inr (by simp [h1])
  · exact Or.inl h1

/-! ## Lookups on a coherent state -/

theorem search_graph_name_cache_coherent (st : AgState) (msgs : List InvalMsg) (name : String)
    (h : Coherent st) :
    ∃ st', search_graph_name_cache st msgs name =
        Except.ok (direct_graph_by_name st.catalog (namestrcpy name), st') ∧
      Coherent st' ∧ st'.catalog = st.catalog := by
  cases hf : hash_find st.cache.graph_name_cache_hash (namestrcpy name) with
  | some d =>
    have hd : direct_graph_by_name st.catalog (namestrcpy name) = some d :=
      h.graph_name _ (hash_find_mem _ _ _ hf)
    refine ⟨st, ?_, h, rfl⟩
    simp only [search_graph_name_cache, hf, hd]
  | none =>
    obtain ⟨c', hacc, hsub⟩ := accept_invalidation_sub st.cache msgs
    have hnone := hash_find_none_of_sub _ _ _ hsub.graph_name hf
    obtain ⟨t', het, hmem⟩ :=
      enter_tuple_spec c'.graph_name_cache_hash (namestrcpy name)
        (direct_graph_by_name st.catalog (namestrcpy name)) hnone
    have hbase : Coherent { catalog := st.catalog, cache := c' } := Coherent.of_sub h hsub
    refine ⟨{ st with cache := { c' with graph_name_cache_hash := t' } }, ?_, ?_, rfl⟩
    · unfold direct_graph_by_name at het
      simp only [search_graph_name_cache, hf, search_graph_name_cache_miss, hacc, het]
      rfl
    · exact { hbase with
        graph_name := fun e he => by
          rcases hmem e he with h1 | ⟨hk, hd⟩
          · exact hbase.graph_name e h1
          · rw [hk]; exact hd }

theorem search_graph_namespace_cache_coherent (st : AgState) (msgs : List InvalMsg) (namespace_oid : Oid)
    (h : Coherent st) :
    ∃ st', search_graph_namespace_cache st msgs namespace_oid =
        Except.ok (direct_graph_by_namespace st.catalog namespace_oid, st') ∧
      Coherent st' ∧ st'.catalog = st.catalog := by
  cases hf : hash_find st.cache.graph_namespace_cache_hash namespace_oid with
  | some d =>
    have hd : direct_graph_by_namespace st.catalog namespace_oid = some d :=
      h.graph_namespace _ (hash_find_mem _ _ _ hf)
    refine ⟨st, ?_, h, rfl⟩
    simp only [search_graph_namespace_cache, hf, hd]
  | none =>
    obtain ⟨c', hacc, hsub⟩ := accept_invalidation_sub st.cache msgs
    have hnone := hash_find_none_of_sub _ _ _ hsub.graph_namespace hf
    obtain ⟨t', het, hmem⟩ :=
      enter_tuple_spec c'.graph_namespace_cache_hash namespace_oid
        (direct_graph_by_namespace st.catalog namespace_oid) hnone
    have hbase : Coherent { catalog := st.catalog, cache := c' } := Coherent.of_sub h hsub
    refine ⟨{ st with cache := { c' with graph_namespace_cache_hash := t' } }, ?_, ?_, rfl⟩
    · unfold direct_graph_by_namespace at het
      simp only [search_graph_namespace_cache, hf, search_graph_namespace_cache_miss, hacc, het]
      rfl
    · exact { hbase with
        graph_namespace := fun e he => by
          rcases hmem e he with h1 | ⟨hk, hd⟩
          · exact hbase.graph_namespace e h1
          · rw [hk]; exact hd }

theorem search_label_relation_cache_miss_ok (st : AgState) (msgs : List InvalMsg)
    (relation : Oid) (hf : hash_find st.cache.label_relation_cache_hash relation = none) :
    ∃ c' t', AcceptInvalidationMessages st.cache msgs = Except.ok c' ∧ CacheSub c' st.cache ∧
      search_label_relation_cache st msgs relation =
        Except.ok (direct_label_by_relation st.catalog relation,
          { st with cache := { c' with label_relation_cache_hash := t' } }) ∧
      (direct_label_by_relation st.catalog relation = none →
        t' = c'.label_relation_cache_hash) ∧
      (∀ d, direct_label_by_relation st.catalog relation = some d →
        t' = lappend c'.label_relation_cache_hash (entry_written_at_start d)) := by
  obtain ⟨c', hacc, hsub⟩ := accept_invalidation_sub st.cache msgs
  have hnone := hash_find_none_of_sub _ _ _ hsub.label_relation hf
  cases ht : st.catalog.ag_label.find? (fun r => decide (r.relation = relation)) with
  | none =>
    refine ⟨c', c'.label_relation_cache_hash, hacc, hsub, ?_, fun _ => rfl, ?_⟩
    · simp only [search_label_relation_cache, hf, search_label_relation_cache_miss, hacc, ht,
        direct_label_by_relation, Option.map_none']
    · intro d hd
      simp [direct_label_by_relation, ht] at hd
  | some tuple =>
    refine ⟨c', lappend c'.label_relation_cache_hash
      (entry_written_at_start (fill_label_cache_data tuple)), hacc, hsub, ?_, ?_, ?_⟩
    · simp only [search_label_relation_cache, hf, search_label_relation_cache_miss, hacc, ht,
        hnone, direct_label_by_relation, Option.map_some', Option.isSome_none,
        Bool.false_eq_true, if_false]
    · intro hd
      simp [direct_label_by_relation, ht] at hd
    · intro d hd
      simp only [direct_label_by_relation, ht, Option.map_some', Option.some.injEq] at hd
      rw [hd]

theorem search_label_relation_cache_coherent (st : AgState) (msgs : List InvalMsg) (relation : Oid)
    (h : Coherent st) :
    ∃ res st', search_label_relation_cache st msgs relation = Except.ok (res, st') ∧
      Coherent st' ∧ st'.catalog = st.catalog ∧
      (hash_find st.cache.label_relation_cache_hash relation = none →
        res = direct_label_by_relation st.catalog relation) := by
  cases hf : hash_find st.cache.label_relation_cache_hash relation with
  | some d =>
    refine ⟨some d, st, ?_, h, rfl, fun hn => absurd hn (by simp)⟩
    simp only [search_label_relation_cache, hf]
  | none =>
    obtain ⟨c', t', -, hsub, hs, -, -⟩ := search_label_relation_cache_miss_ok st msgs relation hf
    have hbase : Coherent { catalog := st.catalog, cache := c' } := Coherent.of_sub h hsub
    exact ⟨_, _, hs, { hbase with }, rfl, fun _ => rfl⟩

theorem search_label_name_graph_cache_coherent (st : AgState) (msgs : List InvalMsg) (name : String) (graph : Oid)
    (h : Coherent st) :
    ∃ st', search_label_name_graph_cache st msgs name graph =
        Except.ok (direct_label_by_name_graph st.catalog (namestrcpy name) graph, st') ∧
      Coherent st' ∧ st'.catalog = st.catalog := by
  cases hf : hash_find st.cache.label_name_graph_cache_hash (label_name_graph_key (namestrcpy name) graph) with
  | some d =>
    have hd := h.label_name_graph _ (hash_find_mem _ _ _ hf)
    simp only [label_name_graph_key, namestrcpy_idem] at hd
    refine ⟨st, ?_, h, rfl⟩
    simp only [search_label_name_graph_cache, hf, hd]
  | none =>
    obtain ⟨c', hacc, hsub⟩ := accept_invalidation_sub st.cache msgs
    have hnone := hash_find_none_of_sub _ _ _ hsub.label_name_graph hf
    obtain ⟨t', het, hmem⟩ :=
      enter_tuple_spec c'.label_name_graph_cache_hash (label_name_graph_key (namestrcpy name) graph)
        (direct_label_by_name_graph st.catalog (namestrcpy name) graph) hnone
    have hbase : Coherent { catalog := st.catalog, cache := c' } := Coherent.of_sub h hsub
    refine ⟨{ st with cache := { c' with label_name_graph_cache_hash := t' } }, ?_, ?_, rfl⟩
    · unfold direct_label_by_name_graph at het
      simp only [search_label_name_graph_cache, hf, search_label_name_graph_cache_miss, hacc, het]
      rfl
    · exact { hbase with
        label_name_graph := fun e he => by
          rcases hmem e he with h1 | ⟨hk, hd⟩
          · exact hbase.label_name_graph e h1
          · rw [hk]
            simp only [label_name_graph_key, namestrcpy_idem]
            exact hd }

theorem search_label_graph_oid_cache_coherent (st : AgState) (msgs : List InvalMsg) (graph : Oid) (id : Int)
    (h : Coherent st) :
    ∃ st', search_label_graph_oid_cache st msgs graph id =
        Except.ok (direct_label_by_graph_oid st.catalog graph id, st') ∧
      Coherent st' ∧ st'.catalog = st.catalog := by
  cases hf : hash_find st.cache.label_graph_oid_cache_hash (label_graph_oid_key graph id) with
  | some d =>
    have hd := h.label_graph_oid _ (hash_find_mem _ _ _ hf)
    simp only [label_graph_oid_key] at hd
    refine ⟨st, ?_, h, rfl⟩
    simp only [search_label_graph_oid_cache, hf, hd]
  | none =>
    obtain ⟨c', hacc, hsub⟩ := accept_invalidation_sub st.cache msgs
    have hnone := hash_find_none_of_sub _ _ _ hsub.label_graph_oid hf
    obtain ⟨t', het, hmem⟩ :=
      enter_tuple_spec c'.label_graph_oid_cache_hash (label_graph_oid_key graph id)
        (direct_label_by_graph_oid st.catalog graph id) hnone
    have hbase : Coherent { catalog := st.catalog, cache := c' } := Coherent.of_sub h hsub
    refine ⟨{ st with cache := { c' with label_graph_oid_cache_hash := t' } }, ?_, ?_, rfl⟩
    · unfold direct_label_by_graph_oid at het
      simp only [search_label_graph_oid_cache, hf, search_label_graph_oid_cache_miss, hacc, het]
      rfl
    · exact { hbase with
        label_graph_oid := fun e he => by
          rcases hmem e he with h1 | ⟨hk, hd⟩
          · exact hbase.label_graph_oid e h1
          · rw [hk]
            simp only [label_graph_oid_key]
            exact hd }

theorem search_label_seq_name_graph_cache_coherent (st : AgState) (msgs : List InvalMsg) (name : String) (graph : Oid)
    (h : Coherent st) :
    ∃ st', search_label_seq_name_graph_cache st msgs name graph =
        Except.ok (direct_label_by_seq_name_graph st.catalog (namestrcpy name) graph, st') ∧
      Coherent st' ∧ st'.catalog = st.catalog := by
  cases hf : hash_find st.cache.label_seq_name_graph_cache_hash (label_seq_name_graph_key (namestrcpy name) graph) with
  | some d =>
    have hd := h.label_seq_name_graph _ (hash_find_mem _ _ _ hf)
    simp only [label_seq_name_graph_key, namestrcpy_idem] at hd
    refine ⟨st, ?_, h, rfl⟩
    simp only [search_label_seq_name_graph_cache, hf, hd]
  | none =>
    obtain ⟨c', hacc, hsub⟩ := accept_invalidation_sub st.cache msgs
    have hnone := hash_find_none_of_sub _ _ _ hsub.label_seq_name_graph hf
    obtain ⟨t', het, hmem⟩ :=
      enter_tuple_spec c'.label_seq_name_graph_cache_hash (label_seq_name_graph_key (namestrcpy name) graph)
        (direct_label_by_seq_name_graph st.catalog (namestrcpy name) graph) hnone
    have hbase : Coherent { catalog := st.catalog, cache := c' } := Coherent.of_sub h hsub
    refine ⟨{ st with cache := { c' with label_seq_name_graph_cache_hash := t' } }, ?_, ?_, rfl⟩
    · unfold direct_label_by_seq_name_graph at het
      simp only [search_label_seq_name_graph_cache, hf, search_label_seq_name_graph_cache_miss, hacc, het]
      rfl
    · exact { hbase with
        label_seq_name_graph := fun e he => by
          rcases hmem e he with h1 | ⟨hk, hd⟩
          · exact hbase.label_seq_name_graph e h1
          · rw [hk]
            simp only [label_seq_name_graph_key, namestrcpy_idem]
            exact hd }

theorem search_edge_schema_cache_coherent (st : AgState) (msgs : List InvalMsg) (graph : Oid)
    (edge_label_id : Int) (h : Coherent st) :
    ∃ st', search_edge_schema_cache st msgs graph edge_label_id =
        Except.ok (direct_edge_schema st.catalog graph edge_label_id, st') ∧
      Coherent st' ∧ st'.catalog = st.catalog := by
  cases hf : hash_find st.cache.edge_schema_cache_hash
      { graph := graph, edge_label_id := edge_label_id } with
  | some d =>
    have hd : d = direct_edge_schema st.catalog graph edge_label_id :=
      h.edge_schema _ (hash_find_mem _ _ _ hf)
    refine ⟨st, ?_, h, rfl⟩
    simp only [search_edge_schema_cache, hf, hd]
  | none =>
    obtain ⟨c', hacc, hsub⟩ := accept_invalidation_sub st.cache msgs
    have hnone := hash_find_none_of_sub _ _ _ hsub.edge_schema hf
    obtain ⟨t', het, hmem⟩ :=
      enter_data_spec c'.edge_schema_cache_hash { graph := graph, edge_label_id := edge_label_id }
        (direct_edge_schema st.catalog graph edge_label_id) hnone
    have hbase : Coherent { catalog := st.catalog, cache := c' } := Coherent.of_sub h hsub
    refine ⟨{ st with cache := { c' with edge_schema_cache_hash := t' } }, ?_, ?_, rfl⟩
    · simp only [search_edge_schema_cache, hf, search_edge_schema_cache_miss, hacc, edge_schema_scan_direct, het]
    · exact { hbase with
        edge_schema := fun e he => by
          rcases hmem e he with h1 | ⟨hk, hd⟩
          · exact hbase.edge_schema e h1
          · rw [hk]; exact hd }

theorem search_start_vertex_end_labels_cache_coherent (st : AgState) (msgs : List InvalMsg) (graph : Oid)
    (start_label_id : Int) (h : Coherent st) :
    ∃ st', search_start_vertex_end_labels_cache st msgs graph start_label_id =
        Except.ok (direct_end_labels st.catalog graph start_label_id, st') ∧
      Coherent st' ∧ st'.catalog = st.catalog := by
  cases hf : hash_find st.cache.start_vertex_end_labels_cache_hash
      { graph := graph, vertex_label_id := start_label_id } with
  | some d =>
    have hd : d = direct_end_labels st.catalog graph start_label_id :=
      h.start_vertex_end_labels _ (hash_find_mem _ _ _ hf)
    refine ⟨st, ?_, h, rfl⟩
    simp only [search_start_vertex_end_labels_cache, hf, hd]
  | none =>
    obtain ⟨c', hacc, hsub⟩ := accept_invalidation_sub st.cache msgs
    have hnone := hash_find_none_of_sub _ _ _ hsub.start_vertex_end_labels hf
    obtain ⟨t', het, hmem⟩ :=
      enter_data_spec c'.start_vertex_end_labels_cache_hash { graph := graph, vertex_label_id := start_label_id }
        (direct_end_labels st.catalog graph start_label_id) hnone
    have hbase : Coherent { catalog := st.catalog, cache := c' } := Coherent.of_sub h hsub
    refine ⟨{ st with cache := { c' with start_vertex_end_labels_cache_hash := t' } }, ?_, ?_, rfl⟩
    · simp only [search_start_vertex_end_labels_cache, hf, search_start_vertex_end_labels_cache_miss, hacc, end_labels_scan_direct, het]
    · exact { hbase with
        start_vertex_end_labels := fun e he => by
          rcases hmem e he with h1 | ⟨hk, hd⟩
          · exact hbase.start_vertex_end_labels e h1
          · rw [hk]; exact hd }

theorem search_end_vertex_start_labels_cache_coherent (st : AgState) (msgs : List InvalMsg) (graph : Oid)
    (end_label_id : Int) (h : Coherent st) :
    ∃ st', search_end_vertex_start_labels_cache st msgs graph end_label_id =
        Except.ok (direct_start_labels st.catalog graph end_label_id, st') ∧
      Coherent st' ∧ st'.catalog = st.catalog := by
  cases hf : hash_find st.cache.end_vertex_start_labels_cache_hash
      { graph := graph, vertex_label_id := end_label_id } with
  | some d =>
    have hd : d = direct_start_labels st.catalog graph end_label_id :=
      h.end_vertex_start_labels _ (hash_find_mem _ _ _ hf)
    refine ⟨st, ?_, h, rfl⟩
    simp only [search_end_vertex_start_labels_cache, hf, hd]
  | none =>
    obtain ⟨c', hacc, hsub⟩ := accept_invalidation_sub st.cache msgs
    have hnone := hash_find_none_of_sub _ _ _ hsub.end_vertex_start_labels hf
    obtain ⟨t', het, hmem⟩ :=
      enter_data_spec c'.end_vertex_start_labels_cache_hash { graph := graph, vertex_label_id := end_label_id }
        (direct_start_labels st.catalog graph end_label_id) hnone
    have hbase : Coherent { catalog := st.catalog, cache := c' } := Coherent.of_sub h hsub
    refine ⟨{ st with cache := { c' with end_vertex_start_labels_cache_hash := t' } }, ?_, ?_, rfl⟩
    · simp only [search_end_vertex_start_labels_cache, hf, search_end_vertex_start_labels_cache_miss, hacc, start_labels_scan_direct, het]
    · exact { hbase with
        end_vertex_start_labels := fun e he => by
          rcases hmem e he with h1 | ⟨hk, hd⟩
          · exact hbase.end_vertex_start_labels e h1
          · rw [hk]; exact hd }

/-! ## Catalog changes on a coherent state -/

theorem find_map_append_of_some {α β : Type} (p : α → Bool) (f : α → β) (l l2 : List α)
    (d : β) (h : (l.find? p).map f = some d) : ((l ++ l2).find? p).map f = some d := by
  cases hf : l.find? p with
  | none => simp [hf] at h
  | some x =>
    rw [List.find?_append, hf]
    simpa [hf] using h

theorem find_eraseP_of_some {α : Type} (p q : α → Bool) (l : List α) (x : α)
    (h : l.find? p = some x) (hq : q x = false) : (l.eraseP q).find? p = some x := by
  induction l with
  | nil => simp at h
  | cons y ys ih =>
    by_cases hqy : q y = true
    · have hpy : p y = false := by
        cases hp : p y with
        | false => rfl
        | true =>
          have : y = x := by simpa [List.find?, hp] using h
          rw [this, hq] at hqy
          exact absurd hqy (by simp)
      have hys : ys.find? p = some x := by simpa [List.find?, hpy] using h
      simpa [List.eraseP_cons, hqy] using hys
    · have hqy' : q y = false := by simpa using hqy
      rw [List.eraseP_cons, hqy']
      show (y :: ys.eraseP q).find? p = some x
      cases hp : p y with
      | true =>
        have : y = x := by simpa [List.find?, hp] using h
        simp [List.find?, hp]
        exact this
      | false =>
        have hys : ys.find? p = some x := by simpa [List.find?, hp] using h
        simpa [List.find?, hp] using ih hys

theorem find_map_fill_some (p : ag_label_row → Bool) (l : List ag_label_row)
    (d : label_cache_data) (h : (l.find? p).map fill_label_cache_data = some d) :
    ∃ x, l.find? p = some x ∧ x ∈ l ∧ p x = true ∧ fill_label_cache_data x = d ∧
      x.relation = d.relation := by
  cases hf : l.find? p with
  | none => simp [hf] at h
  | some x =>
    have hd : fill_label_cache_data x = d := by simpa [hf] using h
    refine ⟨x, rfl, List.mem_of_find?_eq_some hf, List.find?_some hf, hd, ?_⟩
    rw [← hd]
    rfl

theorem row_eq_of_relation_eq (l : List ag_label_row)
    (hu : (l.map (fun r => r.relation)).Nodup) (x y : ag_label_row) (hx : x ∈ l) (hy : y ∈ l)
    (h : x.relation = y.relation) : x = y :=
  List.inj_on_of_nodup_map hu hx hy h

theorem insert_label_coherent (st st' : AgState) (n : String) (g : Oid) (i : Int) (k : Char)
    (r : Oid) (sq : String) (h : Coherent st) (hi : insert_label st n g i k r sq = Except.ok st') :
    Coherent st' := by
  unfold insert_label at hi
  simp only at hi
  split at hi
  · exact absurd hi (by simp)
  · rename_i hv
    simp only [Except.ok.injEq] at hi
    subst hi
    have hne : ∀ x ∈ st.catalog.ag_label, x.relation ≠ r := by
      intro x hx hxr
      apply hv
      simp only [ag_label_unique_violation, List.any_eq_true]
      exact ⟨x, hx, by simp [hxr]⟩
    exact
      { relation_unique := by
          simp only [lappend, List.map_append, List.map_cons, List.map_nil]
          refine List.Nodup.append h.relation_unique (by simp) ?_
          intro a ha hb
          simp only [List.mem_singleton] at hb
          obtain ⟨x, hx, hxa⟩ := List.mem_map.1 ha
          exact hne x hx (hxa.trans hb)
        graph_name := h.graph_name
        graph_namespace := h.graph_namespace
        label_name_graph := fun e he =>
          find_map_append_of_some _ _ _ _ _ (h.label_name_graph e he)
        label_graph_oid := fun e he =>
          find_map_append_of_some _ _ _ _ _ (h.label_graph_oid e he)
        label_seq_name_graph := fun e he =>
          find_map_append_of_some _ _ _ _ _ (h.label_seq_name_graph e he)
        edge_schema := h.edge_schema
        start_vertex_end_labels := h.start_vertex_end_labels
        end_vertex_start_labels := h.end_vertex_start_labels }

theorem insert_edge_schema_entry_coherent (st : AgState) (g : Oid) (e s t : Int)
    (h : Coherent st) : Coherent (insert_edge_schema_entry st g e s t) :=
  { relation_unique := h.relation_unique
    graph_name := h.graph_name
    graph_namespace := h.graph_namespace
    label_name_graph := h.label_name_graph
    label_graph_oid := h.label_graph_oid
    label_seq_name_graph := h.label_seq_name_graph
    edge_schema := fun _ he => by
      simp [insert_edge_schema_entry, invalidate_edge_schema_caches_for_graph] at he
    start_vertex_end_labels := fun _ he => by
      simp [insert_edge_schema_entry, invalidate_edge_schema_caches_for_graph] at he
    end_vertex_start_labels := fun _ he => by
      simp [insert_edge_schema_entry, invalidate_edge_schema_caches_for_graph] at he }

/-- Coherence survives a change of the edge-schema rows that empties the three
edge-schema caches and leaves everything else. -/
theorem coherent_of_schema_flush (st st' : AgState) (h : Coherent st)
    (hg : st'.catalog.ag_graph = st.catalog.ag_graph)
    (hl : st'.catalog.ag_label = st.catalog.ag_label)
    (hc : st'.cache = invalidate_edge_schema_caches_for_graph st.cache 0) : Coherent st' := by
  obtain ⟨cat', c'⟩ := st'
  obtain ⟨G', L', S'⟩ := cat'
  simp only at hg hl hc
  subst hg hl hc
  exact
    { relation_unique := h.relation_unique
      graph_name := h.graph_name
      graph_namespace := h.graph_namespace
      label_name_graph := h.label_name_graph
      label_graph_oid := h.label_graph_oid
      label_seq_name_graph := h.label_seq_name_graph
      edge_schema := fun _ he => by simp [invalidate_edge_schema_caches_for_graph] at he
      start_vertex_end_labels := fun _ he => by
        simp [invalidate_edge_schema_caches_for_graph] at he
      end_vertex_start_labels := fun _ he => by
        simp [invalidate_edge_schema_caches_for_graph] at he }

theorem invalidation_coherent (st st' : AgState) (msg : InvalMsg) (h : Coherent st)
    (hs : step st (Op.invalidation msg) = Except.ok st') : Coherent st' := by
  obtain ⟨c', hd, hsub⟩ := deliver_inval_sub st.cache msg
  simp only [step, hd, Except.ok.injEq] at hs
  subst hs
  exact Coherent.of_sub h hsub

theorem delete_edge_schema_entries_coherent (st : AgState) (g : Oid) (e : Int)
    (h : Coherent st) : Coherent (delete_edge_schema_entries st g e) :=
  coherent_of_schema_flush st _ h rfl rfl rfl

theorem delete_edge_schema_entries_for_vertex_coherent (st : AgState) (g : Oid) (v : Int)
    (h : Coherent st) : Coherent (delete_edge_schema_entries_for_vertex st g v) :=
  coherent_of_schema_flush st _ h rfl rfl rfl

theorem delete_edge_schema_entries_for_graph_coherent (st : AgState) (g : Oid)
    (h : Coherent st) : Coherent (delete_edge_schema_entries_for_graph st g) :=
  coherent_of_schema_flush st _ h rfl rfl rfl

/-- What `invalidate_label_caches` does to each table. -/
theorem invalidate_label_caches_spec (c : AgCache) (R : Oid) :
    ∃ c', invalidate_label_caches c R = Except.ok c' ∧
      c'.graph_name_cache_hash = c.graph_name_cache_hash ∧
      c'.graph_namespace_cache_hash = c.graph_namespace_cache_hash ∧
      c'.edge_schema_cache_hash = c.edge_schema_cache_hash ∧
      c'.start_vertex_end_labels_cache_hash = c.start_vertex_end_labels_cache_hash ∧
      c'.end_vertex_start_labels_cache_hash = c.end_vertex_start_labels_cache_hash ∧
      (∀ e ∈ c'.label_name_graph_cache_hash, e ∈ c.label_name_graph_cache_hash) ∧
      (∀ e ∈ c'.label_graph_oid_cache_hash, e ∈ c.label_graph_oid_cache_hash) ∧
      (∀ e ∈ c'.label_relation_cache_hash, e ∈ c.label_relation_cache_hash) ∧
      (∀ e ∈ c'.label_seq_name_graph_cache_hash, e ∈ c.label_seq_name_graph_cache_hash) ∧
      ((∀ e ∈ c.label_name_graph_cache_hash, ∀ e' ∈ c.label_name_graph_cache_hash,
          e.2.relation = R → e'.2.relation = R → e.1 = e'.1) →
        ∀ e ∈ c'.label_name_graph_cache_hash, e.2.relation ≠ R) ∧
      ((∀ e ∈ c.label_graph_oid_cache_hash, ∀ e' ∈ c.label_graph_oid_cache_hash,
          e.2.relation = R → e'.2.relation = R → e.1 = e'.1) →
        ∀ e ∈ c'.label_graph_oid_cache_hash, e.2.relation ≠ R) ∧
      ((∀ e ∈ c.label_relation_cache_hash, e.2.relation = R → e.1 = R) →
        ∀ e ∈ c'.label_relation_cache_hash, e.2.relation ≠ R) ∧
      ((∀ e ∈ c.label_seq_name_graph_cache_hash, ∀ e' ∈ c.label_seq_name_graph_cache_hash,
          e.2.relation = R → e'.2.relation = R → e.1 = e'.1) →
        ∀ e ∈ c'.label_seq_name_graph_cache_hash, e.2.relation ≠ R) := by
  by_cases hR : OidIsValid R = true
  · obtain ⟨t1, e1, s1, k1⟩ :=
      invalidate_by_scan_spec "label (name, graph) cache corrupted"
        c.label_name_graph_cache_hash R
    obtain ⟨t2, e2, s2, k2⟩ :=
      invalidate_by_scan_spec "label (graph, id) cache corrupted"
        c.label_graph_oid_cache_hash R
    obtain ⟨t3, e3, s3, k3⟩ := invalidate_label_relation_cache_spec c.label_relation_cache_hash R
    obtain ⟨t4, e4, s4, k4⟩ :=
      invalidate_by_scan_spec "label (seq_name, graph) cache corrupted"
        c.label_seq_name_graph_cache_hash R
    refine ⟨{ c with label_name_graph_cache_hash := t1, label_graph_oid_cache_hash := t2,
                     label_relation_cache_hash := t3, label_seq_name_graph_cache_hash := t4 },
      ?_, rfl, rfl, rfl, rfl, rfl, s1, s2, s3, s4, k1, k2, k3, k4⟩
    simp only [invalidate_label_caches, hR, if_true, invalidate_label_name_graph_cache,
      invalidate_label_graph_oid_cache, invalidate_label_seq_name_graph_cache, e1, e2, e3, e4]
  · refine ⟨{ c with label_name_graph_cache_hash := [], label_graph_oid_cache_hash := [],
                     label_relation_cache_hash := [], label_seq_name_graph_cache_hash := [] },
      ?_, rfl, rfl, rfl, rfl, rfl, ?_, ?_, ?_, ?_, ?_, ?_, ?_, ?_⟩
    · simp [invalidate_label_caches, hR]
    all_goals simp

theorem name_graph_same_key (st : AgState) (h : Coherent st) (R : Oid) :
    ∀ e ∈ st.cache.label_name_graph_cache_hash, ∀ e' ∈ st.cache.label_name_graph_cache_hash,
      e.2.relation = R → e'.2.relation = R → e.1 = e'.1 := by
  intro e he e' he' hr hr'
  obtain ⟨x, -, hx, hpx, -, hxr⟩ := find_map_fill_some _ _ _ (h.label_name_graph e he)
  obtain ⟨y, -, hy, hpy, -, hyr⟩ := find_map_fill_some _ _ _ (h.label_name_graph e' he')
  have hxy : x = y :=
    row_eq_of_relation_eq _ h.relation_unique x y hx hy (by rw [hxr, hyr, hr, hr'])
  subst hxy
  simp only [decide_eq_true_eq] at hpx hpy
  obtain ⟨k, d⟩ := e
  obtain ⟨k', d'⟩ := e'
  obtain ⟨kn, kg⟩ := k
  obtain ⟨kn', kg'⟩ := k'
  simp only at hpx hpy
  simp only [label_name_graph_cache_key.mk.injEq]
  exact ⟨hpx.1.symm.trans hpy.1, hpx.2.symm.trans hpy.2⟩

theorem graph_oid_same_key (st : AgState) (h : Coherent st) (R : Oid) :
    ∀ e ∈ st.cache.label_graph_oid_cache_hash, ∀ e' ∈ st.cache.label_graph_oid_cache_hash,
      e.2.relation = R → e'.2.relation = R → e.1 = e'.1 := by
  intro e he e' he' hr hr'
  obtain ⟨x, -, hx, hpx, -, hxr⟩ := find_map_fill_some _ _ _ (h.label_graph_oid e he)
  obtain ⟨y, -, hy, hpy, -, hyr⟩ := find_map_fill_some _ _ _ (h.label_graph_oid e' he')
  have hxy : x = y :=
    row_eq_of_relation_eq _ h.relation_unique x y hx hy (by rw [hxr, hyr, hr, hr'])
  subst hxy
  simp only [decide_eq_true_eq] at hpx hpy
  obtain ⟨k, d⟩ := e
  obtain ⟨k', d'⟩ := e'
  obtain ⟨kn, kg⟩ := k
  obtain ⟨kn', kg'⟩ := k'
  simp only at hpx hpy
  simp only [label_graph_oid_cache_key.mk.injEq]
  exact ⟨hpx.1.symm.trans hpy.1, hpx.2.symm.trans hpy.2⟩

theorem seq_name_graph_same_key (st : AgState) (h : Coherent st) (R : Oid) :
    ∀ e ∈ st.cache.label_seq_name_graph_cache_hash,
      ∀ e' ∈ st.cache.label_seq_name_graph_cache_hash,
      e.2.relation = R → e'.2.relation = R → e.1 = e'.1 := by
  intro e he e' he' hr hr'
  obtain ⟨x, -, hx, hpx, -, hxr⟩ := find_map_fill_some _ _ _ (h.label_seq_name_graph e he)
  obtain ⟨y, -, hy, hpy, -, hyr⟩ := find_map_fill_some _ _ _ (h.label_seq_name_graph e' he')
  have hxy : x = y :=
    row_eq_of_relation_eq _ h.relation_unique x y hx hy (by rw [hxr, hyr, hr, hr'])
  subst hxy
  simp only [decide_eq_true_eq] at hpx hpy
  obtain ⟨k, d⟩ := e
  obtain ⟨k', d'⟩ := e'
  obtain ⟨kn, kg⟩ := k
  obtain ⟨kn', kg'⟩ := k'
  simp only at hpx hpy
  simp only [label_seq_name_graph_cache_key.mk.injEq]
  exact ⟨hpx.1.symm.trans hpy.1, hpx.2.symm.trans hpy.2⟩

/-- A cached record of another relation is still the catalog's record of its key after
the row of the relation `R` has been deleted. -/
theorem find_map_eraseP_of_ne (p : ag_label_row → Bool) (l : List ag_label_row) (R : Oid)
    (d : label_cache_data) (h : (l.find? p).map fill_label_cache_data = some d)
    (hne : d.relation ≠ R) :
    ((l.eraseP (fun r => decide (r.relation = R))).find? p).map fill_label_cache_data
      = some d := by
  obtain ⟨x, hf, -, -, hd, hxr⟩ := find_map_fill_some p l d h
  have hq : (fun r : ag_label_row => decide (r.relation = R)) x = false := by
    simp only [decide_eq_false_iff_not]
    rw [hxr]
    exact hne
  rw [find_eraseP_of_some p _ l x hf hq]
  simp [hd]

/-- What a successful `delete_label` leaves: the graph rows and the label and graph caches
as they were, the label rows without the row of the relation, and edge-schema caches
that agree with the edge-schema rows. -/
theorem delete_label_spec (st st1 : AgState) (R : Oid) (h : Coherent st)
    (hd : delete_label st R = Except.ok st1) :
    st1.catalog.ag_graph = st.catalog.ag_graph ∧
    st1.catalog.ag_label =
      st.catalog.ag_label.eraseP (fun r => decide (r.relation = R)) ∧
    st1.cache.graph_name_cache_hash = st.cache.graph_name_cache_hash ∧
    st1.cache.graph_namespace_cache_hash = st.cache.graph_namespace_cache_hash ∧
    st1.cache.label_name_graph_cache_hash = st.cache.label_name_graph_cache_hash ∧
    st1.cache.label_graph_oid_cache_hash = st.cache.label_graph_oid_cache_hash ∧
    st1.cache.label_relation_cache_hash = st.cache.label_relation_cache_hash ∧
    st1.cache.label_seq_name_graph_cache_hash = st.cache.label_seq_name_graph_cache_hash ∧
    (∀ e ∈ st1.cache.edge_schema_cache_hash,
      e.2 = direct_edge_schema st1.catalog e.1.graph e.1.edge_label_id) ∧
    (∀ e ∈ st1.cache.start_vertex_end_labels_cache_hash,
      e.2 = direct_end_labels st1.catalog e.1.graph e.1.vertex_label_id) ∧
    (∀ e ∈ st1.cache.end_vertex_start_labels_cache_hash,
      e.2 = direct_start_labels st1.catalog e.1.graph e.1.vertex_label_id) := by
  unfold delete_label at hd
  cases hf : st.catalog.ag_label.find? (fun r => decide (r.relation = R)) with
  | none => simp [hf] at hd
  | some x =>
    simp only [hf] at hd
    split at hd
    · simp only [Except.ok.injEq] at hd
      subst hd
      refine ⟨rfl, rfl, rfl, rfl, rfl, rfl, rfl, rfl, ?_, ?_, ?_⟩ <;>
        intro e he <;>
        simp [delete_edge_schema_entries, invalidate_edge_schema_caches_for_graph] at he
    · split at hd
      · simp only [Except.ok.injEq] at hd
        subst hd
        refine ⟨rfl, rfl, rfl, rfl, rfl, rfl, rfl, rfl, ?_, ?_, ?_⟩ <;>
          intro e he <;>
          simp [delete_edge_schema_entries_for_vertex,
            invalidate_edge_schema_caches_for_graph] at he
      · simp only [Except.ok.injEq] at hd
        subst hd
        exact ⟨rfl, rfl, rfl, rfl, rfl, rfl, rfl, rfl, h.edge_schema,
          h.start_vertex_end_labels, h.end_vertex_start_labels⟩

/-- Coherence survives `delete_label` of a relation followed by the relation event of
that relation. -/
theorem delete_label_invalidate_coherent (st st1 st2 : AgState) (R : Oid) (h : Coherent st)
    (hd : delete_label st R = Except.ok st1)
    (hi : step st1 (Op.invalidation (InvalMsg.relcache_event R)) = Except.ok st2) :
    Coherent st2 := by
  obtain ⟨hg, hl, c1, c2, c3, c4, c5, c6, hs1, hs2, hs3⟩ := delete_label_spec st st1 R h hd
  obtain ⟨c', hc', g1, g2, g3, g4, g5, s1, s2, s3, s4, k1, k2, k3, k4⟩ :=
    invalidate_label_caches_spec st1.cache R
  simp only [step, deliver_inval, hc', Except.ok.injEq] at hi
  subst hi
  have n1 := k1 (by rw [c3]; exact name_graph_same_key st h R)
  have n2 := k2 (by rw [c4]; exact graph_oid_same_key st h R)
  have n4 := k4 (by rw [c6]; exact seq_name_graph_same_key st h R)
  exact
    { relation_unique := by
        show (st1.catalog.ag_label.map (fun r => r.relation)).Nodup
        rw [hl]
        exact List.Nodup.sublist ((List.eraseP_sublist _).map _) h.relation_unique
      graph_name := fun e he => by
        have he' : e ∈ st.cache.graph_name_cache_hash := by
          rw [← c1, ← g1]; exact he
        have := h.graph_name e he'
        simpa [direct_graph_by_name, hg] using this
      graph_namespace := fun e he => by
        have he' : e ∈ st.cache.graph_namespace_cache_hash := by
          rw [← c2, ← g2]; exact he
        have := h.graph_namespace e he'
        simpa [direct_graph_by_namespace, hg] using this
      label_name_graph := fun e he => by
        have he' : e ∈ st.cache.label_name_graph_cache_hash := by
          rw [← c3]; exact s1 e he
        show ((st1.catalog.ag_label.find? _).map fill_label_cache_data) = some e.2
        rw [hl]
        exact find_map_eraseP_of_ne _ _ R _ (h.label_name_graph e he') (n1 e he)
      label_graph_oid := fun e he => by
        have he' : e ∈ st.cache.label_graph_oid_cache_hash := by
          rw [← c4]; exact s2 e he
        show ((st1.catalog.ag_label.find? _).map fill_label_cache_data) = some e.2
        rw [hl]
        exact find_map_eraseP_of_ne _ _ R _ (h.label_graph_oid e he') (n2 e he)
      label_seq_name_graph := fun e he => by
        have he' : e ∈ st.cache.label_seq_name_graph_cache_hash := by
          rw [← c6]; exact s4 e he
        show ((st1.catalog.ag_label.find? _).map fill_label_cache_data) = some e.2
        rw [hl]
        exact find_map_eraseP_of_ne _ _ R _ (h.label_seq_name_graph e he') (n4 e he)
      edge_schema := fun e he => hs1 e (by rw [← g3]; exact he)
      start_vertex_end_labels := fun e he => hs2 e (by rw [← g4]; exact he)
      end_vertex_start_labels := fun e he => hs3 e (by rw [← g5]; exact he) }

/-! ## Cache-store coherence -/

theorem state_after_ok {α : Type} (r : Except AgError (α × AgState)) (st' : AgState)
    (h : state_after r = Except.ok st') : ∃ a, r = Except.ok (a, st') := by
  cases r with
  | error e => simp [state_after] at h
  | ok res =>
    simp only [state_after, Except.ok.injEq] at h
    exact ⟨res.1, by rw [← h]⟩

theorem step_coherent (st st' : AgState) (op : Op) (h : Coherent st)
    (hnd : ∀ r, op ≠ Op.delete_label r) (hs : step st op = Except.ok st') : Coherent st' := by
  cases op with
  | insert_label n g i k r sq => exact insert_label_coherent st st' n g i k r sq h hs
  | delete_label r => exact absurd rfl (hnd r)
  | insert_edge_schema_entry g e s t =>
    simp only [step, Except.ok.injEq] at hs
    subst hs
    exact insert_edge_schema_entry_coherent st g e s t h
  | delete_edge_schema_entries g e =>
    simp only [step, Except.ok.injEq] at hs
    subst hs
    exact delete_edge_schema_entries_coherent st g e h
  | delete_edge_schema_entries_for_vertex g v =>
    simp only [step, Except.ok.injEq] at hs
    subst hs
    exact delete_edge_schema_entries_for_vertex_coherent st g v h
  | delete_edge_schema_entries_for_graph g =>
    simp only [step, Except.ok.injEq] at hs
    subst hs
    exact delete_edge_schema_entries_for_graph_coherent st g h
  | invalidation msg => exact invalidation_coherent st st' msg h hs
  | search_graph_name msgs name =>
    obtain ⟨a, ha⟩ := state_after_ok _ st' hs
    obtain ⟨st2, h2, hc, -⟩ := search_graph_name_cache_coherent st msgs name h
    rw [h2] at ha
    simp only [Except.ok.injEq, Prod.mk.injEq] at ha
    exact ha.2 ▸ hc
  | search_graph_namespace msgs ns =>
    obtain ⟨a, ha⟩ := state_after_ok _ st' hs
    obtain ⟨st2, h2, hc, -⟩ := search_graph_namespace_cache_coherent st msgs ns h
    rw [h2] at ha
    simp only [Except.ok.injEq, Prod.mk.injEq] at ha
    exact ha.2 ▸ hc
  | search_label_name_graph msgs name g =>
    obtain ⟨a, ha⟩ := state_after_ok _ st' hs
    obtain ⟨st2, h2, hc, -⟩ := search_label_name_graph_cache_coherent st msgs name g h
    rw [h2] at ha
    simp only [Except.ok.injEq, Prod.mk.injEq] at ha
    exact ha.2 ▸ hc
  | search_label_graph_oid msgs g id =>
    obtain ⟨a, ha⟩ := state_after_ok _ st' hs
    obtain ⟨st2, h2, hc, -⟩ := search_label_graph_oid_cache_coherent st msgs g id h
    rw [h2] at ha
    simp only [Except.ok.injEq, Prod.mk.injEq] at ha
    exact ha.2 ▸ hc
  | search_label_relation msgs r =>
    obtain ⟨a, ha⟩ := state_after_ok _ st' hs
    obtain ⟨res, st2, h2, hc, -⟩ := search_label_relation_cache_coherent st msgs r h
    rw [h2] at ha
    simp only [Except.ok.injEq, Prod.mk.injEq] at ha
    exact ha.2 ▸ hc
  | search_label_seq_name_graph msgs name g =>
    obtain ⟨a, ha⟩ := state_after_ok _ st' hs
    obtain ⟨st2, h2, hc, -⟩ := search_label_seq_name_graph_cache_coherent st msgs name g h
    rw [h2] at ha
    simp only [Except.ok.injEq, Prod.mk.injEq] at ha
    exact ha.2 ▸ hc
  | search_edge_schema msgs g e =>
    obtain ⟨a, ha⟩ := state_after_ok _ st' hs
    obtain ⟨st2, h2, hc, -⟩ := search_edge_schema_cache_coherent st msgs g e h
    rw [h2] at ha
    simp only [Except.ok.injEq, Prod.mk.injEq] at ha
    exact ha.2 ▸ hc
  | search_start_vertex_end_labels msgs g v =>
    obtain ⟨a, ha⟩ := state_after_ok _ st' hs
    obtain ⟨st2, h2, hc, -⟩ := search_start_vertex_end_labels_cache_coherent st msgs g v h
    rw [h2] at ha
    simp only [Except.ok.injEq, Prod.mk.injEq] at ha
    exact ha.2 ▸ hc
  | search_end_vertex_start_labels msgs g v =>
    obtain ⟨a, ha⟩ := state_after_ok _ st' hs
    obtain ⟨st2, h2, hc, -⟩ := search_end_vertex_start_labels_cache_coherent st msgs g v h
    rw [h2] at ha
    simp only [Except.ok.injEq, Prod.mk.injEq] at ha
    exact ha.2 ▸ hc

theorem run_cons_ok (st st' : AgState) (op : Op) (rest : List Op)
    (h : run st (op :: rest) = Except.ok st') :
    ∃ st1, step st op = Except.ok st1 ∧ run st1 rest = Except.ok st' := by
  unfold run at h
  cases hs : step st op with
  | error e => simp [hs] at h
  | ok st1 => exact ⟨st1, rfl, by simpa [hs] using h⟩

theorem disciplined_after_delete (r : Oid) (rest : List Op)
    (h : disciplined (Op.delete_label r :: rest) = true) :
    ∃ rest', rest = Op.invalidation (InvalMsg.relcache_event r) :: rest' ∧
      disciplined rest' = true := by
  cases rest with
  | nil => simp [disciplined] at h
  | cons op2 rest' =>
    cases op2 with
    | invalidation msg =>
      cases msg with
      | namespace_event hv => simp [disciplined] at h
      | relcache_event r' =>
        simp only [disciplined, Bool.and_eq_true, decide_eq_true_eq] at h
        exact ⟨rest', by rw [h.1], h.2⟩
    | _ => simp [disciplined] at h

theorem disciplined_tail (op : Op) (rest : List Op) (hnd : ∀ r, op ≠ Op.delete_label r)
    (h : disciplined (op :: rest) = true) : disciplined rest = true := by
  cases op with
  | delete_label r => exact absurd rfl (hnd r)
  | _ => simpa [disciplined] using h

theorem run_coherent (n : Nat) : ∀ (ops : List Op) (st0 st : AgState), ops.length ≤ n →
    Coherent st0 → disciplined ops = true → run st0 ops = Except.ok st → Coherent st := by
  induction n using Nat.strong_induction_on with
  | _ n ih =>
    intro ops st0 st hlen h hd hr
    cases ops with
    | nil =>
      simp only [run, Except.ok.injEq] at hr
      exact hr ▸ h
    | cons op rest =>
      obtain ⟨st1, hs1, hr1⟩ := run_cons_ok st0 st op rest hr
      by_cases hdel : ∃ r, op = Op.delete_label r
      · obtain ⟨r, hop⟩ := hdel
        subst hop
        obtain ⟨rest', hrest, hd'⟩ := disciplined_after_delete r rest hd
        subst hrest
        obtain ⟨st2, hs2, hr2⟩ := run_cons_ok st1 st _ rest' hr1
        have hc2 := delete_label_invalidate_coherent st0 st1 st2 r h hs1 hs2
        simp only [List.length_cons] at hlen
        exact ih (n - 2) (by omega) rest' st2 st (by omega) hc2 hd' hr2
      · have hnd : ∀ r, op ≠ Op.delete_label r := fun r hr => hdel ⟨r, hr⟩
        have hc1 := step_coherent st0 st1 op h hnd hs1
        simp only [List.length_cons] at hlen
        exact ih (n - 1) (by omega) rest st1 st (by omega) hc1
          (disciplined_tail op rest hnd hd) hr1

theorem coherent_of_empty_cache (st0 : AgState) (hcache : st0.cache = AgCache.empty)
    (huniq : (st0.catalog.ag_label.map (fun r => r.relation)).Nodup) : Coherent st0 := by
  obtain ⟨cat, c⟩ := st0
  simp only at hcache
  subst hcache
  exact
    { relation_unique := huniq
      graph_name := fun _ he => by simp [AgCache.empty] at he
      graph_namespace := fun _ he => by simp [AgCache.empty] at he
      label_name_graph := fun _ he => by simp [AgCache.empty] at he
      label_graph_oid := fun _ he => by simp [AgCache.empty] at he
      label_seq_name_graph := fun _ he => by simp [AgCache.empty] at he
      edge_schema := fun _ he => by simp [AgCache.empty] at he
      start_vertex_end_labels := fun _ he => by simp [AgCache.empty] at he
      end_vertex_start_labels := fun _ he => by simp [AgCache.empty] at he }

/-- C6 (counterexample). The label `Person` is inserted, looked up by its name (which
caches it) and deleted, and no relation event is delivered.  The sequence succeeds;
afterwards the lookup by name still returns the cached record, while the catalog holds
no record of that name. -/
theorem cache_stale_after_delete_label :
    run ex_state_empty ex_ops_stale = Except.ok ex_state_stale ∧
    search_label_name_graph_cache ex_state_stale [] "Person" 1 =
      Except.ok (some (ex_label_data "Person"), ex_state_stale) ∧
    direct_label_by_name_graph ex_state_stale.catalog (namestrcpy "Person") 1 = none :=
  ⟨by rfl, by rfl, by rfl⟩

/-- C6 (amended). Start from empty caches and label rows with distinct relations, and
run any sequence of catalog changes (`insert_label`, `delete_label`,
`insert_edge_schema_entry`, the three edge-schema delete sweeps), invalidation messages
and lookups in which every `delete_label` of a relation is followed at once by the
relation event of that relation.  If the sequence succeeds, then in the state it leaves
each of the eight lookups other than the lookup by relation succeeds, whatever messages
are pending, and returns what the direct query of the catalog rows returns for the key;
the lookup by relation succeeds as well, and returns what the direct query returns for
every relation under which its cache holds no entry. -/
theorem cache_store_coherence (st0 : AgState) (ops : List Op) (st : AgState)
    (msgs : List InvalMsg) (name : String) (namespace_oid graph relation : Oid) (id : Int)
    (hcache : st0.cache = AgCache.empty)
    (huniq : (st0.catalog.ag_label.map (fun r => r.relation)).Nodup)
    (hdisc : disciplined ops = true)
    (hrun : run st0 ops = Except.ok st) :
    (∃ st', search_graph_name_cache st msgs name =
      Except.ok (direct_graph_by_name st.catalog (namestrcpy name), st')) ∧
    (∃ st', search_graph_namespace_cache st msgs namespace_oid =
      Except.ok (direct_graph_by_namespace st.catalog namespace_oid, st')) ∧
    (∃ st', search_label_name_graph_cache st msgs name graph =
      Except.ok (direct_label_by_name_graph st.catalog (namestrcpy name) graph, st')) ∧
    (∃ st', search_label_graph_oid_cache st msgs graph id =
      Except.ok (direct_label_by_graph_oid st.catalog graph id, st')) ∧
    (∃ res st', search_label_relation_cache st msgs relation = Except.ok (res, st') ∧
      (hash_find st.cache.label_relation_cache_hash relation = none →
        res = direct_label_by_relation st.catalog relation)) ∧
    (∃ st', search_label_seq_name_graph_cache st msgs name graph =
      Except.ok (direct_label_by_seq_name_graph st.catalog (namestrcpy name) graph, st')) ∧
    (∃ st', search_edge_schema_cache st msgs graph id =
      Except.ok (direct_edge_schema st.catalog graph id, st')) ∧
    (∃ st', search_start_vertex_end_labels_cache st msgs graph id =
      Except.ok (direct_end_labels st.catalog graph id, st')) ∧
    (∃ st', search_end_vertex_start_labels_cache st msgs graph id =
      Except.ok (direct_start_labels st.catalog graph id, st')) := by
  have h : Coherent st :=
    run_coherent ops.length ops st0 st le_rfl (coherent_of_empty_cache st0 hcache huniq)
      hdisc hrun
  refine ⟨?_, ?_, ?_, ?_, ?_, ?_, ?_, ?_, ?_⟩
  · obtain ⟨st', h1, -⟩ := search_graph_name_cache_coherent st msgs name h
    exact ⟨st', h1⟩
  · obtain ⟨st', h1, -⟩ := search_graph_namespace_cache_coherent st msgs namespace_oid h
    exact ⟨st', h1⟩
  · obtain ⟨st', h1, -⟩ := search_label_name_graph_cache_coherent st msgs name graph h
    exact ⟨st', h1⟩
  · obtain ⟨st', h1, -⟩ := search_label_graph_oid_cache_coherent st msgs graph id h
    exact ⟨st', h1⟩
  · obtain ⟨res, st', h1, -, -, h2⟩ := search_label_relation_cache_coherent st msgs relation h
    exact ⟨res, st', h1, h2⟩
  · obtain ⟨st', h1, -⟩ := search_label_seq_name_graph_cache_coherent st msgs name graph h
    exact ⟨st', h1⟩
  · obtain ⟨st', h1, -⟩ := search_edge_schema_cache_coherent st msgs graph id h
    exact ⟨st', h1⟩
  · obtain ⟨st', h1, -⟩ := search_start_vertex_end_labels_cache_coherent st msgs graph id h
    exact ⟨st', h1⟩
  · obtain ⟨st', h1, -⟩ := search_end_vertex_start_labels_cache_coherent st msgs graph id h
    exact ⟨st', h1⟩

/-- Witness of C6 (amended) on the sequence `ex_ops_disciplined`, with the relation event
of 16400 pending at the final lookups. -/
theorem cache_store_coherence_witness :
    (ex_state_empty.cache = AgCache.empty ∧
      (ex_state_empty.catalog.ag_label.map (fun r => r.relation)).Nodup ∧
      disciplined ex_ops_disciplined = true ∧
      run ex_state_empty ex_ops_disciplined = Except.ok ex_state_disciplined) ∧
    ((∃ st', search_graph_name_cache ex_state_disciplined [InvalMsg.relcache_event 16400]
        "g" = Except.ok (direct_graph_by_name ex_state_disciplined.catalog (namestrcpy "g"),
          st')) ∧
    (∃ st', search_graph_namespace_cache ex_state_disciplined [InvalMsg.relcache_event 16400]
        2200 = Except.ok (direct_graph_by_namespace ex_state_disciplined.catalog 2200, st')) ∧
    (∃ st', search_label_name_graph_cache ex_state_disciplined
        [InvalMsg.relcache_event 16400] "g" 1 =
      Except.ok (direct_label_by_name_graph ex_state_disciplined.catalog (namestrcpy "g") 1,
        st')) ∧
    (∃ st', search_label_graph_oid_cache ex_state_disciplined
        [InvalMsg.relcache_event 16400] 1 7 =
      Except.ok (direct_label_by_graph_oid ex_state_disciplined.catalog 1 7, st')) ∧
    (∃ res st', search_label_relation_cache ex_state_disciplined
        [InvalMsg.relcache_event 16400] 16400 = Except.ok (res, st') ∧
      (hash_find ex_state_disciplined.cache.label_relation_cache_hash 16400 = none →
        res = direct_label_by_relation ex_state_disciplined.catalog 16400)) ∧
    (∃ st', search_label_seq_name_graph_cache ex_state_disciplined
        [InvalMsg.relcache_event 16400] "g" 1 =
      Except.ok (direct_label_by_seq_name_graph ex_state_disciplined.catalog (namestrcpy "g")
        1, st')) ∧
    (∃ st', search_edge_schema_cache ex_state_disciplined [InvalMsg.relcache_event 16400] 1 7 =
      Except.ok (direct_edge_schema ex_state_disciplined.catalog 1 7, st')) ∧
    (∃ st', search_start_vertex_end_labels_cache ex_state_disciplined
        [InvalMsg.relcache_event 16400] 1 7 =
      Except.ok (direct_end_labels ex_state_disciplined.catalog 1 7, st')) ∧
    (∃ st', search_end_vertex_start_labels_cache ex_state_disciplined
        [InvalMsg.relcache_event 16400] 1 7 =
      Except.ok (direct_start_labels ex_state_disciplined.catalog 1 7, st'))) :=
  ⟨⟨rfl, by decide, by decide, by rfl⟩,
    cache_store_coherence ex_state_empty ex_ops_disciplined ex_state_disciplined
      [InvalMsg.relcache_event 16400] "g" 2200 1 16400 7 rfl (by decide) (by decide) (by rfl)⟩

/-- Witness of C8: the edge-schema cache holds the schema of edge label 7 of graph 1, and
`delete_edge_schema_entries` for that graph and label leaves the three caches empty. -/
theorem schema_caches_flushed_on_write_witness :
    (delete_edge_schema_entries ex_state_disciplined 1 7 =
        insert_edge_schema_entry ex_state_disciplined 1 7 0 0 ∨
      delete_edge_schema_entries ex_state_disciplined 1 7 =
        delete_edge_schema_entries ex_state_disciplined 1 7 ∨
      delete_edge_schema_entries ex_state_disciplined 1 7 =
        delete_edge_schema_entries_for_vertex ex_state_disciplined 1 0 ∨
      delete_edge_schema_entries ex_state_disciplined 1 7 =
        delete_edge_schema_entries_for_graph ex_state_disciplined 1) ∧
    ex_state_disciplined.cache.edge_schema_cache_hash ≠ [] ∧
    ((delete_edge_schema_entries ex_state_disciplined 1 7).cache.edge_schema_cache_hash = [] ∧
    (delete_edge_schema_entries ex_state_disciplined 1 7).cache.start_vertex_end_labels_cache_hash
      = [] ∧
    (delete_edge_schema_entries ex_state_disciplined 1 7).cache.end_vertex_start_labels_cache_hash
      = [] ∧
    (∀ msgs g k, search_edge_schema_cache (delete_edge_schema_entries ex_state_disciplined 1 7)
        msgs g k =
      search_edge_schema_cache_miss (delete_edge_schema_entries ex_state_disciplined 1 7)
        msgs g k) ∧
    (∀ msgs g k, search_start_vertex_end_labels_cache
        (delete_edge_schema_entries ex_state_disciplined 1 7) msgs g k =
      search_start_vertex_end_labels_cache_miss
        (delete_edge_schema_entries ex_state_disciplined 1 7) msgs g k) ∧
    (∀ msgs g k, search_end_vertex_start_labels_cache
        (delete_edge_schema_entries ex_state_disciplined 1 7) msgs g k =
      search_end_vertex_start_labels_cache_miss
        (delete_edge_schema_entries ex_state_disciplined 1 7) msgs g k)) :=
  ⟨Or.inr (Or.inl rfl), by decide,
    schema_caches_flushed_on_write ex_state_disciplined 1 7 0 0 0
      (delete_edge_schema_entries ex_state_disciplined 1 7) (Or.inr (Or.inl rfl))⟩

/-! ## The inference context: entries and their lists -/

/-- C11 (counterexample). The name `n` is registered with the empty list in one context
and never registered in the other; the existence check tells the two apart, while
`graph_opt_get_inferred_labels` returns the same empty list (`NIL`) in both. -/
theorem get_inferred_labels_same_for_empty_and_absent :
    graph_opt_has_inferred_entry (ex_ctx []) (some "n") = true ∧
    graph_opt_has_inferred_entry GraphOptState.initial (some "n") = false ∧
    graph_opt_get_inferred_labels (ex_ctx []) (some "n") = [] ∧
    graph_opt_get_inferred_labels GraphOptState.initial (some "n") = [] ∧
    graph_opt_get_inferred_labels (ex_ctx []) (some "n") =
      graph_opt_get_inferred_labels GraphOptState.initial (some "n") := by
  decide

/-- C11 (amended). For every context state and every variable name,
`graph_opt_get_inferred_labels` returns the entry's list when an entry exists and the
empty list (`NIL`) when none exists, so that a present entry with an empty list and an
absent entry give the same result; the two cases are told apart by
`graph_opt_has_inferred_entry`, which is true exactly when an entry exists. -/
theorem get_inferred_labels_spec (st : GraphOptState) (v : String) :
    (∀ entry, find_inferred_entry st (some v) = some entry →
      graph_opt_get_inferred_labels st (some v) = entry.child_relids ∧
      graph_opt_has_inferred_entry st (some v) = true) ∧
    (find_inferred_entry st (some v) = none →
      graph_opt_get_inferred_labels st (some v) = [] ∧
      graph_opt_has_inferred_entry st (some v) = false) ∧
    (graph_opt_has_inferred_entry st (some v) = true ↔
      ∃ e ∈ st.inferred_label_entries, e.var_name = some v) ∧
    graph_opt_get_inferred_labels st none = [] ∧
    graph_opt_has_inferred_entry st none = false := by
  refine ⟨?_, ?_, ?_, rfl, rfl⟩
  · intro entry h
    simp [graph_opt_get_inferred_labels, graph_opt_has_inferred_entry, h]
  · intro h
    simp [graph_opt_get_inferred_labels, graph_opt_has_inferred_entry, h]
  · cases hf : find_inferred_entry st (some v) with
    | none =>
      have hno := (find_loop_eq_none_iff v st.inferred_label_entries).1 hf
      simp only [graph_opt_has_inferred_entry, hf, Option.isSome_none, Bool.false_eq_true,
        false_iff, not_exists, not_and]
      exact fun e he => hno e he
    | some entry =>
      simp only [graph_opt_has_inferred_entry, hf, Option.isSome_some, true_iff]
      by_contra hc
      have hno : ∀ e ∈ st.inferred_label_entries, e.var_name ≠ some v := by
        intro e he hv
        exact hc ⟨e, he, hv⟩
      have := (find_loop_eq_none_iff v st.inferred_label_entries).2 hno
      simp only [find_inferred_entry] at hf
      rw [this] at hf
      exact absurd hf (by simp)

/-- Witness of C11 (amended): the name `n` registered with the list `[5, 6]`. -/
theorem get_inferred_labels_spec_witness :
    (∀ entry, find_inferred_entry (ex_ctx [5, 6]) (some "n") = some entry →
      graph_opt_get_inferred_labels (ex_ctx [5, 6]) (some "n") = entry.child_relids ∧
      graph_opt_has_inferred_entry (ex_ctx [5, 6]) (some "n") = true) ∧
    (find_inferred_entry (ex_ctx [5, 6]) (some "n") = none →
      graph_opt_get_inferred_labels (ex_ctx [5, 6]) (some "n") = [] ∧
      graph_opt_has_inferred_entry (ex_ctx [5, 6]) (some "n") = false) ∧
    (graph_opt_has_inferred_entry (ex_ctx [5, 6]) (some "n") = true ↔
      ∃ e ∈ (ex_ctx [5, 6]).inferred_label_entries, e.var_name = some "n") ∧
    graph_opt_get_inferred_labels (ex_ctx [5, 6]) none = [] ∧
    graph_opt_has_inferred_entry (ex_ctx [5, 6]) none = false :=
  get_inferred_labels_spec (ex_ctx [5, 6]) "n"

theorem update_found_entry_names (v : String) (B : List Oid) (l : List InferredLabelEntry) :
    (update_found_entry v B l).map (fun e => e.var_name) = l.map (fun e => e.var_name) := by
  induction l with
  | nil => rfl
  | cons e es ih =>
    unfold update_found_entry
    cases hm : entry_matches v e with
    | true => simp
    | false => simp [ih]

theorem find_loop_update_found (v : String) (B : List Oid) (l : List InferredLabelEntry)
    (e : InferredLabelEntry) (h : find_inferred_entry_loop v l = some e) :
    find_inferred_entry_loop v (update_found_entry v B l) =
      some { e with child_relids := intersect_loop B [] e.child_relids } := by
  induction l with
  | nil => simp [find_inferred_entry_loop] at h
  | cons x xs ih =>
    unfold find_inferred_entry_loop at h
    unfold update_found_entry
    cases hm : entry_matches v x with
    | true =>
      simp only [hm, if_true, Option.some.injEq] at h
      subst h
      have hm' : entry_matches v
          { x with child_relids := intersect_loop B [] x.child_relids } = true := hm
      simp only [if_true, find_inferred_entry_loop, hm']
    | false =>
      simp only [hm, Bool.false_eq_true, if_false] at h
      simp only [Bool.false_eq_true, if_false, find_inferred_entry_loop, hm]
      exact ih h

/-- The memory context exists whenever the entry list is not empty. -/
theorem graph_opt_call_context (st : GraphOptState) (call : GraphOptCall)
    (h : st.inferred_label_entries ≠ [] → st.graph_opt_context = true) :
    (graph_opt_call st call).inferred_label_entries ≠ [] →
      (graph_opt_call st call).graph_opt_context = true := by
  cases call with
  | init => intro _; rfl
  | cleanup =>
    simp only [graph_opt_call, graph_opt_context_cleanup]
    split
    · intro hne; exact absurd rfl hne
    · exact h
  | add var_name ids =>
    simp only [graph_opt_call, graph_opt_add_inferred_labels]
    cases var_name with
    | none => exact h
    | some v =>
      simp only
      by_cases hv : v = ""
      · simp only [hv, if_true]; exact h
      · simp only [hv, if_false]
        by_cases hc : st.graph_opt_context = true
        · simp only [hc, if_true]
          split <;> intro _ <;> rfl
        · simp only [hc, if_false]
          split <;> intro _ <;> rfl

theorem graph_opt_calls_context (calls : List GraphOptCall) (st : GraphOptState)
    (h : st.inferred_label_entries ≠ [] → st.graph_opt_context = true) :
    (graph_opt_calls st calls).inferred_label_entries ≠ [] →
      (graph_opt_calls st calls).graph_opt_context = true := by
  induction calls generalizing st with
  | nil => exact h
  | cons c cs ih => exact ih (graph_opt_call st c) (graph_opt_call_context st c h)

/-- C12. Contradiction is sticky: in every state that calls of the interface reach from
the backend's initial state, if the entry of `v` is present with an empty list, then
after `graph_opt_add_inferred_labels(v, C)`, for any list `C`, the entry of `v` is still
present and its list is still empty. -/
theorem contradiction_is_sticky (calls : List GraphOptCall) (v : String) (C : List Oid)
    (hhas : graph_opt_has_inferred_entry (graph_opt_calls GraphOptState.initial calls)
      (some v) = true)
    (hempty : graph_opt_get_inferred_labels (graph_opt_calls GraphOptState.initial calls)
      (some v) = []) :
    graph_opt_has_inferred_entry
        (graph_opt_add_inferred_labels (graph_opt_calls GraphOptState.initial calls) (some v) C)
        (some v) = true ∧
    graph_opt_get_inferred_labels
        (graph_opt_add_inferred_labels (graph_opt_calls GraphOptState.initial calls) (some v) C)
        (some v) = [] := by
  have hinv := graph_opt_calls_context calls GraphOptState.initial
    (fun hne => absurd rfl hne)
  generalize graph_opt_calls GraphOptState.initial calls = st at hhas hempty hinv
  by_cases hv : v = ""
  · simp only [graph_opt_add_inferred_labels, hv, if_true]
    exact ⟨hv ▸ hhas, hv ▸ hempty⟩
  · cases hf : find_inferred_entry_loop v st.inferred_label_entries with
    | none => simp [graph_opt_has_inferred_entry, find_inferred_entry, hf] at hhas
    | some entry =>
      have hne : st.inferred_label_entries ≠ [] := by
        intro hnil
        rw [hnil] at hf
        simp [find_inferred_entry_loop] at hf
      have hc : st.graph_opt_context = true := hinv hne
      have hrel : entry.child_relids = [] := by
        simpa [graph_opt_get_inferred_labels, find_inferred_entry, hf] using hempty
      have hupd := find_loop_update_found v C st.inferred_label_entries entry hf
      simp only [graph_opt_add_inferred_labels, hv, if_false, hc, if_true,
        find_inferred_entry, hf, graph_opt_has_inferred_entry, graph_opt_get_inferred_labels,
        hupd, Option.isSome_some, true_and]
      simp [hrel, intersect_loop]

/-- Witness of C12: `n` is registered with `[5]` and then with `[6]`, which leaves its
entry present and empty; a further registration with `[5, 6]` changes nothing. -/
theorem contradiction_is_sticky_witness :
    (graph_opt_has_inferred_entry
        (graph_opt_calls GraphOptState.initial
          [GraphOptCall.init, GraphOptCall.add (some "n") [5], GraphOptCall.add (some "n") [6]])
        (some "n") = true ∧
      graph_opt_get_inferred_labels
        (graph_opt_calls GraphOptState.initial
          [GraphOptCall.init, GraphOptCall.add (some "n") [5], GraphOptCall.add (some "n") [6]])
        (some "n") = []) ∧
    (graph_opt_has_inferred_entry
        (graph_opt_add_inferred_labels
          (graph_opt_calls GraphOptState.initial
            [GraphOptCall.init, GraphOptCall.add (some "n") [5],
              GraphOptCall.add (some "n") [6]])
          (some "n") [5, 6])
        (some "n") = true ∧
      graph_opt_get_inferred_labels
        (graph_opt_add_inferred_labels
          (graph_opt_calls GraphOptState.initial
            [GraphOptCall.init, GraphOptCall.add (some "n") [5],
              GraphOptCall.add (some "n") [6]])
          (some "n") [5, 6])
        (some "n") = []) :=
  ⟨⟨by decide, by decide⟩,
    contradiction_is_sticky
      [GraphOptCall.init, GraphOptCall.add (some "n") [5], GraphOptCall.add (some "n") [6]]
      "n" [5, 6] (by decide) (by decide)⟩

theorem graph_opt_add_names (st : GraphOptState) (v : String) (ids : List Oid)
    (hc : st.graph_opt_context = true)
    (hhas : graph_opt_has_inferred_entry st (some v) = true) :
    (graph_opt_add_inferred_labels st (some v) ids).inferred_label_entries.map
        (fun e => e.var_name) =
      st.inferred_label_entries.map (fun e => e.var_name) := by
  by_cases hv : v = ""
  · simp [graph_opt_add_inferred_labels, hv]
  · cases hf : find_inferred_entry st (some v) with
    | none => simp [graph_opt_has_inferred_entry, hf] at hhas
    | some entry =>
      simp only [graph_opt_add_inferred_labels, hv, if_false, hc, if_true, hf]
      exact update_found_entry_names v ids st.inferred_label_entries

theorem graph_opt_add_nodup (st : GraphOptState) (v : String) (ids : List Oid)
    (hv : v ≠ "") (hc : st.graph_opt_context = true)
    (h : (st.inferred_label_entries.map (fun e => e.var_name)).Nodup) :
    ((graph_opt_add_inferred_labels st (some v) ids).inferred_label_entries.map
      (fun e => e.var_name)).Nodup := by
  cases hf : find_inferred_entry st (some v) with
  | some entry =>
    simp only [graph_opt_add_inferred_labels, hv, if_false, hc, if_true, hf]
    rw [update_found_entry_names]
    exact h
  | none =>
    have hno := (find_loop_eq_none_iff v st.inferred_label_entries).1 hf
    simp only [graph_opt_add_inferred_labels, hv, if_false, hc, if_true, hf, lappend,
      List.map_append, List.map_cons, List.map_nil]
    refine List.Nodup.append h (by simp) ?_
    intro a ha hb
    simp only [List.mem_singleton] at hb
    obtain ⟨e, he, hea⟩ := List.mem_map.1 ha
    exact hno e he (hea.trans hb)

theorem graph_opt_add_without_context (st : GraphOptState) (v : String) (ids : List Oid)
    (hv : v ≠ "") (hc : st.graph_opt_context = false) :
    graph_opt_add_inferred_labels st (some v) ids =
      graph_opt_add_inferred_labels (graph_opt_context_init st) (some v) ids := by
  simp [graph_opt_add_inferred_labels, hv, hc, graph_opt_context_init]

theorem graph_opt_call_nodup (st : GraphOptState) (call : GraphOptCall)
    (h : (st.inferred_label_entries.map (fun e => e.var_name)).Nodup) :
    ((graph_opt_call st call).inferred_label_entries.map (fun e => e.var_name)).Nodup := by
  cases call with
  | init => simp [graph_opt_call, graph_opt_context_init]
  | cleanup =>
    simp only [graph_opt_call, graph_opt_context_cleanup]
    split
    · simp
    · exact h
  | add var_name ids =>
    simp only [graph_opt_call]
    cases var_name with
    | none => exact h
    | some v =>
      by_cases hv : v = ""
      · simp only [graph_opt_add_inferred_labels, hv, if_true]; exact h
      · cases hc : st.graph_opt_context with
        | true => exact graph_opt_add_nodup st v ids hv hc h
        | false =>
          rw [graph_opt_add_without_context st v ids hv hc]
          exact graph_opt_add_nodup (graph_opt_context_init st) v ids hv rfl
            (by simp [graph_opt_context_init])

theorem graph_opt_calls_nodup (calls : List GraphOptCall) (st : GraphOptState)
    (h : (st.inferred_label_entries.map (fun e => e.var_name)).Nodup) :
    ((graph_opt_calls st calls).inferred_label_entries.map (fun e => e.var_name)).Nodup := by
  induction calls generalizing st with
  | nil => exact h
  | cons c cs ih => exact ih (graph_opt_call st c) (graph_opt_call_nodup st c h)

/-- C20. In every state reached from `graph_opt_context_init` by a sequence of calls (of
`graph_opt_add_inferred_labels`, and of `graph_opt_context_init` and
`graph_opt_context_cleanup` as well), no two entries of the list have the same variable
name; and a registration for a name that has an entry leaves the list of names as it
is, so that it updates the existing entry and appends none. -/
theorem one_entry_per_variable (st0 : GraphOptState) (calls : List GraphOptCall) (v : String)
    (ids : List Oid) :
    ((graph_opt_calls (graph_opt_context_init st0) calls).inferred_label_entries.map
      (fun e => e.var_name)).Nodup ∧
    (graph_opt_has_inferred_entry (graph_opt_calls (graph_opt_context_init st0) calls)
        (some v) = true →
      (graph_opt_add_inferred_labels (graph_opt_calls (graph_opt_context_init st0) calls)
          (some v) ids).inferred_label_entries.map (fun e => e.var_name) =
        (graph_opt_calls (graph_opt_context_init st0) calls).inferred_label_entries.map
          (fun e => e.var_name)) := by
  refine ⟨graph_opt_calls_nodup calls _ (by simp [graph_opt_context_init]), ?_⟩
  intro hhas
  have hinv := graph_opt_calls_context calls (graph_opt_context_init st0) (fun _ => rfl)
  generalize graph_opt_calls (graph_opt_context_init st0) calls = st at hhas hinv
  have hne : st.inferred_label_entries ≠ [] := by
    intro hnil
    simp [graph_opt_has_inferred_entry, find_inferred_entry, hnil,
      find_inferred_entry_loop] at hhas
  exact graph_opt_add_names st v ids (hinv hne) hhas

/-- Witness of C20: `n` is registered twice and `m` once; the list holds the names `n`
and `m` once each, and a third registration for `n` keeps the names. -/
theorem one_entry_per_variable_witness :
    (graph_opt_calls (graph_opt_context_init GraphOptState.initial)
        [GraphOptCall.add (some "n") [5, 6], GraphOptCall.add (some "m") [7],
          GraphOptCall.add (some "n") [6]]).inferred_label_entries.map (fun e => e.var_name)
      = [some "n", some "m"] ∧
    ((graph_opt_calls (graph_opt_context_init GraphOptState.initial)
        [GraphOptCall.add (some "n") [5, 6], GraphOptCall.add (some "m") [7],
          GraphOptCall.add (some "n") [6]]).inferred_label_entries.map
      (fun e => e.var_name)).Nodup ∧
    (graph_opt_has_inferred_entry
        (graph_opt_calls (graph_opt_context_init GraphOptState.initial)
          [GraphOptCall.add (some "n") [5, 6], GraphOptCall.add (some "m") [7],
            GraphOptCall.add (some "n") [6]]) (some "n") = true →
      (graph_opt_add_inferred_labels
          (graph_opt_calls (graph_opt_context_init GraphOptState.initial)
            [GraphOptCall.add (some "n") [5, 6], GraphOptCall.add (some "m") [7],
              GraphOptCall.add (some "n") [6]])
          (some "n") [8]).inferred_label_entries.map (fun e => e.var_name) =
        (graph_opt_calls (graph_opt_context_init GraphOptState.initial)
          [GraphOptCall.add (some "n") [5, 6], GraphOptCall.add (some "m") [7],
            GraphOptCall.add (some "n") [6]]).inferred_label_entries.map
          (fun e => e.var_name)) :=
  ⟨by decide,
    one_entry_per_variable GraphOptState.initial
      [GraphOptCall.add (some "n") [5, 6], GraphOptCall.add (some "m") [7],
        GraphOptCall.add (some "n") [6]] "n" [8]⟩

/-! ## The edge-schema caches agree with the rows in every reachable state -/

theorem append_unique_loop_eq (acc l : List Int) :
    append_unique_loop acc l =
      l.foldl (fun a x => if list_member_int a x = false then lappend a x else a) acc := by
  induction l generalizing acc with
  | nil => rfl
  | cons x xs ih =>
    unfold append_unique_loop
    cases hm : list_member_int acc x <;> simp [hm, ih]

theorem append_unique_loop_nil (l : List Int) : append_unique_loop [] l = dedup_first l := by
  rw [append_unique_loop_eq, dedup_append_spec]
  simp

theorem copy_loop_eq (acc l : List Int) : copy_loop acc l = acc ++ l := by
  induction l generalizing acc with
  | nil => simp [copy_loop]
  | cons x xs ih => simp [copy_loop, ih, lappend]

theorem mem_dedup_first (l : List Int) (y : Int) : y ∈ dedup_first l ↔ y ∈ l := by
  induction l with
  | nil => simp [dedup_first]
  | cons x xs ih =>
    simp only [dedup_first, List.mem_cons, List.mem_filter, ih, decide_eq_true_eq]
    constructor
    · rintro (h | ⟨h, -⟩)
      · exact Or.inl h
      · exact Or.inr h
    · rintro (h | h)
      · exact Or.inl h
      · by_cases hy : y = x
        · exact Or.inl hy
        · exact Or.inr ⟨h, hy⟩

theorem nodup_dedup_first (l : List Int) : (dedup_first l).Nodup := by
  induction l with
  | nil => simp [dedup_first]
  | cons x xs ih =>
    simp only [dedup_first, List.nodup_cons, List.mem_filter, decide_eq_true_eq, ne_eq,
      not_true_eq_false, and_false, not_false_eq_true, true_and]
    exact ih.filter _

theorem schema_coherent_of_sub {cat : Catalog} {c c' : AgCache}
    (h : SchemaCoherent { catalog := cat, cache := c }) (hs : CacheSub c' c) :
    SchemaCoherent { catalog := cat, cache := c' } :=
  { edge_schema := fun e he => h.edge_schema e (hs.edge_schema e he)
    start_vertex_end_labels := fun e he =>
      h.start_vertex_end_labels e (hs.start_vertex_end_labels e he)
    end_vertex_start_labels := fun e he =>
      h.end_vertex_start_labels e (hs.end_vertex_start_labels e he) }

theorem Coherent.schema {st : AgState} (h : Coherent st) : SchemaCoherent st :=
  ⟨h.edge_schema, h.start_vertex_end_labels, h.end_vertex_start_labels⟩

theorem search_edge_schema_cache_schema (st : AgState) (msgs : List InvalMsg) (graph : Oid)
    (edge_label_id : Int) (h : SchemaCoherent st) :
    ∃ st', search_edge_schema_cache st msgs graph edge_label_id =
        Except.ok (direct_edge_schema st.catalog graph edge_label_id, st') ∧
      SchemaCoherent st' ∧ st'.catalog = st.catalog := by
  cases hf : hash_find st.cache.edge_schema_cache_hash
      { graph := graph, edge_label_id := edge_label_id } with
  | some d =>
    have hd : d = direct_edge_schema st.catalog graph edge_label_id :=
      h.edge_schema _ (hash_find_mem _ _ _ hf)
    refine ⟨st, ?_, h, rfl⟩
    simp only [search_edge_schema_cache, hf, hd]
  | none =>
    obtain ⟨c', hacc, hsub⟩ := accept_invalidation_sub st.cache msgs
    have hnone := hash_find_none_of_sub _ _ _ hsub.edge_schema hf
    obtain ⟨t', het, hmem⟩ :=
      enter_data_spec c'.edge_schema_cache_hash { graph := graph, edge_label_id := edge_label_id }
        (direct_edge_schema st.catalog graph edge_label_id) hnone
    have hbase : SchemaCoherent { catalog := st.catalog, cache := c' } :=
      schema_coherent_of_sub h hsub
    refine ⟨{ st with cache := { c' with edge_schema_cache_hash := t' } }, ?_, ?_, rfl⟩
    · simp only [search_edge_schema_cache, hf, search_edge_schema_cache_miss, hacc, edge_schema_scan_direct, het]
    · exact { hbase with
        edge_schema := fun e he => by
          rcases hmem e he with h1 | ⟨hk, hd⟩
          · exact hbase.edge_schema e h1
          · rw [hk]; exact hd }

theorem search_start_vertex_end_labels_cache_schema (st : AgState) (msgs : List InvalMsg) (graph : Oid)
    (start_label_id : Int) (h : SchemaCoherent st) :
    ∃ st', search_start_vertex_end_labels_cache st msgs graph start_label_id =
        Except.ok (direct_end_labels st.catalog graph start_label_id, st') ∧
      SchemaCoherent st' ∧ st'.catalog = st.catalog := by
  cases hf : hash_find st.cache.start_vertex_end_labels_cache_hash
      { graph := graph, vertex_label_id := start_label_id } with
  | some d =>
    have hd : d = direct_end_labels st.catalog graph start_label_id :=
      h.start_vertex_end_labels _ (hash_find_mem _ _ _ hf)
    refine ⟨st, ?_, h, rfl⟩
    simp only [search_start_vertex_end_labels_cache, hf, hd]
  | none =>
    obtain ⟨c', hacc, hsub⟩ := accept_invalidation_sub st.cache msgs
    have hnone := hash_find_none_of_sub _ _ _ hsub.start_vertex_end_labels hf
    obtain ⟨t', het, hmem⟩ :=
      enter_data_spec c'.start_vertex_end_labels_cache_hash { graph := graph, vertex_label_id := start_label_id }
        (direct_end_labels st.catalog graph start_label_id) hnone
    have hbase : SchemaCoherent { catalog := st.catalog, cache := c' } :=
      schema_coherent_of_sub h hsub
    refine ⟨{ st with cache := { c' with start_vertex_end_labels_cache_hash := t' } }, ?_, ?_, rfl⟩
    · simp only [search_start_vertex_end_labels_cache, hf, search_start_vertex_end_labels_cache_miss, hacc, end_labels_scan_direct, het]
    · exact { hbase with
        start_vertex_end_labels := fun e he => by
          rcases hmem e he with h1 | ⟨hk, hd⟩
          · exact hbase.start_vertex_end_labels e h1
          · rw [hk]; exact hd }

theorem search_end_vertex_start_labels_cache_schema (st : AgState) (msgs : List InvalMsg) (graph : Oid)
    (end_label_id : Int) (h : SchemaCoherent st) :
    ∃ st', search_end_vertex_start_labels_cache st msgs graph end_label_id =
        Except.ok (direct_start_labels st.catalog graph end_label_id, st') ∧
      SchemaCoherent st' ∧ st'.catalog = st.catalog := by
  cases hf : hash_find st.cache.end_vertex_start_labels_cache_hash
      { graph := graph, vertex_label_id := end_label_id } with
  | some d =>
    have hd : d = direct_start_labels st.catalog graph end_label_id :=
      h.end_vertex_start_labels _ (hash_find_mem _ _ _ hf)
    refine ⟨st, ?_, h, rfl⟩
    simp only [search_end_vertex_start_labels_cache, hf, hd]
  | none =>
    obtain ⟨c', hacc, hsub⟩ := accept_invalidation_sub st.cache msgs
    have hnone := hash_find_none_of_sub _ _ _ hsub.end_vertex_start_labels hf
    obtain ⟨t', het, hmem⟩ :=
      enter_data_spec c'.end_vertex_start_labels_cache_hash { graph := graph, vertex_label_id := end_label_id }
        (direct_start_labels st.catalog graph end_label_id) hnone
    have hbase : SchemaCoherent { catalog := st.catalog, cache := c' } :=
      schema_coherent_of_sub h hsub
    refine ⟨{ st with cache := { c' with end_vertex_start_labels_cache_hash := t' } }, ?_, ?_, rfl⟩
    · simp only [search_end_vertex_start_labels_cache, hf, search_end_vertex_start_labels_cache_miss, hacc, start_labels_scan_direct, het]
    · exact { hbase with
        end_vertex_start_labels := fun e he => by
          rcases hmem e he with h1 | ⟨hk, hd⟩
          · exact hbase.end_vertex_start_labels e h1
          · rw [hk]; exact hd }

theorem search_graph_name_cache_schema (st : AgState) (msgs : List InvalMsg) (name : String)
    (h : SchemaCoherent st) (res : Option graph_cache_data) (st' : AgState)
    (hs : search_graph_name_cache st msgs name = Except.ok (res, st')) :
    SchemaCoherent st' ∧ st'.catalog = st.catalog := by
  cases hf : hash_find st.cache.graph_name_cache_hash (namestrcpy name) with
  | some d =>
    simp only [search_graph_name_cache, hf, Except.ok.injEq, Prod.mk.injEq] at hs
    exact hs.2 ▸ ⟨h, rfl⟩
  | none =>
    obtain ⟨c', hacc, hsub⟩ := accept_invalidation_sub st.cache msgs
    have hbase : SchemaCoherent { catalog := st.catalog, cache := c' } :=
      schema_coherent_of_sub h hsub
    simp only [search_graph_name_cache, hf, search_graph_name_cache_miss, hacc] at hs
    split at hs
    · exact absurd hs (by simp)
    · simp only [Except.ok.injEq, Prod.mk.injEq] at hs
      exact hs.2 ▸ ⟨⟨hbase.edge_schema, hbase.start_vertex_end_labels,
        hbase.end_vertex_start_labels⟩, rfl⟩

theorem search_graph_namespace_cache_schema (st : AgState) (msgs : List InvalMsg) (namespace_oid : Oid)
    (h : SchemaCoherent st) (res : Option graph_cache_data) (st' : AgState)
    (hs : search_graph_namespace_cache st msgs namespace_oid = Except.ok (res, st')) :
    SchemaCoherent st' ∧ st'.catalog = st.catalog := by
  cases hf : hash_find st.cache.graph_namespace_cache_hash namespace_oid with
  | some d =>
    simp only [search_graph_namespace_cache, hf, Except.ok.injEq, Prod.mk.injEq] at hs
    exact hs.2 ▸ ⟨h, rfl⟩
  | none =>
    obtain ⟨c', hacc, hsub⟩ := accept_invalidation_sub st.cache msgs
    have hbase : SchemaCoherent { catalog := st.catalog, cache := c' } :=
      schema_coherent_of_sub h hsub
    simp only [search_graph_namespace_cache, hf, search_graph_namespace_cache_miss, hacc] at hs
    split at hs
    · exact absurd hs (by simp)
    · simp only [Except.ok.injEq, Prod.mk.injEq] at hs
      exact hs.2 ▸ ⟨⟨hbase.edge_schema, hbase.start_vertex_end_labels,
        hbase.end_vertex_start_labels⟩, rfl⟩

theorem search_label_name_graph_cache_schema (st : AgState) (msgs : List InvalMsg) (name : String) (graph : Oid)
    (h : SchemaCoherent st) (res : Option label_cache_data) (st' : AgState)
    (hs : search_label_name_graph_cache st msgs name graph = Except.ok (res, st')) :
    SchemaCoherent st' ∧ st'.catalog = st.catalog := by
  cases hf : hash_find st.cache.label_name_graph_cache_hash (label_name_graph_key (namestrcpy name) graph) with
  | some d =>
    simp only [search_label_name_graph_cache, hf, Except.ok.injEq, Prod.mk.injEq] at hs
    exact hs.2 ▸ ⟨h, rfl⟩
  | none =>
    obtain ⟨c', hacc, hsub⟩ := accept_invalidation_sub st.cache msgs
    have hbase : SchemaCoherent { catalog := st.catalog, cache := c' } :=
      schema_coherent_of_sub h hsub
    simp only [search_label_name_graph_cache, hf, search_label_name_graph_cache_miss, hacc] at hs
    split at hs
    · exact absurd hs (by simp)
    · simp only [Except.ok.injEq, Prod.mk.injEq] at hs
      exact hs.2 ▸ ⟨⟨hbase.edge_schema, hbase.start_vertex_end_labels,
        hbase.end_vertex_start_labels⟩, rfl⟩

theorem search_label_graph_oid_cache_schema (st : AgState) (msgs : List InvalMsg) (graph : Oid) (id : Int)
    (h : SchemaCoherent st) (res : Option label_cache_data) (st' : AgState)
    (hs : search_label_graph_oid_cache st msgs graph id = Except.ok (res, st')) :
    SchemaCoherent st' ∧ st'.catalog = st.catalog := by
  cases hf : hash_find st.cache.label_graph_oid_cache_hash (label_graph_oid_key graph id) with
  | some d =>
    simp only [search_label_graph_oid_cache, hf, Except.ok.injEq, Prod.mk.injEq] at hs
    exact hs.2 ▸ ⟨h, rfl⟩
  | none =>
    obtain ⟨c', hacc, hsub⟩ := accept_invalidation_sub st.cache msgs
    have hbase : SchemaCoherent { catalog := st.catalog, cache := c' } :=
      schema_coherent_of_sub h hsub
    simp only [search_label_graph_oid_cache, hf, search_label_graph_oid_cache_miss, hacc] at hs
    split at hs
    · exact absurd hs (by simp)
    · simp only [Except.ok.injEq, Prod.mk.injEq] at hs
      exact hs.2 ▸ ⟨⟨hbase.edge_schema, hbase.start_vertex_end_labels,
        hbase.end_vertex_start_labels⟩, rfl⟩

theorem search_label_relation_cache_schema (st : AgState) (msgs : List InvalMsg) (relation : Oid)
    (h : SchemaCoherent st) (res : Option label_cache_data) (st' : AgState)
    (hs : search_label_relation_cache st msgs relation = Except.ok (res, st')) :
    SchemaCoherent st' ∧ st'.catalog = st.catalog := by
  cases hf : hash_find st.cache.label_relation_cache_hash relation with
  | some d =>
    simp only [search_label_relation_cache, hf, Except.ok.injEq, Prod.mk.injEq] at hs
    exact hs.2 ▸ ⟨h, rfl⟩
  | none =>
    obtain ⟨c', t', -, hsub, hok, -, -⟩ := search_label_relation_cache_miss_ok st msgs relation hf
    have hbase : SchemaCoherent { catalog := st.catalog, cache := c' } :=
      schema_coherent_of_sub h hsub
    rw [hok] at hs
    simp only [Except.ok.injEq, Prod.mk.injEq] at hs
    exact hs.2 ▸ ⟨⟨hbase.edge_schema, hbase.start_vertex_end_labels,
      hbase.end_vertex_start_labels⟩, rfl⟩

theorem search_label_seq_name_graph_cache_schema (st : AgState) (msgs : List InvalMsg) (name : String) (graph : Oid)
    (h : SchemaCoherent st) (res : Option label_cache_data) (st' : AgState)
    (hs : search_label_seq_name_graph_cache st msgs name graph = Except.ok (res, st')) :
    SchemaCoherent st' ∧ st'.catalog = st.catalog := by
  cases hf : hash_find st.cache.label_seq_name_graph_cache_hash (label_seq_name_graph_key (namestrcpy name) graph) with
  | some d =>
    simp only [search_label_seq_name_graph_cache, hf, Except.ok.injEq, Prod.mk.injEq] at hs
    exact hs.2 ▸ ⟨h, rfl⟩
  | none =>
    obtain ⟨c', hacc, hsub⟩ := accept_invalidation_sub st.cache msgs
    have hbase : SchemaCoherent { catalog := st.catalog, cache := c' } :=
      schema_coherent_of_sub h hsub
    simp only [search_label_seq_name_graph_cache, hf, search_label_seq_name_graph_cache_miss, hacc] at hs
    split at hs
    · exact absurd hs (by simp)
    · simp only [Except.ok.injEq, Prod.mk.injEq] at hs
      exact hs.2 ▸ ⟨⟨hbase.edge_schema, hbase.start_vertex_end_labels,
        hbase.end_vertex_start_labels⟩, rfl⟩

theorem schema_coherent_of_flush (st st' : AgState)
    (hc : st'.cache = invalidate_edge_schema_caches_for_graph st.cache 0) :
    SchemaCoherent st' := by
  obtain ⟨cat', c'⟩ := st'
  simp only at hc
  subst hc
  exact
    { edge_schema := fun _ he => by simp [invalidate_edge_schema_caches_for_graph] at he
      start_vertex_end_labels := fun _ he => by
        simp [invalidate_edge_schema_caches_for_graph] at he
      end_vertex_start_labels := fun _ he => by
        simp [invalidate_edge_schema_caches_for_graph] at he }

theorem delete_label_schema (st st1 : AgState) (R : Oid) (h : SchemaCoherent st)
    (hd : delete_label st R = Except.ok st1) : SchemaCoherent st1 := by
  unfold delete_label at hd
  cases hf : st.catalog.ag_label.find? (fun r => decide (r.relation = R)) with
  | none => simp [hf] at hd
  | some x =>
    simp only [hf] at hd
    split at hd
    · simp only [Except.ok.injEq] at hd
      subst hd
      exact schema_coherent_of_flush _ _ rfl
    · split at hd
      · simp only [Except.ok.injEq] at hd
        subst hd
        exact schema_coherent_of_flush _ _ rfl
      · simp only [Except.ok.injEq] at hd
        subst hd
        exact ⟨h.edge_schema, h.start_vertex_end_labels, h.end_vertex_start_labels⟩

theorem insert_label_schema (st st' : AgState) (n : String) (g : Oid) (i : Int) (k : Char)
    (r : Oid) (sq : String) (h : SchemaCoherent st)
    (hi : insert_label st n g i k r sq = Except.ok st') : SchemaCoherent st' := by
  unfold insert_label at hi
  simp only at hi
  split at hi
  · exact absurd hi (by simp)
  · simp only [Except.ok.injEq] at hi
    subst hi
    exact ⟨h.edge_schema, h.start_vertex_end_labels, h.end_vertex_start_labels⟩

theorem step_schema_coherent (st st' : AgState) (op : Op) (h : SchemaCoherent st)
    (hs : step st op = Except.ok st') : SchemaCoherent st' := by
  cases op with
  | insert_label n g i k r sq => exact insert_label_schema st st' n g i k r sq h hs
  | delete_label r => exact delete_label_schema st st' r h hs
  | insert_edge_schema_entry g e s t =>
    simp only [step, Except.ok.injEq] at hs
    subst hs
    exact schema_coherent_of_flush st _ rfl
  | delete_edge_schema_entries g e =>
    simp only [step, Except.ok.injEq] at hs
    subst hs
    exact schema_coherent_of_flush st _ rfl
  | delete_edge_schema_entries_for_vertex g v =>
    simp only [step, Except.ok.injEq] at hs
    subst hs
    exact schema_coherent_of_flush st _ rfl
  | delete_edge_schema_entries_for_graph g =>
    simp only [step, Except.ok.injEq] at hs
    subst hs
    exact schema_coherent_of_flush st _ rfl
  | invalidation msg =>
    obtain ⟨c', hd, hsub⟩ := deliver_inval_sub st.cache msg
    simp only [step, hd, Except.ok.injEq] at hs
    subst hs
    exact schema_coherent_of_sub h hsub
  | search_graph_name msgs name =>
    obtain ⟨a, ha⟩ := state_after_ok _ st' hs
    exact (search_graph_name_cache_schema st msgs name h a st' ha).1
  | search_graph_namespace msgs ns =>
    obtain ⟨a, ha⟩ := state_after_ok _ st' hs
    exact (search_graph_namespace_cache_schema st msgs ns h a st' ha).1
  | search_label_name_graph msgs name g =>
    obtain ⟨a, ha⟩ := state_after_ok _ st' hs
    exact (search_label_name_graph_cache_schema st msgs name g h a st' ha).1
  | search_label_graph_oid msgs g id =>
    obtain ⟨a, ha⟩ := state_after_ok _ st' hs
    exact (search_label_graph_oid_cache_schema st msgs g id h a st' ha).1
  | search_label_relation msgs r =>
    obtain ⟨a, ha⟩ := state_after_ok _ st' hs
    exact (search_label_relation_cache_schema st msgs r h a st' ha).1
  | search_label_seq_name_graph msgs name g =>
    obtain ⟨a, ha⟩ := state_after_ok _ st' hs
    exact (search_label_seq_name_graph_cache_schema st msgs name g h a st' ha).1
  | search_edge_schema msgs g e =>
    obtain ⟨a, ha⟩ := state_after_ok _ st' hs
    obtain ⟨st2, h2, hc, -⟩ := search_edge_schema_cache_schema st msgs g e h
    rw [h2] at ha
    simp only [Except.ok.injEq, Prod.mk.injEq] at ha
    exact ha.2 ▸ hc
  | search_start_vertex_end_labels msgs g v =>
    obtain ⟨a, ha⟩ := state_after_ok _ st' hs
    obtain ⟨st2, h2, hc, -⟩ := search_start_vertex_end_labels_cache_schema st msgs g v h
    rw [h2] at ha
    simp only [Except.ok.injEq, Prod.mk.injEq] at ha
    exact ha.2 ▸ hc
  | search_end_vertex_start_labels msgs g v =>
    obtain ⟨a, ha⟩ := state_after_ok _ st' hs
    obtain ⟨st2, h2, hc, -⟩ := search_end_vertex_start_labels_cache_schema st msgs g v h
    rw [h2] at ha
    simp only [Except.ok.injEq, Prod.mk.injEq] at ha
    exact ha.2 ▸ hc

theorem run_schema_coherent (ops : List Op) (st0 st : AgState) (h : SchemaCoherent st0)
    (hr : run st0 ops = Except.ok st) : SchemaCoherent st := by
  induction ops generalizing st0 with
  | nil =>
    simp only [run, Except.ok.injEq] at hr
    exact hr ▸ h
  | cons op rest ih =>
    obtain ⟨st1, hs1, hr1⟩ := run_cons_ok st0 st op rest hr
    exact ih st1 (step_schema_coherent st0 st1 op h hs1) hr1

theorem schema_coherent_of_empty_cache (st0 : AgState) (hcache : st0.cache = AgCache.empty) :
    SchemaCoherent st0 := by
  obtain ⟨cat, c⟩ := st0
  simp only at hcache
  subst hcache
  exact
    { edge_schema := fun _ he => by simp [AgCache.empty] at he
      start_vertex_end_labels := fun _ he => by simp [AgCache.empty] at he
      end_vertex_start_labels := fun _ he => by simp [AgCache.empty] at he }

/-! ## Deletion of a label -/

theorem eraseP_no_relation (l : List ag_label_row) (R : Oid)
    (hu : (l.map (fun r => r.relation)).Nodup) :
    ∀ r ∈ l.eraseP (fun r => decide (r.relation = R)), r.relation ≠ R := by
  induction l with
  | nil => simp
  | cons x xs ih =>
    simp only [List.map_cons, List.nodup_cons] at hu
    by_cases hx : x.relation = R
    · simp only [List.eraseP_cons, hx, decide_True, cond_true]
      intro r hr hrR
      exact hu.1 (List.mem_map.2 ⟨r, hr, hrR.trans hx.symm⟩)
    · simp only [List.eraseP_cons, hx, decide_False, cond_false, List.mem_cons]
      intro r hr
      rcases hr with hr | hr
      · rw [hr]; exact hx
      · exact ih hu.2 r hr

theorem direct_end_labels_nil (cat : Catalog) (G : Oid) (L : Int)
    (h : ∀ r ∈ cat.ag_graph_schema, r.graph = G → r.start_label_id ≠ L) :
    direct_end_labels cat G L =
      { graph := G, vertex_label_id := L, num_label_ids := 0, label_ids := [] } := by
  have hf : cat.ag_graph_schema.filter
      (fun r => decide (r.graph = G ∧ r.start_label_id = L)) = [] := by
    rw [List.filter_eq_nil_iff]
    intro r hr
    simp only [decide_eq_true_eq, not_and]
    exact h r hr
  simp only [direct_end_labels, hf]
  rfl

theorem direct_start_labels_nil (cat : Catalog) (G : Oid) (L : Int)
    (h : ∀ r ∈ cat.ag_graph_schema, r.graph = G → r.end_label_id ≠ L) :
    direct_start_labels cat G L =
      { graph := G, vertex_label_id := L, num_label_ids := 0, label_ids := [] } := by
  have hf : cat.ag_graph_schema.filter
      (fun r => decide (r.graph = G ∧ r.end_label_id = L)) = [] := by
    rw [List.filter_eq_nil_iff]
    intro r hr
    simp only [decide_eq_true_eq, not_and]
    exact h r hr
  simp only [direct_start_labels, hf]
  rfl

/-- C13. Let the label record of the relation `R` be a vertex label with graph `G` and
label id `L`.  Then `delete_label(R)` succeeds; it removes that record from `ag_label`
(and no record of relation `R` is left when relations are unique); it removes from
`ag_graph_schema` exactly the rows of `G` whose start or end label is `L`, so that no
row of `G` refers to `L` in either column; and the next
`get_end_labels_from_start_vertex(G, L)` and `get_start_labels_from_end_vertex(G, L)`
return empty lists. -/
theorem delete_vertex_label_cascade (st : AgState) (R : Oid) (tuple : ag_label_row)
    (msgs : List InvalMsg)
    (hfind : st.catalog.ag_label.find? (fun r => decide (r.relation = R)) = some tuple)
    (hkind : tuple.kind = LABEL_KIND_VERTEX) :
    ∃ st', delete_label st R = Except.ok st' ∧
      st'.catalog.ag_label =
        st.catalog.ag_label.eraseP (fun r => decide (r.relation = R)) ∧
      ((st.catalog.ag_label.map (fun r => r.relation)).Nodup →
        ∀ r ∈ st'.catalog.ag_label, r.relation ≠ R) ∧
      st'.catalog.ag_graph_schema =
        st.catalog.ag_graph_schema.filter (fun r =>
          !decide (r.graph = tuple.graph ∧
            (r.start_label_id = tuple.id ∨ r.end_label_id = tuple.id))) ∧
      (∀ r ∈ st'.catalog.ag_graph_schema,
        r.graph = tuple.graph → r.start_label_id ≠ tuple.id ∧ r.end_label_id ≠ tuple.id) ∧
      (∃ st2, get_end_labels_from_start_vertex st' msgs tuple.graph tuple.id =
        Except.ok ([], st2)) ∧
      (∃ st3, get_start_labels_from_end_vertex st' msgs tuple.graph tuple.id =
        Except.ok ([], st3)) := by
  have hrows : ∀ r ∈ st.catalog.ag_graph_schema.filter (fun r =>
      !decide (r.graph = tuple.graph ∧
        (r.start_label_id = tuple.id ∨ r.end_label_id = tuple.id))),
      r.graph = tuple.graph → r.start_label_id ≠ tuple.id ∧ r.end_label_id ≠ tuple.id := by
    intro r hr hg
    have := (List.mem_filter.1 hr).2
    simp only [Bool.not_eq_true', decide_eq_false_iff_not, not_and, not_or] at this
    exact this hg
  refine ⟨delete_edge_schema_entries_for_vertex
      { st with
        catalog :=
          { st.catalog with
            ag_label := st.catalog.ag_label.eraseP (fun r => decide (r.relation = R)) } }
      tuple.graph tuple.id, ?_, rfl, ?_, rfl, hrows, ?_, ?_⟩
  · have hve : ¬ (LABEL_KIND_VERTEX = LABEL_KIND_EDGE) := by decide
    simp only [delete_label, hfind, hkind, hve, if_false, if_true]
  · intro hu
    exact eraseP_no_relation _ R hu
  · have hsc : SchemaCoherent (delete_edge_schema_entries_for_vertex
        { st with
          catalog :=
            { st.catalog with
              ag_label := st.catalog.ag_label.eraseP (fun r => decide (r.relation = R)) } }
        tuple.graph tuple.id) := schema_coherent_of_flush _ _ rfl
    obtain ⟨st2, h2, -, -⟩ :=
      search_start_vertex_end_labels_cache_schema _ msgs tuple.graph tuple.id hsc
    refine ⟨st2, ?_⟩
    rw [get_end_labels_from_start_vertex, h2,
      direct_end_labels_nil _ _ _ (fun r hr hg => (hrows r hr hg).1)]
    rfl
  · have hsc : SchemaCoherent (delete_edge_schema_entries_for_vertex
        { st with
          catalog :=
            { st.catalog with
              ag_label := st.catalog.ag_label.eraseP (fun r => decide (r.relation = R)) } }
        tuple.graph tuple.id) := schema_coherent_of_flush _ _ rfl
    obtain ⟨st3, h3, -, -⟩ :=
      search_end_vertex_start_labels_cache_schema _ msgs tuple.graph tuple.id hsc
    refine ⟨st3, ?_⟩
    rw [get_start_labels_from_end_vertex, h3,
      direct_start_labels_nil _ _ _ (fun r hr hg => (hrows r hr hg).2)]
    rfl

/-- Witness of C13: the vertex label 3 of graph 1 is the end label of three rows and the
start label of one; `delete_label` of its relation 16400 leaves the row of graph 1 that
does not refer to it and the row of graph 2, and both lookups return the empty list. -/
theorem delete_vertex_label_cascade_witness :
    (ex_state_scenario.catalog.ag_label.find? (fun r => decide (r.relation = 16400))
        = some ex_row_person ∧
      ex_row_person.kind = LABEL_KIND_VERTEX) ∧
    (∀ st', delete_label ex_state_scenario 16400 = Except.ok st' →
      st'.catalog.ag_label = [ex_row_knows] ∧
      st'.catalog.ag_graph_schema = [ex_schema_row 1 8 4 4, ex_schema_row 2 7 3 3]) ∧
    ∃ st', delete_label ex_state_scenario 16400 = Except.ok st' ∧
      st'.catalog.ag_label =
        ex_state_scenario.catalog.ag_label.eraseP (fun r => decide (r.relation = 16400)) ∧
      ((ex_state_scenario.catalog.ag_label.map (fun r => r.relation)).Nodup →
        ∀ r ∈ st'.catalog.ag_label, r.relation ≠ 16400) ∧
      st'.catalog.ag_graph_schema =
        ex_state_scenario.catalog.ag_graph_schema.filter (fun r =>
          !decide (r.graph = ex_row_person.graph ∧
            (r.start_label_id = ex_row_person.id ∨ r.end_label_id = ex_row_person.id))) ∧
      (∀ r ∈ st'.catalog.ag_graph_schema,
        r.graph = ex_row_person.graph →
          r.start_label_id ≠ ex_row_person.id ∧ r.end_label_id ≠ ex_row_person.id) ∧
      (∃ st2, get_end_labels_from_start_vertex st' [] ex_row_person.graph ex_row_person.id =
        Except.ok ([], st2)) ∧
      (∃ st3, get_start_labels_from_end_vertex st' [] ex_row_person.graph ex_row_person.id =
        Except.ok ([], st3)) :=
  ⟨⟨by decide, rfl⟩,
    by
      intro st' h
      have h' : Except.ok (delete_edge_schema_entries_for_vertex
          { ex_state_scenario with
            catalog := { ex_state_scenario.catalog with ag_label := [ex_row_knows] } } 1 3)
          = Except.ok st' := h
      simp only [Except.ok.injEq] at h'
      subst h'
      exact ⟨rfl, by decide⟩,
    delete_vertex_label_cascade ex_state_scenario 16400 ex_row_person [] (by decide) rfl⟩

/-- C14. Let the label record of the relation `R` be an edge label with graph `G` and
label id `E`.  Then `delete_label(R)` succeeds; it removes that record from `ag_label`
(and no record of relation `R` is left when relations are unique); it removes from
`ag_graph_schema` exactly the rows of `G` whose `edge_label_id` is `E`, and every other
row, of another edge label of `G` or of another graph, stays as it is, in its place. -/
theorem delete_edge_label_cascade (st : AgState) (R : Oid) (tuple : ag_label_row)
    (hfind : st.catalog.ag_label.find? (fun r => decide (r.relation = R)) = some tuple)
    (hkind : tuple.kind = LABEL_KIND_EDGE) :
    ∃ st', delete_label st R = Except.ok st' ∧
      st'.catalog.ag_label =
        st.catalog.ag_label.eraseP (fun r => decide (r.relation = R)) ∧
      ((st.catalog.ag_label.map (fun r => r.relation)).Nodup →
        ∀ r ∈ st'.catalog.ag_label, r.relation ≠ R) ∧
      st'.catalog.ag_graph_schema =
        st.catalog.ag_graph_schema.filter (fun r =>
          !decide (r.graph = tuple.graph ∧ r.edge_label_id = tuple.id)) ∧
      (∀ r ∈ st'.catalog.ag_graph_schema,
        ¬ (r.graph = tuple.graph ∧ r.edge_label_id = tuple.id)) ∧
      (∀ r ∈ st.catalog.ag_graph_schema,
        ¬ (r.graph = tuple.graph ∧ r.edge_label_id = tuple.id) →
          r ∈ st'.catalog.ag_graph_schema) ∧
      st'.catalog.ag_graph = st.catalog.ag_graph := by
  refine ⟨delete_edge_schema_entries
      { st with
        catalog :=
          { st.catalog with
            ag_label := st.catalog.ag_label.eraseP (fun r => decide (r.relation = R)) } }
      tuple.graph tuple.id, ?_, rfl, ?_, rfl, ?_, ?_, rfl⟩
  · simp only [delete_label, hfind, hkind, if_true]
  · intro hu
    exact eraseP_no_relation _ R hu
  · intro r hr
    have := (List.mem_filter.1 hr).2
    simpa only [Bool.not_eq_true', decide_eq_false_iff_not] using this
  · intro r hr hn
    exact List.mem_filter.2 ⟨hr, by simpa only [Bool.not_eq_true', decide_eq_false_iff_not]
      using hn⟩

/-- Witness of C14: `delete_label` of the relation 16600 of the edge label 7 of graph 1
removes the two rows of that edge label and keeps the four others. -/
theorem delete_edge_label_cascade_witness :
    (ex_state_scenario.catalog.ag_label.find? (fun r => decide (r.relation = 16600))
        = some ex_row_knows ∧
      ex_row_knows.kind = LABEL_KIND_EDGE) ∧
    (∀ st', delete_label ex_state_scenario 16600 = Except.ok st' →
      st'.catalog.ag_label = [ex_row_person] ∧
      st'.catalog.ag_graph_schema =
        [ex_schema_row 1 8 4 3, ex_schema_row 1 9 5 3, ex_schema_row 1 8 4 4,
         ex_schema_row 2 7 3 3]) ∧
    ∃ st', delete_label ex_state_scenario 16600 = Except.ok st' ∧
      st'.catalog.ag_label =
        ex_state_scenario.catalog.ag_label.eraseP (fun r => decide (r.relation = 16600)) ∧
      ((ex_state_scenario.catalog.ag_label.map (fun r => r.relation)).Nodup →
        ∀ r ∈ st'.catalog.ag_label, r.relation ≠ 16600) ∧
      st'.catalog.ag_graph_schema =
        ex_state_scenario.catalog.ag_graph_schema.filter (fun r =>
          !decide (r.graph = ex_row_knows.graph ∧ r.edge_label_id = ex_row_knows.id)) ∧
      (∀ r ∈ st'.catalog.ag_graph_schema,
        ¬ (r.graph = ex_row_knows.graph ∧ r.edge_label_id = ex_row_knows.id)) ∧
      (∀ r ∈ ex_state_scenario.catalog.ag_graph_schema,
        ¬ (r.graph = ex_row_knows.graph ∧ r.edge_label_id = ex_row_knows.id) →
          r ∈ st'.catalog.ag_graph_schema) ∧
      st'.catalog.ag_graph = ex_state_scenario.catalog.ag_graph :=
  ⟨⟨by decide, rfl⟩,
    by
      intro st' h
      have h' : Except.ok (delete_edge_schema_entries
          { ex_state_scenario with
            catalog := { ex_state_scenario.catalog with ag_label := [ex_row_person] } } 1 7)
          = Except.ok st' := h
      simp only [Except.ok.injEq] at h'
      subst h'
      exact ⟨rfl, by decide⟩,
    delete_edge_label_cascade ex_state_scenario 16600 ex_row_knows (by decide) rfl⟩

/-- C15 (counterexample). `delete_label` of the relation 16400, of which the catalog
holds no label record, fails with the error code `ERRCODE_UNDEFINED_TABLE`, which is
not the code `ERRCODE_UNDEFINED_OBJECT`. -/
theorem delete_label_missing_errcode :
    (∀ r ∈ ex_state_empty.catalog.ag_label, r.relation ≠ 16400) ∧
    delete_label ex_state_empty 16400 =
      Except.error (AgError.ERRCODE_UNDEFINED_TABLE "label (relation=%u) does not exist") ∧
    ∀ errmsg, delete_label ex_state_empty 16400 ≠
      Except.error (AgError.ERRCODE_UNDEFINED_OBJECT errmsg) := by
  refine ⟨by decide, rfl, ?_⟩
  intro errmsg h
  have h' : (Except.error (AgError.ERRCODE_UNDEFINED_TABLE
      "label (relation=%u) does not exist") : Except AgError AgState) =
      Except.error (AgError.ERRCODE_UNDEFINED_OBJECT errmsg) := h
  simp at h'

/-- C15 (amended). `delete_label(R)` for a relation `R` that no label record has as its
relation fails with the undefined-table error (`ERRCODE_UNDEFINED_TABLE`, "label
(relation=...) does not exist"); the error is raised before anything is deleted, so the
call yields no changed state: no label record and no `ag_graph_schema` row is deleted. -/
theorem delete_label_missing (st : AgState) (R : Oid)
    (hnone : ∀ r ∈ st.catalog.ag_label, r.relation ≠ R) :
    delete_label st R =
      Except.error (AgError.ERRCODE_UNDEFINED_TABLE "label (relation=%u) does not exist") ∧
    ∀ st', delete_label st R ≠ Except.ok st' := by
  have hf : st.catalog.ag_label.find? (fun r => decide (r.relation = R)) = none := by
    rw [List.find?_eq_none]
    intro r hr
    simpa using hnone r hr
  have he : delete_label st R =
      Except.error (AgError.ERRCODE_UNDEFINED_TABLE "label (relation=%u) does not exist") := by
    simp only [delete_label, hf]
  refine ⟨he, ?_⟩
  intro st' h
  rw [he] at h
  exact absurd h (by simp)

/-- Witness of C15 (amended): the catalog holds the labels of the relations 16400 and
16600, and `delete_label` is called for the relation 16999. -/
theorem delete_label_missing_witness :
    (∀ r ∈ ex_state_scenario.catalog.ag_label, r.relation ≠ 16999) ∧
    delete_label ex_state_scenario 16999 =
      Except.error (AgError.ERRCODE_UNDEFINED_TABLE "label (relation=%u) does not exist") ∧
    ∀ st', delete_label ex_state_scenario 16999 ≠ Except.ok st' :=
  ⟨by decide, delete_label_missing ex_state_scenario 16999 (by decide)⟩

/-! ## Label ids of an edge label -/

theorem direct_edge_schema_take (cat : Catalog) (graph : Oid) (edge_label_id : Int) :
    (direct_edge_schema cat graph edge_label_id).entries.take
        (direct_edge_schema cat graph edge_label_id).num_entries =
      (cat.ag_graph_schema.filter (fun r =>
        decide (r.graph = graph ∧ r.edge_label_id = edge_label_id))).map (fun r =>
          ({ start_label_id := r.start_label_id, end_label_id := r.end_label_id } :
            edge_schema_entry)) := by
  simp only [direct_edge_schema]
  apply List.take_of_length_le
  simp

theorem get_edge_end_label_ids_schema (st : AgState) (msgs : List InvalMsg) (graph_oid : Oid)
    (edge_label_id : Int) (h : SchemaCoherent st) :
    ∃ st', get_edge_end_label_ids st msgs graph_oid edge_label_id =
        Except.ok
          (dedup_first
            ((st.catalog.ag_graph_schema.filter (fun r =>
              decide (r.graph = graph_oid ∧ r.edge_label_id = edge_label_id))).map
                (fun r => r.end_label_id)), st') ∧
      st'.catalog = st.catalog := by
  obtain ⟨st', hs, -, hcat⟩ := search_edge_schema_cache_schema st msgs graph_oid edge_label_id h
  refine ⟨st', ?_, hcat⟩
  simp only [get_edge_end_label_ids, hs, direct_edge_schema_take, append_unique_loop_nil,
    List.map_map]
  rfl

theorem get_edge_start_label_ids_schema (st : AgState) (msgs : List InvalMsg)
    (graph_oid : Oid) (edge_label_id : Int) (h : SchemaCoherent st) :
    ∃ st', get_edge_start_label_ids st msgs graph_oid edge_label_id =
        Except.ok
          (dedup_first
            ((st.catalog.ag_graph_schema.filter (fun r =>
              decide (r.graph = graph_oid ∧ r.edge_label_id = edge_label_id))).map
                (fun r => r.start_label_id)), st') ∧
      st'.catalog = st.catalog := by
  obtain ⟨st', hs, -, hcat⟩ := search_edge_schema_cache_schema st msgs graph_oid edge_label_id h
  refine ⟨st', ?_, hcat⟩
  simp only [get_edge_start_label_ids, hs, direct_edge_schema_take, append_unique_loop_nil,
    List.map_map]
  rfl

theorem mem_dedup_map_filter (rows : List ag_graph_schema_row) (graph : Oid)
    (edge_label_id : Int) (f : ag_graph_schema_row → Int) (x : Int) :
    x ∈ dedup_first ((rows.filter (fun r =>
        decide (r.graph = graph ∧ r.edge_label_id = edge_label_id))).map f) ↔
      ∃ r ∈ rows, r.graph = graph ∧ r.edge_label_id = edge_label_id ∧ f r = x := by
  rw [mem_dedup_first, List.mem_map]
  constructor
  · rintro ⟨r, hr, hx⟩
    have := List.mem_filter.1 hr
    have hk : r.graph = graph ∧ r.edge_label_id = edge_label_id := by simpa using this.2
    exact ⟨r, this.1, hk.1, hk.2, hx⟩
  · rintro ⟨r, hr, hg, he, hx⟩
    exact ⟨r, List.mem_filter.2 ⟨hr, by simp [hg, he]⟩, hx⟩

/-- C16. In every state that a sequence of catalog changes, lookups and invalidations
leaves when started with empty caches on any catalog content, and for every graph `G`
and edge label id `e`, `get_edge_end_label_ids(G, e)` returns a list without duplicates
whose members are exactly the `end_label_id` values of the `ag_graph_schema` rows with
graph `G` and edge label id `e`, and `get_edge_start_label_ids(G, e)` returns a list
without duplicates whose members are exactly their `start_label_id` values. -/
theorem edge_label_ids_exact (st0 st : AgState) (ops : List Op) (msgs : List InvalMsg)
    (G : Oid) (e : Int) (hcache : st0.cache = AgCache.empty)
    (hrun : run st0 ops = Except.ok st) :
    (∃ l st', get_edge_end_label_ids st msgs G e = Except.ok (l, st') ∧
      l.Nodup ∧
      (∀ x, x ∈ l ↔
        ∃ r ∈ st.catalog.ag_graph_schema,
          r.graph = G ∧ r.edge_label_id = e ∧ r.end_label_id = x) ∧
      st'.catalog = st.catalog) ∧
    (∃ l st', get_edge_start_label_ids st msgs G e = Except.ok (l, st') ∧
      l.Nodup ∧
      (∀ x, x ∈ l ↔
        ∃ r ∈ st.catalog.ag_graph_schema,
          r.graph = G ∧ r.edge_label_id = e ∧ r.start_label_id = x) ∧
      st'.catalog = st.catalog) := by
  have hco : SchemaCoherent st :=
    run_schema_coherent ops st0 st (schema_coherent_of_empty_cache st0 hcache) hrun
  constructor
  · obtain ⟨st', hs, hcat⟩ := get_edge_end_label_ids_schema st msgs G e hco
    exact ⟨_, st', hs, nodup_dedup_first _,
      fun x => mem_dedup_map_filter _ G e (fun r => r.end_label_id) x, hcat⟩
  · obtain ⟨st', hs, hcat⟩ := get_edge_start_label_ids_schema st msgs G e hco
    exact ⟨_, st', hs, nodup_dedup_first _,
      fun x => mem_dedup_map_filter _ G e (fun r => r.start_label_id) x, hcat⟩

/-- Witness of C16 (Scenario A): the rows (1, 7, 3, 4) and (1, 7, 3, 5) are inserted
into an empty catalog; `get_edge_end_label_ids(1, 7)` returns 4 and 5, each once, and
`get_edge_start_label_ids(1, 7)` returns 3 once. -/
theorem edge_label_ids_exact_witness :
    (ex_state_empty.cache = AgCache.empty ∧
      run ex_state_empty ex_ops_two_ends = Except.ok ex_state_two_ends) ∧
    (∃ st', get_edge_end_label_ids ex_state_two_ends [] 1 7 = Except.ok ([4, 5], st')) ∧
    (∃ st', get_edge_start_label_ids ex_state_two_ends [] 1 7 = Except.ok ([3], st')) ∧
    ((∃ l st', get_edge_end_label_ids ex_state_two_ends [] 1 7 = Except.ok (l, st') ∧
      l.Nodup ∧
      (∀ x, x ∈ l ↔
        ∃ r ∈ ex_state_two_ends.catalog.ag_graph_schema,
          r.graph = 1 ∧ r.edge_label_id = 7 ∧ r.end_label_id = x) ∧
      st'.catalog = ex_state_two_ends.catalog) ∧
    (∃ l st', get_edge_start_label_ids ex_state_two_ends [] 1 7 = Except.ok (l, st') ∧
      l.Nodup ∧
      (∀ x, x ∈ l ↔
        ∃ r ∈ ex_state_two_ends.catalog.ag_graph_schema,
          r.graph = 1 ∧ r.edge_label_id = 7 ∧ r.start_label_id = x) ∧
      st'.catalog = ex_state_two_ends.catalog)) :=
  ⟨⟨rfl, by rfl⟩, ⟨_, by rfl⟩, ⟨_, by rfl⟩,
    edge_label_ids_exact ex_state_empty ex_state_two_ends ex_ops_two_ends [] 1 7 rfl (by rfl)⟩

/-! ## Pruning: plans whose children all stay -/

theorem retained_eq_self_of_all {C : Type} (root : PlannerInfo) (S : List Oid)
    (p : PathNode C) (hall : ∀ c ∈ p.subpaths, child_allowed root S c = true) :
    retained root S p = p.subpaths :=
  List.filter_eq_self.2 hall

theorem filter_pathlist_node_of_all {C : Type} [Zero C] [Add C] (root : PlannerInfo)
    (S : List Oid) (p : PathNode C)
    (hall : ∀ c ∈ p.subpaths, child_allowed root S c = true) :
    filter_pathlist_node root S p = p := by
  have hr := retained_eq_self_of_all root S p hall
  unfold filter_pathlist_node
  split
  · simp only [append_filter_init, hr, lt_self_iff_false, and_false, if_false]
  · simp only [merge_filter_init, hr, lt_self_iff_false, and_false, if_false]
  · rfl

theorem filter_partial_node_of_all {C : Type} [Zero C] [Add C] (root : PlannerInfo)
    (S : List Oid) (p : PathNode C)
    (hall : ∀ c ∈ p.subpaths, child_allowed root S c = true) :
    filter_partial_node root S p = p := by
  have hr := retained_eq_self_of_all root S p hall
  unfold filter_partial_node
  split
  · simp only [append_filter_init, hr, lt_self_iff_false, and_false, if_false]
  · simp only [merge_filter_init, hr, lt_self_iff_false, and_false, if_false]
  · rfl

theorem child_allowed_nil {C : Type} (root : PlannerInfo) (c : Path C) :
    child_allowed root [] c = false := by
  unfold child_allowed
  split
  · rfl
  · simp [list_member_oid]

theorem subpaths_nil_of_all_nil {C : Type} (root : PlannerInfo) (p : PathNode C)
    (hall : ∀ c ∈ p.subpaths, child_allowed root [] c = true) : p.subpaths = [] := by
  cases hs : p.subpaths with
  | nil => rfl
  | cons c cs =>
    have h1 := hall c (by simp [hs])
    rw [child_allowed_nil] at h1
    exact absurd h1 (by decide)

theorem empty_pathlist_node_of_zero {C : Type} [Zero C] (p : PathNode C)
    (hs : p.subpaths = [])
    (hz : p.path.rows = 0 ∧ p.path.startup_cost = 0 ∧ p.path.total_cost = 0) :
    empty_pathlist_node p = p := by
  obtain ⟨⟨type, parent_relid, pathkeys, rows, startup_cost, total_cost⟩, subpaths⟩ := p
  simp only at hs hz
  obtain ⟨h1, h2, h3⟩ := hz
  subst hs h1 h2 h3
  unfold empty_pathlist_node
  split <;> rfl

theorem empty_partial_node_of_zero {C : Type} [Zero C] (p : PathNode C)
    (hs : p.subpaths = []) (hz : p.path.rows = 0) :
    empty_partial_node p = p := by
  obtain ⟨⟨type, parent_relid, pathkeys, rows, startup_cost, total_cost⟩, subpaths⟩ := p
  simp only at hs hz
  subst hs hz
  unfold empty_partial_node
  split <;> rfl

/-- C19. For a qualifying relation with the inferred list `S` and a plan at position
`i` of the pathlist or of the partial pathlist, be it an Append, a MergeAppend or
another plan, every child of which passes the test of the pruning (its relation is in
`S`): after the call
the plan at that position is the same plan, with the same child list, the same row
estimate, the same startup cost and the same total cost.  For the empty list, of
which no child is a member, the plan is childless, and it is taken to be costed as
the host costs a childless plan: zero rows and zero costs. -/
theorem all_children_retained_unmodified {C : Type} [Zero C] [Add C] (host : Host C)
    (ctx : GraphOptState) (root : PlannerInfo) (rel : RelOptInfo C) (rte : RangeTblEntry)
    (S : List Oid) (i : Nat) (p : PathNode C)
    (h : prunes_with host ctx rte S)
    (hall : ∀ c ∈ p.subpaths, child_allowed root S c = true)
    (hzero : S = [] →
      p.path.rows = 0 ∧ p.path.startup_cost = 0 ∧ p.path.total_cost = 0) :
    (rel.pathlist[i]? = some p →
      ∃ q, (filter_append_paths_for_inferred_labels host ctx root rel rte).pathlist[i]? = some q ∧
        q.subpaths = p.subpaths ∧ q.path.rows = p.path.rows ∧
        q.path.startup_cost = p.path.startup_cost ∧ q.path.total_cost = p.path.total_cost ∧
        q = p) ∧
    (rel.partial_pathlist[i]? = some p →
      ∃ q, (filter_append_paths_for_inferred_labels host ctx root rel rte).partial_pathlist[i]?
          = some q ∧
        q.subpaths = p.subpaths ∧ q.path.rows = p.path.rows ∧
        q.path.startup_cost = p.path.startup_cost ∧ q.path.total_cost = p.path.total_cost ∧
        q = p) := by
  by_cases hS : S = []
  · subst hS
    have hs := subpaths_nil_of_all_nil root p hall
    have hz := hzero rfl
    rw [filter_of_empty host ctx root rel rte h]
    constructor
    · intro hp
      refine ⟨p, ?_, rfl, rfl, rfl, rfl, rfl⟩
      simp [List.getElem?_map, hp, empty_pathlist_node_of_zero p hs hz]
    · intro hp
      refine ⟨p, ?_, rfl, rfl, rfl, rfl, rfl⟩
      simp [List.getElem?_map, hp, empty_partial_node_of_zero p hs hz.1]
  · rw [filter_of_nonempty host ctx root rel rte S h hS]
    constructor
    · intro hp
      refine ⟨p, ?_, rfl, rfl, rfl, rfl, rfl⟩
      simp [set_cheapest, List.getElem?_map, hp, filter_pathlist_node_of_all root S p hall]
    · intro hp
      refine ⟨p, ?_, rfl, rfl, rfl, rfl, rfl⟩
      simp [set_cheapest, List.getElem?_map, hp, filter_partial_node_of_all root S p hall]

/-- Witness of C19: the list `[5, 6]` holds both children of the Append of the
pathlist and of the MergeAppend of the partial pathlist, which come back as they
were. -/
theorem all_children_retained_unmodified_witness :
    (prunes_with ex_host (ex_ctx [5, 6]) ex_rte [5, 6] ∧
      is_union_plan ex_append ∧
      (∀ c ∈ ex_append.subpaths, child_allowed ex_root [5, 6] c = true) ∧
      (([5, 6] : List Oid) = [] →
        ex_append.path.rows = 0 ∧ ex_append.path.startup_cost = 0 ∧
          ex_append.path.total_cost = 0)) ∧
    (filter_append_paths_for_inferred_labels ex_host (ex_ctx [5, 6]) ex_root
        (ex_rel [ex_append] [ex_append]) ex_rte).pathlist = [ex_append] ∧
    ((ex_rel [ex_append] [ex_append]).pathlist[0]? = some ex_append →
      ∃ q, (filter_append_paths_for_inferred_labels ex_host (ex_ctx [5, 6]) ex_root
          (ex_rel [ex_append] [ex_append]) ex_rte).pathlist[0]? = some q ∧
        q.subpaths = ex_append.subpaths ∧ q.path.rows = ex_append.path.rows ∧
        q.path.startup_cost = ex_append.path.startup_cost ∧
        q.path.total_cost = ex_append.path.total_cost ∧ q = ex_append) ∧
    ((ex_rel [ex_append] [ex_append]).partial_pathlist[0]? = some ex_append →
      ∃ q, (filter_append_paths_for_inferred_labels ex_host (ex_ctx [5, 6]) ex_root
          (ex_rel [ex_append] [ex_append]) ex_rte).partial_pathlist[0]? = some q ∧
        q.subpaths = ex_append.subpaths ∧ q.path.rows = ex_append.path.rows ∧
        q.path.startup_cost = ex_append.path.startup_cost ∧
        q.path.total_cost = ex_append.path.total_cost ∧ q = ex_append) :=
  ⟨⟨ex_prunes_with [5, 6], Or.inl rfl, by decide, by decide⟩, by decide,
    all_children_retained_unmodified ex_host (ex_ctx [5, 6]) ex_root
      (ex_rel [ex_append] [ex_append]) ex_rte [5, 6] 0 ex_append (ex_prunes_with [5, 6])
      (by decide) (by decide)⟩

/-! ## The gate of the pruning -/

theorem filter_of_not_root {C : Type} [Zero C] [Add C] (host : Host C) (ctx : GraphOptState)
    (root : PlannerInfo) (rel : RelOptInfo C) (rte : RangeTblEntry)
    (h : rte.rtekind ≠ RTEKind.RTE_RELATION ∨ rte.inh = false ∨
      (host.get_rel_name rte.relid ≠ some "_ag_label_vertex" ∧
        host.get_rel_name rte.relid ≠ some "_ag_label_edge") ∨
      rte.rte_alias = none ∨ rte.rte_alias = some { aliasname := none }) :
    filter_append_paths_for_inferred_labels host ctx root rel rte = rel := by
  unfold filter_append_paths_for_inferred_labels
  by_cases h1 : rte.rtekind ≠ RTEKind.RTE_RELATION ∨ rte.inh = false
  · simp only [h1, if_true]
  · simp only [h1, if_false]
    have h' : (host.get_rel_name rte.relid ≠ some "_ag_label_vertex" ∧
        host.get_rel_name rte.relid ≠ some "_ag_label_edge") ∨
        rte.rte_alias = none ∨ rte.rte_alias = some { aliasname := none } := by
      rcases h with h | h | h
      · exact absurd (Or.inl h) h1
      · exact absurd (Or.inr h) h1
      · exact h
    cases hn : host.get_rel_name rte.relid with
    | none => rfl
    | some rel_name =>
      simp only
      by_cases h2 : rel_name ≠ "_ag_label_vertex" ∧ rel_name ≠ "_ag_label_edge"
      · rw [if_pos h2]
      · rw [if_neg h2]
        rcases h' with h' | h' | h'
        · rw [hn] at h'
          exact absurd ⟨fun e => h'.1 (congrArg some e), fun e => h'.2 (congrArg some e)⟩ h2
        · simp only [h']
        · simp only [h']

/-- C18. The pruning changes nothing unless inference is enabled and the relation is a
polymorphic storage root.  For an entry that is no Cypher clause (the case in which
`set_rel_pathlist` reaches the pruning): if `age_infer_labels` is off, or the entry is
not a relation, or it has no inheritance, or its relation name is neither
`_ag_label_vertex` nor `_ag_label_edge`, or it has no alias or no alias name, then
`set_rel_pathlist` returns the relation as the previous hook left it, whatever the
inference context holds; and under each condition but the first,
`filter_append_paths_for_inferred_labels` itself returns the relation as it was, with
every plan, its children, row estimate and costs. -/
theorem pruning_only_for_enabled_roots {C : Type} [Zero C] [Add C] (host : Host C)
    (ctx : GraphOptState) (age_infer_labels : Bool)
    (prev_set_rel_pathlist_hook :
      Option (PlannerInfo → RelOptInfo C → Nat → RangeTblEntry → RelOptInfo C))
    (handle_cypher_clause :
      cypher_clause_kind → PlannerInfo → RelOptInfo C → Nat → RangeTblEntry → RelOptInfo C)
    (subquery_kind : cypher_clause_kind)
    (root : PlannerInfo) (rel : RelOptInfo C) (rti : Nat) (rte : RangeTblEntry)
    (hkind : get_cypher_clause_kind rte subquery_kind = cypher_clause_kind.CYPHER_CLAUSE_NONE)
    (h : age_infer_labels = false ∨ rte.rtekind ≠ RTEKind.RTE_RELATION ∨ rte.inh = false ∨
      (host.get_rel_name rte.relid ≠ some "_ag_label_vertex" ∧
        host.get_rel_name rte.relid ≠ some "_ag_label_edge") ∨
      rte.rte_alias = none ∨ rte.rte_alias = some { aliasname := none }) :
    set_rel_pathlist host ctx age_infer_labels prev_set_rel_pathlist_hook handle_cypher_clause
        subquery_kind root rel rti rte =
      (match prev_set_rel_pathlist_hook with
        | some hook => hook root rel rti rte
        | none => rel) ∧
    ((rte.rtekind ≠ RTEKind.RTE_RELATION ∨ rte.inh = false ∨
      (host.get_rel_name rte.relid ≠ some "_ag_label_vertex" ∧
        host.get_rel_name rte.relid ≠ some "_ag_label_edge") ∨
      rte.rte_alias = none ∨ rte.rte_alias = some { aliasname := none }) →
      filter_append_paths_for_inferred_labels host ctx root rel rte = rel ∧
      (filter_append_paths_for_inferred_labels host ctx root rel rte).pathlist = rel.pathlist ∧
      (filter_append_paths_for_inferred_labels host ctx root rel rte).partial_pathlist =
        rel.partial_pathlist) := by
  constructor
  · simp only [set_rel_pathlist, hkind]
    rcases h with h | h
    · simp only [h, Bool.false_eq_true, if_false]
    · cases age_infer_labels with
      | false => simp only [Bool.false_eq_true, if_false]
      | true =>
        simp only [if_true]
        exact filter_of_not_root host ctx root _ rte h
  · intro h'
    have he := filter_of_not_root host ctx root rel rte h'
    exact ⟨he, by rw [he], by rw [he]⟩

/-- Witness of C18: the root aliased `n` has the inferred list `[6]`, which with
inference on reduces the Append to one child; with `age_infer_labels` off the relation
comes back as it was. -/
theorem pruning_only_for_enabled_roots_witness :
    (get_cypher_clause_kind ex_rte cypher_clause_kind.CYPHER_CLAUSE_CREATE =
        cypher_clause_kind.CYPHER_CLAUSE_NONE ∧
      graph_opt_has_inferred_entry (ex_ctx [6]) (some "n") = true ∧
      (set_rel_pathlist ex_host (ex_ctx [6]) true none (fun _ _ r _ _ => r)
          cypher_clause_kind.CYPHER_CLAUSE_CREATE ex_root (ex_rel [ex_append] [ex_merge]) 1
          ex_rte).pathlist.map (fun q => q.subpaths) = [[ex_scan 3 20 2 40]]) ∧
    (set_rel_pathlist ex_host (ex_ctx [6]) false none (fun _ _ r _ _ => r)
        cypher_clause_kind.CYPHER_CLAUSE_CREATE ex_root (ex_rel [ex_append] [ex_merge]) 1
        ex_rte =
      ex_rel [ex_append] [ex_merge] ∧
    ((ex_rte.rtekind ≠ RTEKind.RTE_RELATION ∨ ex_rte.inh = false ∨
      (ex_host.get_rel_name ex_rte.relid ≠ some "_ag_label_vertex" ∧
        ex_host.get_rel_name ex_rte.relid ≠ some "_ag_label_edge") ∨
      ex_rte.rte_alias = none ∨ ex_rte.rte_alias = some { aliasname := none }) →
      filter_append_paths_for_inferred_labels ex_host (ex_ctx [6]) ex_root
          (ex_rel [ex_append] [ex_merge]) ex_rte = ex_rel [ex_append] [ex_merge] ∧
      (filter_append_paths_for_inferred_labels ex_host (ex_ctx [6]) ex_root
          (ex_rel [ex_append] [ex_merge]) ex_rte).pathlist =
        (ex_rel [ex_append] [ex_merge]).pathlist ∧
      (filter_append_paths_for_inferred_labels ex_host (ex_ctx [6]) ex_root
          (ex_rel [ex_append] [ex_merge]) ex_rte).partial_pathlist =
        (ex_rel [ex_append] [ex_merge]).partial_pathlist)) :=
  ⟨⟨by decide, by decide, by decide⟩,
    pruning_only_for_enabled_roots ex_host (ex_ctx [6]) false none (fun _ _ r _ _ => r)
      cypher_clause_kind.CYPHER_CLAUSE_CREATE ex_root (ex_rel [ex_append] [ex_merge]) 1 ex_rte
      (by decide) (Or.inl rfl)⟩

/-! ## Row estimates before the join search -/

theorem simple_rte_lt (root : PlannerInfo) (i : Nat) (rte : RangeTblEntry)
    (h : simple_rte root i = some rte) : i < root.simple_rte_array.length := by
  by_contra hc
  have hle : root.simple_rte_array.length ≤ i := not_lt.1 hc
  have hn : simple_rte root i = none := by
    simp [simple_rte, List.getD_eq_getElem?_getD, List.getElem?_eq_none hle]
  rw [hn] at h
  exact absurd h (by simp)

theorem rel_with_own_rows {C : Type} (rel : RelOptInfo C) :
    { rel with rows := rel.rows } = rel := by
  cases rel
  rfl

theorem update_rel_rows_of_rel_qualifying {C : Type} [DecidableEq C] (host : Host C)
    (ctx : GraphOptState) (root : PlannerInfo) (rel : RelOptInfo C) (rte : RangeTblEntry)
    (S : List Oid) (p : PathNode C)
    (hsize : root.simple_rte_array.length ≤ root.simple_rel_array_size)
    (hb : rel.is_baserel = true) (hr : simple_rte root rel.relid = some rte)
    (h : prunes_with host ctx rte S) (hc : rel.cheapest_total_path = some p) :
    update_rel_rows_of_rel host ctx root rel = { rel with rows := p.path.rows } := by
  obtain ⟨h1, h2, h3, v, h4, h5, -⟩ := h
  have hlt : ¬ root.simple_rel_array_size ≤ rel.relid :=
    not_le.2 (lt_of_lt_of_le (simple_rte_lt root rel.relid rte hr) hsize)
  have hres : (if p.path.rows ≠ rel.rows then { rel with rows := p.path.rows } else rel) =
      { rel with rows := p.path.rows } := by
    by_cases he : p.path.rows = rel.rows
    · rw [if_neg (not_not.2 he), he, rel_with_own_rows]
    · rw [if_pos he]
  have h12 : ¬ (rte.rtekind ≠ RTEKind.RTE_RELATION ∨ rte.inh = false) := by
    simp [h1, h2]
  have hbf : ¬ (rel.is_baserel = false) := by simp [hb]
  have h5f : ¬ (graph_opt_has_inferred_entry ctx (some v) = false) := by simp [h5]
  unfold update_rel_rows_of_rel
  rw [if_neg hbf, if_neg hlt]
  simp only [hr]
  rw [if_neg h12]
  rcases h3 with h3 | h3
  · simp only [h3]
    rw [if_neg (by decide)]
    simp only [h4]
    rw [if_neg h5f]
    simp only [hc] at hres ⊢
    exact hres
  · simp only [h3]
    rw [if_neg (by decide)]
    simp only [h4]
    rw [if_neg h5f]
    simp only [hc] at hres ⊢
    exact hres

theorem update_rel_rows_of_rel_changed {C : Type} [DecidableEq C] (host : Host C)
    (ctx : GraphOptState) (root : PlannerInfo) (rel : RelOptInfo C)
    (hne : update_rel_rows_of_rel host ctx root rel ≠ rel) :
    rel.is_baserel = true ∧
    (∃ rte S, simple_rte root rel.relid = some rte ∧ prunes_with host ctx rte S) ∧
    rel.cheapest_total_path ≠ none := by
  unfold update_rel_rows_of_rel at hne
  cases hb : rel.is_baserel with
  | false => simp [hb] at hne
  | true =>
    by_cases hsz : root.simple_rel_array_size ≤ rel.relid
    · simp [hb, hsz] at hne
    · cases hr : simple_rte root rel.relid with
      | none => simp [hb, hsz, hr] at hne
      | some rte =>
        by_cases h1 : rte.rtekind ≠ RTEKind.RTE_RELATION ∨ rte.inh = false
        · simp only [hb, hsz, hr, h1, if_true, if_false, Bool.true_eq_false] at hne
          exact absurd rfl hne
        · cases hn : host.get_rel_name rte.relid with
          | none =>
            simp only [hb, hsz, hr, h1, hn, if_true, if_false, Bool.true_eq_false] at hne
            exact absurd rfl hne
          | some rel_name =>
            by_cases h2 : rel_name ≠ "_ag_label_vertex" ∧ rel_name ≠ "_ag_label_edge"
            · simp only [hb, hsz, hr, h1, hn, if_false, Bool.true_eq_false] at hne
              rw [if_pos h2] at hne
              exact absurd rfl hne
            · cases ha : rte.rte_alias with
              | none =>
                simp only [hb, hsz, hr, h1, hn, ha, if_false, Bool.true_eq_false] at hne
                rw [if_neg h2] at hne
                exact absurd rfl hne
              | some a =>
                obtain ⟨an⟩ := a
                cases an with
                | none =>
                  simp only [hb, hsz, hr, h1, hn, ha, if_false, Bool.true_eq_false] at hne
                  rw [if_neg h2] at hne
                  exact absurd rfl hne
                | some v =>
                  cases hh : graph_opt_has_inferred_entry ctx (some v) with
                  | false =>
                    simp only [hb, hsz, hr, h1, hn, ha, hh, if_false, if_true,
                      Bool.true_eq_false] at hne
                    rw [if_neg h2] at hne
                    exact absurd rfl hne
                  | true =>
                    cases hc : rel.cheapest_total_path with
                    | none =>
                      simp only [hb, hsz, hr, h1, hn, ha, hh, hc, if_false,
                        Bool.true_eq_false] at hne
                      rw [if_neg h2] at hne
                      exact absurd rfl hne
                    | some p =>
                      have hk : rte.rtekind = RTEKind.RTE_RELATION := by
                        by_contra hk
                        exact h1 (Or.inl hk)
                      have hi : rte.inh = true := by
                        cases hi : rte.inh with
                        | false => exact absurd (Or.inr hi) h1
                        | true => rfl
                      have hname : host.get_rel_name rte.relid = some "_ag_label_vertex" ∨
                          host.get_rel_name rte.relid = some "_ag_label_edge" := by
                        rw [hn]
                        by_cases hv : rel_name = "_ag_label_vertex"
                        · exact Or.inl (congrArg some hv)
                        · by_cases he : rel_name = "_ag_label_edge"
                          · exact Or.inr (congrArg some he)
                          · exact absurd ⟨hv, he⟩ h2
                      exact ⟨rfl, ⟨rte, graph_opt_get_inferred_labels ctx (some v), rfl,
                        hk, hi, hname, v, ha, hh, rfl⟩, by simp⟩

/-- C17. Let the range-table array have no more entries than `simple_rel_array_size`
(the host allocates it with exactly that many).  `update_rel_rows_after_filtering`
returns the relations of `initial_rels` in their order, each with every field but the
row estimate as before.  A base relation whose range-table entry is an inheritance
parent named `_ag_label_vertex` or `_ag_label_edge` with an alias that has an inference
entry, and that has a cheapest total path, gets that path's row estimate as its row
estimate; every other relation keeps its row estimate.  With `age_infer_labels` on,
`age_join_search` hands the relations so updated to the join search. -/
theorem rel_rows_after_filtering {C R : Type} [DecidableEq C] (host : Host C)
    (ctx : GraphOptState) (root : PlannerInfo) (initial_rels : List (RelOptInfo C))
    (standard_join_search : PlannerInfo → Nat → List (RelOptInfo C) → R)
    (levels_needed : Nat)
    (hsize : root.simple_rte_array.length ≤ root.simple_rel_array_size) :
    List.Forall₂
      (fun rel rel1 =>
        rel1 = { rel with rows := rel1.rows } ∧
        (∀ p, rel.is_baserel = true →
          (∃ rte S, simple_rte root rel.relid = some rte ∧ prunes_with host ctx rte S) →
          rel.cheapest_total_path = some p → rel1.rows = p.path.rows) ∧
        (¬ (rel.is_baserel = true ∧
            (∃ rte S, simple_rte root rel.relid = some rte ∧ prunes_with host ctx rte S) ∧
            rel.cheapest_total_path ≠ none) →
          rel1 = rel))
      initial_rels (update_rel_rows_after_filtering host ctx root initial_rels) ∧
    age_join_search host ctx true none standard_join_search root levels_needed initial_rels =
      standard_join_search root levels_needed
        (update_rel_rows_after_filtering host ctx root initial_rels) := by
  refine ⟨?_, rfl⟩
  unfold update_rel_rows_after_filtering
  rw [List.forall₂_map_right_iff, List.forall₂_same]
  intro rel _
  refine ⟨?_, ?_, ?_⟩
  · by_cases hne : update_rel_rows_of_rel host ctx root rel = rel
    · rw [hne, rel_with_own_rows]
    · obtain ⟨hb, ⟨rte, S, hr, h⟩, hc⟩ := update_rel_rows_of_rel_changed host ctx root rel hne
      obtain ⟨p, hp⟩ := Option.ne_none_iff_exists'.1 hc
      rw [update_rel_rows_of_rel_qualifying host ctx root rel rte S p hsize hb hr h hp]
  · rintro p hb ⟨rte, S, hr, h⟩ hp
    rw [update_rel_rows_of_rel_qualifying host ctx root rel rte S p hsize hb hr h hp]
  · intro hnq
    by_contra hne
    exact hnq (update_rel_rows_of_rel_changed host ctx root rel hne)

/-- Witness of C17: the root relation, estimated at 30 rows, has after the pruning
with the list `[6]` a cheapest path of 20 rows, and gets the estimate 20; the child
relation, whose entry is no inheritance parent, keeps its estimate of 50 rows although
its cheapest path has 10. -/
theorem rel_rows_after_filtering_witness :
    (ex_root.simple_rte_array.length ≤ ex_root.simple_rel_array_size ∧
      [ex_rel_pruned, ex_rel_child].map (fun r => r.rows) = [30, 50] ∧
      [ex_rel_pruned, ex_rel_child].map
          (fun r => r.cheapest_total_path.map (fun q => q.path.rows)) = [some 20, some 10] ∧
      (update_rel_rows_after_filtering ex_host (ex_ctx [6]) ex_root
          [ex_rel_pruned, ex_rel_child]).map (fun r => r.rows) = [20, 50]) ∧
    (List.Forall₂
      (fun rel rel1 =>
        rel1 = { rel with rows := rel1.rows } ∧
        (∀ p, rel.is_baserel = true →
          (∃ rte S, simple_rte ex_root rel.relid = some rte ∧
            prunes_with ex_host (ex_ctx [6]) rte S) →
          rel.cheapest_total_path = some p → rel1.rows = p.path.rows) ∧
        (¬ (rel.is_baserel = true ∧
            (∃ rte S, simple_rte ex_root rel.relid = some rte ∧
              prunes_with ex_host (ex_ctx [6]) rte S) ∧
            rel.cheapest_total_path ≠ none) →
          rel1 = rel))
      [ex_rel_pruned, ex_rel_child]
      (update_rel_rows_after_filtering ex_host (ex_ctx [6]) ex_root
        [ex_rel_pruned, ex_rel_child]) ∧
    age_join_search ex_host (ex_ctx [6]) true none (fun _ _ rels => rels) ex_root 2
        [ex_rel_pruned, ex_rel_child] =
      (fun _ _ rels => rels) ex_root 2
        (update_rel_rows_after_filtering ex_host (ex_ctx [6]) ex_root
          [ex_rel_pruned, ex_rel_child])) :=
  ⟨⟨by decide, by decide, by decide, by decide⟩,
    rel_rows_after_filtering ex_host (ex_ctx [6]) ex_root [ex_rel_pruned, ex_rel_child]
      (fun _ _ rels => rels) 2 (by decide)⟩

/-! ## Existence of an entry -/

theorem has_inferred_entry_iff (st : GraphOptState) (v : String) :
    graph_opt_has_inferred_entry st (some v) = true ↔
      some v ∈ st.inferred_label_entries.map (fun e => e.var_name) := by
  cases hf : find_inferred_entry_loop v st.inferred_label_entries with
  | none =>
    have hno := (find_loop_eq_none_iff v st.inferred_label_entries).1 hf
    simp only [graph_opt_has_inferred_entry, find_inferred_entry, hf, Option.isSome_none,
      Bool.false_eq_true, false_iff, List.mem_map, not_exists, not_and]
    exact fun e he => hno e he
  | some entry =>
    simp only [graph_opt_has_inferred_entry, find_inferred_entry, hf, Option.isSome_some,
      true_iff, List.mem_map]
    by_contra hc
    have hno : ∀ e ∈ st.inferred_label_entries, e.var_name ≠ some v := by
      intro e he hv
      exact hc ⟨e, he, hv⟩
    rw [(find_loop_eq_none_iff v st.inferred_label_entries).2 hno] at hf
    exact absurd hf (by simp)

theorem graph_opt_add_new_names (st : GraphOptState) (v : String) (ids : List Oid)
    (hv : v ≠ "") (hinv : st.inferred_label_entries ≠ [] → st.graph_opt_context = true)
    (hno : graph_opt_has_inferred_entry st (some v) = false) :
    (graph_opt_add_inferred_labels st (some v) ids).inferred_label_entries.map
        (fun e => e.var_name) =
      st.inferred_label_entries.map (fun e => e.var_name) ++ [some v] := by
  have hf : find_inferred_entry_loop v st.inferred_label_entries = none := by
    cases hf : find_inferred_entry_loop v st.inferred_label_entries with
    | none => rfl
    | some e => simp [graph_opt_has_inferred_entry, find_inferred_entry, hf] at hno
  cases hc : st.graph_opt_context with
  | true =>
    simp [graph_opt_add_inferred_labels, hv, hc, find_inferred_entry, hf, lappend]
  | false =>
    have hnil : st.inferred_label_entries = [] := by
      by_contra hne
      have := hinv hne
      rw [hc] at this
      exact absurd this (by decide)
    simp [graph_opt_add_inferred_labels, hv, hc, find_inferred_entry, graph_opt_context_init,
      find_inferred_entry_loop, lappend, hnil]

theorem graph_opt_add_old_names (st : GraphOptState) (v : String) (ids : List Oid)
    (hinv : st.inferred_label_entries ≠ [] → st.graph_opt_context = true)
    (hhas : graph_opt_has_inferred_entry st (some v) = true) :
    (graph_opt_add_inferred_labels st (some v) ids).inferred_label_entries.map
        (fun e => e.var_name) =
      st.inferred_label_entries.map (fun e => e.var_name) := by
  have hne : st.inferred_label_entries ≠ [] := by
    intro hnil
    simp [graph_opt_has_inferred_entry, find_inferred_entry, hnil,
      find_inferred_entry_loop] at hhas
  exact graph_opt_add_names st v ids (hinv hne) hhas

theorem graph_opt_call_registered (st : GraphOptState) (names : List String)
    (call : GraphOptCall)
    (hinv : st.inferred_label_entries ≠ [] → st.graph_opt_context = true)
    (h : ∀ v, some v ∈ st.inferred_label_entries.map (fun e => e.var_name) ↔ v ∈ names) :
    ∀ v, some v ∈ (graph_opt_call st call).inferred_label_entries.map (fun e => e.var_name) ↔
      v ∈ registered_step names call := by
  intro v
  cases call with
  | init => simp [graph_opt_call, graph_opt_context_init, registered_step]
  | cleanup =>
    cases hc : st.graph_opt_context with
    | true => simp [graph_opt_call, graph_opt_context_cleanup, hc, registered_step]
    | false =>
      have hnil : st.inferred_label_entries = [] := by
        by_contra hne
        have := hinv hne
        rw [hc] at this
        exact absurd this (by decide)
      simp [graph_opt_call, graph_opt_context_cleanup, hc, registered_step, hnil]
  | add var_name ids =>
    cases var_name with
    | none => simpa [graph_opt_call, graph_opt_add_inferred_labels, registered_step] using h v
    | some u =>
      by_cases hu : u = ""
      · simpa [graph_opt_call, graph_opt_add_inferred_labels, registered_step, hu] using h v
      · simp only [graph_opt_call, registered_step, hu, if_false]
        cases hhas : graph_opt_has_inferred_entry st (some u) with
        | true =>
          rw [graph_opt_add_old_names st u ids hinv hhas]
          have hmem : u ∈ names := (h u).1 ((has_inferred_entry_iff st u).1 hhas)
          rw [h v]
          simp only [List.mem_append, List.mem_singleton]
          constructor
          · exact Or.inl
          · rintro (hx | hx)
            · exact hx
            · exact hx ▸ hmem
        | false =>
          rw [graph_opt_add_new_names st u ids hu hinv hhas]
          simp only [List.mem_append, List.mem_singleton, Option.some.injEq]
          rw [h v]

theorem graph_opt_calls_registered (calls : List GraphOptCall) (st : GraphOptState)
    (names : List String)
    (hinv : st.inferred_label_entries ≠ [] → st.graph_opt_context = true)
    (h : ∀ v, some v ∈ st.inferred_label_entries.map (fun e => e.var_name) ↔ v ∈ names) :
    ∀ v, some v ∈ (graph_opt_calls st calls).inferred_label_entries.map
        (fun e => e.var_name) ↔ v ∈ calls.foldl registered_step names := by
  induction calls generalizing st names with
  | nil => exact h
  | cons c cs ih =>
    exact ih (graph_opt_call st c) (registered_step names c)
      (graph_opt_call_context st c hinv) (graph_opt_call_registered st names c hinv h)

theorem graph_opt_calls_append (st : GraphOptState) (calls more : List GraphOptCall) :
    graph_opt_calls st (calls ++ more) = graph_opt_calls (graph_opt_calls st calls) more := by
  induction calls generalizing st with
  | nil => rfl
  | cons c cs ih => exact ih (graph_opt_call st c)

theorem has_false_of_no_entries (st : GraphOptState) (w : Option String)
    (h : st.inferred_label_entries = []) : graph_opt_has_inferred_entry st w = false := by
  cases w with
  | none => rfl
  | some v =>
    simp [graph_opt_has_inferred_entry, find_inferred_entry, h, find_inferred_entry_loop]

theorem empty_name_not_registered (calls : List GraphOptCall) (names : List String)
    (hn : "" ∉ names) : "" ∉ calls.foldl registered_step names := by
  induction calls generalizing names with
  | nil => exact hn
  | cons c rest ih =>
    apply ih
    cases c with
    | init => simp [registered_step]
    | cleanup => simp [registered_step]
    | add var_name ids =>
      cases var_name with
      | none => simpa [registered_step] using hn
      | some u =>
        by_cases hu : u = ""
        · simpa [registered_step, hu] using hn
        · simp only [registered_step, hu, if_false, List.mem_append, List.mem_singleton,
            not_or]
          exact ⟨hn, fun h => hu h.symm⟩

theorem reachable_context (calls : List GraphOptCall) :
    (graph_opt_calls GraphOptState.initial calls).inferred_label_entries ≠ [] →
      (graph_opt_calls GraphOptState.initial calls).graph_opt_context = true :=
  graph_opt_calls_context calls GraphOptState.initial (fun hne => absurd rfl hne)

theorem reachable_no_empty_name (calls : List GraphOptCall) :
    graph_opt_has_inferred_entry (graph_opt_calls GraphOptState.initial calls) (some "") =
      false := by
  have hreg := graph_opt_calls_registered calls GraphOptState.initial []
    (fun hne => absurd rfl hne) (fun v => by simp [GraphOptState.initial])
  cases hh : graph_opt_has_inferred_entry (graph_opt_calls GraphOptState.initial calls)
      (some "") with
  | false => rfl
  | true =>
    have := (hreg "").1 ((has_inferred_entry_iff _ "").1 hh)
    exact absurd this (empty_name_not_registered calls [] (by simp))

/-- C21. For every sequence of `graph_opt_context_init`, `graph_opt_context_cleanup` and
`graph_opt_add_inferred_labels` calls made from the state at backend start, and every
variable name `v`: `graph_opt_has_inferred_entry(v)` is true exactly when the calls
after the last init or cleanup of the sequence include a registration under the name
`v` and `v` is not empty, whatever lists were registered; for the absent name (`NULL`)
it is false; and immediately after an init or a cleanup it is false for every name. -/
theorem has_entry_iff_registered (calls : List GraphOptCall) (v : String) :
    (graph_opt_has_inferred_entry (graph_opt_calls GraphOptState.initial calls) (some v) = true ↔
      v ∈ registered_since_reset calls) ∧
    (v ∈ registered_since_reset calls → v ≠ "") ∧
    graph_opt_has_inferred_entry (graph_opt_calls GraphOptState.initial calls) none = false ∧
    (∀ w, graph_opt_has_inferred_entry
      (graph_opt_calls GraphOptState.initial (calls ++ [GraphOptCall.init])) w = false) ∧
    (∀ w, graph_opt_has_inferred_entry
      (graph_opt_calls GraphOptState.initial (calls ++ [GraphOptCall.cleanup])) w = false) := by
  have hinv0 : GraphOptState.initial.inferred_label_entries ≠ [] →
      GraphOptState.initial.graph_opt_context = true := fun hne => absurd rfl hne
  have h0 : ∀ v, some v ∈ GraphOptState.initial.inferred_label_entries.map
      (fun e => e.var_name) ↔ v ∈ ([] : List String) := by
    intro v
    simp [GraphOptState.initial]
  have hreg := graph_opt_calls_registered calls GraphOptState.initial [] hinv0 h0
  have hinv := graph_opt_calls_context calls GraphOptState.initial hinv0
  refine ⟨?_, ?_, rfl, ?_, ?_⟩
  · rw [has_inferred_entry_iff]
    exact hreg v
  · intro hmem hv
    subst hv
    exact empty_name_not_registered calls [] (by simp) hmem
  · intro w
    rw [graph_opt_calls_append]
    exact has_false_of_no_entries _ w rfl
  · intro w
    rw [graph_opt_calls_append]
    apply has_false_of_no_entries
    simp only [graph_opt_calls, graph_opt_call, graph_opt_context_cleanup]
    split
    · rfl
    · rename_i hc
      by_contra hne
      exact hc (hinv hne)

/-- Witness of C21: `m` is registered, the context is cleaned up, and `n` is registered
with `[5]` and then with `[6]`, which leaves it the empty list; the entry of `n` exists,
that of `m` does not, and the empty name, registered last, has none. -/
theorem has_entry_iff_registered_witness :
    registered_since_reset
        [GraphOptCall.add (some "m") [5], GraphOptCall.cleanup,
         GraphOptCall.add (some "n") [5], GraphOptCall.add (some "n") [6],
         GraphOptCall.add (some "") [7]] = ["n", "n"] ∧
    graph_opt_get_inferred_labels
        (graph_opt_calls GraphOptState.initial
          [GraphOptCall.add (some "m") [5], GraphOptCall.cleanup,
           GraphOptCall.add (some "n") [5], GraphOptCall.add (some "n") [6],
           GraphOptCall.add (some "") [7]]) (some "n") = [] ∧
    graph_opt_has_inferred_entry
        (graph_opt_calls GraphOptState.initial
          [GraphOptCall.add (some "m") [5], GraphOptCall.cleanup,
           GraphOptCall.add (some "n") [5], GraphOptCall.add (some "n") [6],
           GraphOptCall.add (some "") [7]]) (some "n") = true ∧
    graph_opt_has_inferred_entry
        (graph_opt_calls GraphOptState.initial
          [GraphOptCall.add (some "m") [5], GraphOptCall.cleanup,
           GraphOptCall.add (some "n") [5], GraphOptCall.add (some "n") [6],
           GraphOptCall.add (some "") [7]]) (some "m") = false ∧
    (graph_opt_has_inferred_entry
        (graph_opt_calls GraphOptState.initial
          [GraphOptCall.add (some "m") [5], GraphOptCall.cleanup,
           GraphOptCall.add (some "n") [5], GraphOptCall.add (some "n") [6],
           GraphOptCall.add (some "") [7]]) (some "n") = true ↔
      "n" ∈ registered_since_reset
        [GraphOptCall.add (some "m") [5], GraphOptCall.cleanup,
         GraphOptCall.add (some "n") [5], GraphOptCall.add (some "n") [6],
         GraphOptCall.add (some "") [7]]) :=
  ⟨by decide, by decide, by decide, by decide,
    (has_entry_iff_registered
      [GraphOptCall.add (some "m") [5], GraphOptCall.cleanup,
       GraphOptCall.add (some "n") [5], GraphOptCall.add (some "n") [6],
       GraphOptCall.add (some "") [7]] "n").1⟩

/-! ## Registrations without a name, and the entries of other names -/

/-- C22. `graph_opt_add_inferred_labels` called with an absent (`NULL`) or empty variable
name is a no-op: for every state and every list of OIDs the state after the call is the
state before it, so that the entry list and every entry's label list are the same and
every name has the same entry or none as before; and in every state that calls of the
interface reach from the state at backend start, also right after a registration under
the empty name, the empty name has no entry. -/
theorem add_anonymous_is_noop (st : GraphOptState) (label_relids : List Oid)
    (calls : List GraphOptCall) :
    graph_opt_add_inferred_labels st none label_relids = st ∧
    graph_opt_add_inferred_labels st (some "") label_relids = st ∧
    (graph_opt_add_inferred_labels st none label_relids).inferred_label_entries =
      st.inferred_label_entries ∧
    (graph_opt_add_inferred_labels st (some "") label_relids).inferred_label_entries =
      st.inferred_label_entries ∧
    (∀ w, graph_opt_get_inferred_labels
        (graph_opt_add_inferred_labels st (some "") label_relids) w =
          graph_opt_get_inferred_labels st w ∧
      graph_opt_has_inferred_entry
        (graph_opt_add_inferred_labels st (some "") label_relids) w =
          graph_opt_has_inferred_entry st w) ∧
    graph_opt_has_inferred_entry
      (graph_opt_calls GraphOptState.initial
        (calls ++ [GraphOptCall.add (some "") label_relids])) (some "") = false := by
  have h2 : graph_opt_add_inferred_labels st (some "") label_relids = st := by
    simp [graph_opt_add_inferred_labels]
  refine ⟨rfl, h2, rfl, by rw [h2], fun w => by rw [h2]; exact ⟨rfl, rfl⟩, ?_⟩
  exact reachable_no_empty_name _

theorem entry_matches_of_matches_other (v w : String) (hne : w ≠ v) (e : InferredLabelEntry)
    (h : entry_matches v e = true) : entry_matches w e = false := by
  unfold entry_matches at *
  cases hn : e.var_name with
  | none => rfl
  | some n =>
    simp only [hn, beq_iff_eq] at h
    simp only [beq_eq_false_iff_ne, ne_eq]
    rw [h]
    exact fun hvw => hne hvw.symm

theorem find_loop_update_other (v w : String) (hne : w ≠ v) (B : List Oid)
    (l : List InferredLabelEntry) :
    find_inferred_entry_loop w (update_found_entry v B l) = find_inferred_entry_loop w l := by
  induction l with
  | nil => rfl
  | cons x xs ih =>
    unfold update_found_entry
    cases hm : entry_matches v x with
    | true =>
      have h1 := entry_matches_of_matches_other v w hne x hm
      have h2 : entry_matches w
          { x with child_relids := intersect_loop B [] x.child_relids } = false := h1
      simp only [if_true, find_inferred_entry_loop, h1, h2, Bool.false_eq_true, if_false]
    | false =>
      simp only [Bool.false_eq_true, if_false, find_inferred_entry_loop, ih]

theorem find_loop_append_other (w : String) (l : List InferredLabelEntry)
    (e : InferredLabelEntry) (h : entry_matches w e = false) :
    find_inferred_entry_loop w (l ++ [e]) = find_inferred_entry_loop w l := by
  induction l with
  | nil => simp [find_inferred_entry_loop, h]
  | cons x xs ih =>
    show find_inferred_entry_loop w (x :: (xs ++ [e])) = find_inferred_entry_loop w (x :: xs)
    unfold find_inferred_entry_loop
    rw [ih]

theorem graph_opt_add_find_other (st : GraphOptState) (v w : String) (hne : w ≠ v)
    (L : List Oid) (hinv : st.inferred_label_entries ≠ [] → st.graph_opt_context = true) :
    find_inferred_entry (graph_opt_add_inferred_labels st (some v) L) (some w) =
      find_inferred_entry st (some w) := by
  by_cases hv : v = ""
  · simp [graph_opt_add_inferred_labels, hv]
  · have hnew : entry_matches w { var_name := some v, child_relids := L } = false := by
      simp only [entry_matches, beq_eq_false_iff_ne, ne_eq]
      exact fun hvw => hne hvw.symm
    cases hc : st.graph_opt_context with
    | true =>
      cases hf : find_inferred_entry_loop v st.inferred_label_entries with
      | none =>
        simp only [graph_opt_add_inferred_labels, hv, if_false, hc, if_true,
          find_inferred_entry, hf, lappend]
        exact find_loop_append_other w _ _ hnew
      | some entry =>
        simp only [graph_opt_add_inferred_labels, hv, if_false, hc, if_true,
          find_inferred_entry, hf]
        exact find_loop_update_other v w hne L _
    | false =>
      have hnil : st.inferred_label_entries = [] := by
        by_contra hne'
        have := hinv hne'
        rw [hc] at this
        exact absurd this (by decide)
      simp only [graph_opt_add_inferred_labels, hv, if_false, hc, Bool.false_eq_true,
        find_inferred_entry, graph_opt_context_init, find_inferred_entry_loop, lappend,
        List.nil_append, hnil, hnew]

/-- C30. In every state that calls of the interface reach from the state at backend
start, `graph_opt_add_inferred_labels(v, L)` affects the entry of `v` only: for every
name `w` different from `v` (either of them may be absent), both
`graph_opt_has_inferred_entry(w)` and `graph_opt_get_inferred_labels(w)` return after
the call what they returned before it. -/
theorem add_affects_only_its_entry (calls : List GraphOptCall) (v w : Option String)
    (L : List Oid) (hne : w ≠ v) :
    graph_opt_has_inferred_entry
        (graph_opt_add_inferred_labels (graph_opt_calls GraphOptState.initial calls) v L) w =
      graph_opt_has_inferred_entry (graph_opt_calls GraphOptState.initial calls) w ∧
    graph_opt_get_inferred_labels
        (graph_opt_add_inferred_labels (graph_opt_calls GraphOptState.initial calls) v L) w =
      graph_opt_get_inferred_labels (graph_opt_calls GraphOptState.initial calls) w := by
  have hinv := reachable_context calls
  generalize graph_opt_calls GraphOptState.initial calls = st at hinv
  cases w with
  | none => exact ⟨rfl, rfl⟩
  | some w =>
    cases v with
    | none => exact ⟨rfl, rfl⟩
    | some v =>
      have hvw : w ≠ v := fun h => hne (congrArg some h)
      have hfind := graph_opt_add_find_other st v w hvw L hinv
      simp only [graph_opt_has_inferred_entry, graph_opt_get_inferred_labels, hfind, and_self]

/-- Witness of C30: with `n` registered with `[5, 6]` and `m` with `[7]`, a further
registration of `n` with `[6]` narrows `n` to `[6]` and leaves `m` its list `[7]`. -/
theorem add_affects_only_its_entry_witness :
    ((some "m" : Option String) ≠ some "n" ∧
      graph_opt_get_inferred_labels
        (graph_opt_add_inferred_labels
          (graph_opt_calls GraphOptState.initial
            [GraphOptCall.add (some "n") [5, 6], GraphOptCall.add (some "m") [7]])
          (some "n") [6]) (some "n") = [6] ∧
      graph_opt_get_inferred_labels
        (graph_opt_add_inferred_labels
          (graph_opt_calls GraphOptState.initial
            [GraphOptCall.add (some "n") [5, 6], GraphOptCall.add (some "m") [7]])
          (some "n") [6]) (some "m") = [7]) ∧
    graph_opt_has_inferred_entry
        (graph_opt_add_inferred_labels
          (graph_opt_calls GraphOptState.initial
            [GraphOptCall.add (some "n") [5, 6], GraphOptCall.add (some "m") [7]])
          (some "n") [6]) (some "m") =
      graph_opt_has_inferred_entry
        (graph_opt_calls GraphOptState.initial
          [GraphOptCall.add (some "n") [5, 6], GraphOptCall.add (some "m") [7]]) (some "m") ∧
    graph_opt_get_inferred_labels
        (graph_opt_add_inferred_labels
          (graph_opt_calls GraphOptState.initial
            [GraphOptCall.add (some "n") [5, 6], GraphOptCall.add (some "m") [7]])
          (some "n") [6]) (some "m") =
      graph_opt_get_inferred_labels
        (graph_opt_calls GraphOptState.initial
          [GraphOptCall.add (some "n") [5, 6], GraphOptCall.add (some "m") [7]]) (some "m") :=
  ⟨⟨by decide, by decide, by decide⟩,
    add_affects_only_its_entry
      [GraphOptCall.add (some "n") [5, 6], GraphOptCall.add (some "m") [7]]
      (some "n") (some "m") [6] (by decide)⟩

/-! ## Cheapest-path bookkeeping after the pruning -/

/-- C23 (the code at the failing input). The relation aliased `n` has an Append in its
pathlist and no cheapest path recorded yet.  With the empty list registered for `n` the
call rewrites the Append to a childless plan of zero rows and cost and returns with the
cheapest path still unset, where `set_cheapest` on the rewritten lists records the
rewritten Append; with the list `[6]` registered instead, the call ends in
`set_cheapest` and records the reduced Append. -/
theorem empty_entry_returns_without_set_cheapest :
    prunes_with ex_host (ex_ctx []) ex_rte [] ∧
    ex_rel_fresh.pathlist = [ex_append] ∧
    (filter_append_paths_for_inferred_labels ex_host (ex_ctx []) ex_root ex_rel_fresh
      ex_rte).pathlist = [ex_append_zeroed] ∧
    (filter_append_paths_for_inferred_labels ex_host (ex_ctx []) ex_root ex_rel_fresh
      ex_rte).cheapest_total_path = none ∧
    (set_cheapest ex_host
      (filter_append_paths_for_inferred_labels ex_host (ex_ctx []) ex_root ex_rel_fresh
        ex_rte)).cheapest_total_path = some ex_append_zeroed ∧
    filter_append_paths_for_inferred_labels ex_host (ex_ctx []) ex_root ex_rel_fresh ex_rte ≠
      set_cheapest ex_host
        (filter_append_paths_for_inferred_labels ex_host (ex_ctx []) ex_root ex_rel_fresh
          ex_rte) ∧
    prunes_with ex_host (ex_ctx [6]) ex_rte [6] ∧
    (filter_append_paths_for_inferred_labels ex_host (ex_ctx [6]) ex_root ex_rel_fresh
      ex_rte).cheapest_total_path =
      ex_host.cheapest_total
        (filter_append_paths_for_inferred_labels ex_host (ex_ctx [6]) ex_root ex_rel_fresh
          ex_rte).pathlist ∧
    ((filter_append_paths_for_inferred_labels ex_host (ex_ctx [6]) ex_root ex_rel_fresh
      ex_rte).cheapest_total_path.map (fun q => q.subpaths)) = some [ex_scan 3 20 2 40] :=
  ⟨ex_prunes_with [], rfl, by decide, by decide, by decide, by decide, ex_prunes_with [6],
    by decide, by decide⟩

/-! ## Idempotence of the pruning -/

theorem empty_pathlist_node_idem {C : Type} [Zero C] (p : PathNode C) :
    empty_pathlist_node (empty_pathlist_node p) = empty_pathlist_node p := by
  obtain ⟨⟨type, parent_relid, pathkeys, rows, startup_cost, total_cost⟩, subpaths⟩ := p
  cases type <;> rfl

theorem empty_partial_node_idem {C : Type} [Zero C] (p : PathNode C) :
    empty_partial_node (empty_partial_node p) = empty_partial_node p := by
  obtain ⟨⟨type, parent_relid, pathkeys, rows, startup_cost, total_cost⟩, subpaths⟩ := p
  cases type <;> rfl

theorem all_allowed_of_retained {C : Type} (root : PlannerInfo) (S : List Oid)
    (p q : PathNode C) (h : q.subpaths = retained root S p) :
    ∀ c ∈ q.subpaths, child_allowed root S c = true := by
  intro c hc
  rw [h] at hc
  exact (List.mem_filter.1 hc).2

theorem filter_pathlist_node_of_not_union {C : Type} [Zero C] [Add C] (root : PlannerInfo)
    (S : List Oid) (p : PathNode C) (ht : p.path.type = NodeTag.T_Path) :
    filter_pathlist_node root S p = p := by
  unfold filter_pathlist_node
  simp only [ht]

theorem filter_partial_node_of_not_union {C : Type} [Zero C] [Add C] (root : PlannerInfo)
    (S : List Oid) (p : PathNode C) (ht : p.path.type = NodeTag.T_Path) :
    filter_partial_node root S p = p := by
  unfold filter_partial_node
  simp only [ht]

theorem filter_pathlist_node_of_not_reduced {C : Type} [Zero C] [Add C] (root : PlannerInfo)
    (S : List Oid) (p : PathNode C)
    (hred : ¬ (0 < (retained root S p).length ∧
      (retained root S p).length < p.subpaths.length)) :
    filter_pathlist_node root S p = p := by
  unfold filter_pathlist_node
  split
  · simp only [append_filter_init, hred, if_false]
  · simp only [merge_filter_init, hred, if_false]
  · rfl

theorem filter_partial_node_of_not_reduced {C : Type} [Zero C] [Add C] (root : PlannerInfo)
    (S : List Oid) (p : PathNode C)
    (hred : ¬ (0 < (retained root S p).length ∧
      (retained root S p).length < p.subpaths.length)) :
    filter_partial_node root S p = p := by
  unfold filter_partial_node
  split
  · simp only [append_filter_init, hred, if_false]
  · simp only [merge_filter_init, hred, if_false]
  · rfl

theorem is_union_of_not_path {C : Type} (p : PathNode C) (ht : p.path.type ≠ NodeTag.T_Path) :
    is_union_plan p := by
  unfold is_union_plan
  cases h : p.path.type with
  | T_Path => exact absurd h ht
  | T_AppendPath => exact Or.inl rfl
  | T_MergeAppendPath => exact Or.inr rfl

theorem filter_pathlist_node_idem {C : Type} [Zero C] [Add C] (root : PlannerInfo)
    (S : List Oid) (p : PathNode C) :
    filter_pathlist_node root S (filter_pathlist_node root S p) =
      filter_pathlist_node root S p := by
  by_cases ht : p.path.type = NodeTag.T_Path
  · rw [filter_pathlist_node_of_not_union root S p ht,
      filter_pathlist_node_of_not_union root S p ht]
  · by_cases hred :
        0 < (retained root S p).length ∧ (retained root S p).length < p.subpaths.length
    · apply filter_pathlist_node_of_all
      apply all_allowed_of_retained root S p
      rw [filter_pathlist_node_subpaths root S p (is_union_of_not_path p ht)]
      simp only [hred, and_self, if_true]
    · rw [filter_pathlist_node_of_not_reduced root S p hred,
        filter_pathlist_node_of_not_reduced root S p hred]

theorem filter_partial_node_idem {C : Type} [Zero C] [Add C] (root : PlannerInfo)
    (S : List Oid) (p : PathNode C) :
    filter_partial_node root S (filter_partial_node root S p) =
      filter_partial_node root S p := by
  by_cases ht : p.path.type = NodeTag.T_Path
  · rw [filter_partial_node_of_not_union root S p ht,
      filter_partial_node_of_not_union root S p ht]
  · by_cases hred :
        0 < (retained root S p).length ∧ (retained root S p).length < p.subpaths.length
    · apply filter_partial_node_of_all
      apply all_allowed_of_retained root S p
      rw [filter_partial_node_subpaths root S p (is_union_of_not_path p ht)]
      simp only [hred, and_self, if_true]
    · rw [filter_partial_node_of_not_reduced root S p hred,
        filter_partial_node_of_not_reduced root S p hred]

/-- Either the call returns every relation as it is, or the entry of the relation is that
of a polymorphic storage root whose alias has an inference entry. -/
theorem filter_returns_or_prunes {C : Type} [Zero C] [Add C] (host : Host C)
    (ctx : GraphOptState) (root : PlannerInfo) (rte : RangeTblEntry) :
    (∀ rel : RelOptInfo C, filter_append_paths_for_inferred_labels host ctx root rel rte = rel) ∨
    ∃ S, prunes_with host ctx rte S := by
  by_cases h1 : rte.rtekind ≠ RTEKind.RTE_RELATION ∨ rte.inh = false
  · left
    intro rel
    exact filter_of_not_root host ctx root rel rte (by
      rcases h1 with h | h
      · exact Or.inl h
      · exact Or.inr (Or.inl h))
  · have hk : rte.rtekind = RTEKind.RTE_RELATION := by
      by_contra hk
      exact h1 (Or.inl hk)
    have hi : rte.inh = true := by
      cases hi : rte.inh with
      | false => exact absurd (Or.inr hi) h1
      | true => rfl
    by_cases h2 : host.get_rel_name rte.relid ≠ some "_ag_label_vertex" ∧
        host.get_rel_name rte.relid ≠ some "_ag_label_edge"
    · left
      intro rel
      exact filter_of_not_root host ctx root rel rte (Or.inr (Or.inr (Or.inl h2)))
    · have hname : host.get_rel_name rte.relid = some "_ag_label_vertex" ∨
          host.get_rel_name rte.relid = some "_ag_label_edge" := by
        by_cases hv : host.get_rel_name rte.relid = some "_ag_label_vertex"
        · exact Or.inl hv
        · by_cases he : host.get_rel_name rte.relid = some "_ag_label_edge"
          · exact Or.inr he
          · exact absurd ⟨hv, he⟩ h2
      cases ha : rte.rte_alias with
      | none =>
        left
        intro rel
        exact filter_of_not_root host ctx root rel rte (Or.inr (Or.inr (Or.inr (Or.inl ha))))
      | some a =>
        obtain ⟨an⟩ := a
        cases an with
        | none =>
          left
          intro rel
          exact filter_of_not_root host ctx root rel rte
            (Or.inr (Or.inr (Or.inr (Or.inr ha))))
        | some v =>
          cases hh : graph_opt_has_inferred_entry ctx (some v) with
          | true =>
            right
            exact ⟨_, hk, hi, hname, v, ha, hh, rfl⟩
          | false =>
            left
            intro rel
            unfold filter_append_paths_for_inferred_labels
            rw [if_neg h1]
            rcases hname with hn | hn
            · simp only [hn, ha, hh]
              rw [if_neg (by decide)]
              simp
            · simp only [hn, ha, hh]
              rw [if_neg (by decide)]
              simp

/-- C29. `filter_append_paths_for_inferred_labels` is idempotent: for every host,
inference context, range table, relation and range-table entry, the relation that a
second call returns for the relation returned by a first call is that relation itself,
with the same plans in both path lists, each with the same children in the same order,
the same row estimate and the same startup and total cost. -/
theorem pruning_idempotent {C : Type} [Zero C] [Add C] (host : Host C) (ctx : GraphOptState)
    (root : PlannerInfo) (rel : RelOptInfo C) (rte : RangeTblEntry) :
    filter_append_paths_for_inferred_labels host ctx root
        (filter_append_paths_for_inferred_labels host ctx root rel rte) rte =
      filter_append_paths_for_inferred_labels host ctx root rel rte := by
  rcases filter_returns_or_prunes host ctx root rte with h | ⟨S, h⟩
  · rw [h rel, h rel]
  · by_cases hS : S = []
    · subst hS
      rw [filter_of_empty host ctx root rel rte h, filter_of_empty host ctx root _ rte h]
      simp only [List.map_map]
      congr 1
      · exact List.map_congr_left (fun p _ => empty_pathlist_node_idem p)
      · exact List.map_congr_left (fun p _ => empty_partial_node_idem p)
    · rw [filter_of_nonempty host ctx root rel rte S h hS,
        filter_of_nonempty host ctx root _ rte S h hS]
      simp only [set_cheapest, List.map_map]
      have h1 : rel.pathlist.map
          (filter_pathlist_node root S ∘ filter_pathlist_node root S) =
          rel.pathlist.map (filter_pathlist_node root S) :=
        List.map_congr_left (fun p _ => filter_pathlist_node_idem root S p)
      have h2 : rel.partial_pathlist.map
          (filter_partial_node root S ∘ filter_partial_node root S) =
          rel.partial_pathlist.map (filter_partial_node root S) :=
        List.map_congr_left (fun p _ => filter_partial_node_idem root S p)
      rw [h1, h2]

/-! ## The fill paths under invalidation -/

theorem hash_enter_of_absent {K V : Type} [DecidableEq K] (t : HTAB K V) (key : K) (data : V)
    (h : hash_find t key = none) : hash_enter t key data = t ++ [(key, data)] := by
  induction t with
  | nil => rfl
  | cons x xs ih =>
    unfold hash_find at h
    by_cases hk : x.1 = key
    · simp [hk] at h
    · simp only [hk, if_false] at h
      unfold hash_enter
      simp only [hk, if_false, ih h, List.cons_append]

theorem filter_key_of_absent {K V : Type} [DecidableEq K] (t : HTAB K V) (key : K)
    (h : hash_find t key = none) : t.filter (fun e => decide (e.1 = key)) = [] := by
  rw [List.filter_eq_nil_iff]
  intro e he
  simpa using (hash_find_eq_none_iff t key).1 h e he

theorem filled_of_unchanged {K V : Type} [DecidableEq K] (t : HTAB K V) (key : K)
    (h : hash_find t key = none) : filled_without_duplicate t t key :=
  ⟨h, Or.inl rfl, by rw [filter_key_of_absent t key h]; exact Nat.zero_le _⟩

theorem filled_of_appended {K V : Type} [DecidableEq K] (t : HTAB K V) (key : K) (e : K × V)
    (h : hash_find t key = none) : filled_without_duplicate t (t ++ [e]) key := by
  refine ⟨h, Or.inr ⟨e, rfl⟩, ?_⟩
  rw [List.filter_append, filter_key_of_absent t key h, List.nil_append]
  exact (List.length_filter_le _ _).trans (by simp)

theorem enter_tuple_fill {K V : Type} [DecidableEq K] (t : HTAB K V) (key : K)
    (tuple : Option V) (h : hash_find t key = none) :
    ∃ t', enter_tuple t key tuple = Except.ok (tuple, t') ∧
      filled_without_duplicate t t' key := by
  cases tuple with
  | none => exact ⟨t, rfl, filled_of_unchanged t key h⟩
  | some d =>
    refine ⟨t ++ [(key, d)], ?_, filled_of_appended t key _ h⟩
    simp [enter_tuple, h, hash_enter_of_absent t key d h]

theorem enter_data_fill {K V : Type} [DecidableEq K] (t : HTAB K V) (key : K) (data : V)
    (h : hash_find t key = none) :
    ∃ t', enter_data t key data = Except.ok (data, t') ∧
      filled_without_duplicate t t' key := by
  refine ⟨t ++ [(key, data)], ?_, filled_of_appended t key _ h⟩
  simp [enter_data, h, hash_enter_of_absent t key data h]

/-- C24. In each of the nine fill paths (`search_*_cache_miss`), whatever invalidation
messages, flushes among them, are delivered when the catalog table is opened: if the
key was absent at the lookup that precedes the fill path, the messages are delivered
without error, the key is absent from the table that they leave, the fill path
succeeds (its `Assert(!found)` does not fail), and it inserts no key twice: it adds at
most one entry, behind the entries that the messages left, and the table holds at most
one entry under the key afterwards. -/
theorem fill_paths_tolerate_invalidation (st : AgState) (msgs : List InvalMsg)
    (name : Name) (namespace_oid graph relation : Oid) (id : Int) :
    (hash_find st.cache.graph_name_cache_hash name = none →
      ∃ c res st', AcceptInvalidationMessages st.cache msgs = Except.ok c ∧
        search_graph_name_cache_miss st msgs name = Except.ok (res, st') ∧
        filled_without_duplicate c.graph_name_cache_hash st'.cache.graph_name_cache_hash
          name) ∧
    (hash_find st.cache.graph_namespace_cache_hash namespace_oid = none →
      ∃ c res st', AcceptInvalidationMessages st.cache msgs = Except.ok c ∧
        search_graph_namespace_cache_miss st msgs namespace_oid = Except.ok (res, st') ∧
        filled_without_duplicate c.graph_namespace_cache_hash
          st'.cache.graph_namespace_cache_hash namespace_oid) ∧
    (hash_find st.cache.label_name_graph_cache_hash (label_name_graph_key name graph) = none →
      ∃ c res st', AcceptInvalidationMessages st.cache msgs = Except.ok c ∧
        search_label_name_graph_cache_miss st msgs name graph = Except.ok (res, st') ∧
        filled_without_duplicate c.label_name_graph_cache_hash
          st'.cache.label_name_graph_cache_hash (label_name_graph_key name graph)) ∧
    (hash_find st.cache.label_graph_oid_cache_hash (label_graph_oid_key graph id) = none →
      ∃ c res st', AcceptInvalidationMessages st.cache msgs = Except.ok c ∧
        search_label_graph_oid_cache_miss st msgs graph id = Except.ok (res, st') ∧
        filled_without_duplicate c.label_graph_oid_cache_hash
          st'.cache.label_graph_oid_cache_hash (label_graph_oid_key graph id)) ∧
    (hash_find st.cache.label_relation_cache_hash relation = none →
      ∃ c res st', AcceptInvalidationMessages st.cache msgs = Except.ok c ∧
        search_label_relation_cache_miss st msgs relation = Except.ok (res, st') ∧
        filled_without_duplicate c.label_relation_cache_hash
          st'.cache.label_relation_cache_hash relation) ∧
    (hash_find st.cache.label_seq_name_graph_cache_hash
        (label_seq_name_graph_key name graph) = none →
      ∃ c res st', AcceptInvalidationMessages st.cache msgs = Except.ok c ∧
        search_label_seq_name_graph_cache_miss st msgs name graph = Except.ok (res, st') ∧
        filled_without_duplicate c.label_seq_name_graph_cache_hash
          st'.cache.label_seq_name_graph_cache_hash (label_seq_name_graph_key name graph)) ∧
    (hash_find st.cache.edge_schema_cache_hash { graph := graph, edge_label_id := id } = none →
      ∃ c res st', AcceptInvalidationMessages st.cache msgs = Except.ok c ∧
        search_edge_schema_cache_miss st msgs graph id = Except.ok (res, st') ∧
        filled_without_duplicate c.edge_schema_cache_hash st'.cache.edge_schema_cache_hash
          { graph := graph, edge_label_id := id }) ∧
    (hash_find st.cache.start_vertex_end_labels_cache_hash
        { graph := graph, vertex_label_id := id } = none →
      ∃ c res st', AcceptInvalidationMessages st.cache msgs = Except.ok c ∧
        search_start_vertex_end_labels_cache_miss st msgs graph id = Except.ok (res, st') ∧
        filled_without_duplicate c.start_vertex_end_labels_cache_hash
          st'.cache.start_vertex_end_labels_cache_hash
          { graph := graph, vertex_label_id := id }) ∧
    (hash_find st.cache.end_vertex_start_labels_cache_hash
        { graph := graph, vertex_label_id := id } = none →
      ∃ c res st', AcceptInvalidationMessages st.cache msgs = Except.ok c ∧
        search_end_vertex_start_labels_cache_miss st msgs graph id = Except.ok (res, st') ∧
        filled_without_duplicate c.end_vertex_start_labels_cache_hash
          st'.cache.end_vertex_start_labels_cache_hash
          { graph := graph, vertex_label_id := id }) := by
  obtain ⟨c, hacc, hsub⟩ := accept_invalidation_sub st.cache msgs
  refine ⟨?_, ?_, ?_, ?_, ?_, ?_, ?_, ?_, ?_⟩
  · intro hf
    have hnone := hash_find_none_of_sub _ _ _ hsub.graph_name hf
    obtain ⟨t', het, hfill⟩ := enter_tuple_fill c.graph_name_cache_hash
      name
      ((st.catalog.ag_graph.find? (fun r => decide (r.name = name))).map
        fill_graph_cache_data) hnone
    refine ⟨c,
      ((st.catalog.ag_graph.find? (fun r => decide (r.name = name))).map
        fill_graph_cache_data),
      { st with cache := { c with graph_name_cache_hash := t' } }, hacc, ?_, hfill⟩
    simp only [search_graph_name_cache_miss, hacc, het]
  · intro hf
    have hnone := hash_find_none_of_sub _ _ _ hsub.graph_namespace hf
    obtain ⟨t', het, hfill⟩ := enter_tuple_fill c.graph_namespace_cache_hash
      namespace_oid
      ((st.catalog.ag_graph.find? (fun r => decide (r.namespace_oid = namespace_oid))).map
        fill_graph_cache_data) hnone
    refine ⟨c,
      ((st.catalog.ag_graph.find? (fun r => decide (r.namespace_oid = namespace_oid))).map
        fill_graph_cache_data),
      { st with cache := { c with graph_namespace_cache_hash := t' } }, hacc, ?_, hfill⟩
    simp only [search_graph_namespace_cache_miss, hacc, het]
  · intro hf
    have hnone := hash_find_none_of_sub _ _ _ hsub.label_name_graph hf
    obtain ⟨t', het, hfill⟩ := enter_tuple_fill c.label_name_graph_cache_hash
      (label_name_graph_key name graph)
      ((st.catalog.ag_label.find? (fun r => decide (r.name = name ∧ r.graph = graph))).map
        fill_label_cache_data) hnone
    refine ⟨c,
      ((st.catalog.ag_label.find? (fun r => decide (r.name = name ∧ r.graph = graph))).map
        fill_label_cache_data),
      { st with cache := { c with label_name_graph_cache_hash := t' } }, hacc, ?_, hfill⟩
    simp only [search_label_name_graph_cache_miss, hacc, het]
  · intro hf
    have hnone := hash_find_none_of_sub _ _ _ hsub.label_graph_oid hf
    obtain ⟨t', het, hfill⟩ := enter_tuple_fill c.label_graph_oid_cache_hash
      (label_graph_oid_key graph id)
      ((st.catalog.ag_label.find? (fun r => decide (r.graph = graph ∧ r.id = id))).map
        fill_label_cache_data) hnone
    refine ⟨c,
      ((st.catalog.ag_label.find? (fun r => decide (r.graph = graph ∧ r.id = id))).map
        fill_label_cache_data),
      { st with cache := { c with label_graph_oid_cache_hash := t' } }, hacc, ?_, hfill⟩
    simp only [search_label_graph_oid_cache_miss, hacc, het]
  · intro hf
    have hnone := hash_find_none_of_sub _ _ _ hsub.label_relation hf
    cases ht : st.catalog.ag_label.find? (fun r => decide (r.relation = relation)) with
    | none =>
      exact ⟨c, none, { st with cache := c }, hacc,
        by simp only [search_label_relation_cache_miss, hacc, ht],
        filled_of_unchanged _ relation hnone⟩
    | some tuple =>
      refine ⟨c, some (fill_label_cache_data tuple),
        { st with
          cache :=
            { c with
              label_relation_cache_hash :=
                c.label_relation_cache_hash ++
                  [entry_written_at_start (fill_label_cache_data tuple)] } },
        hacc, ?_, filled_of_appended _ relation _ hnone⟩
      simp only [search_label_relation_cache_miss, hacc, ht, hnone, Option.isSome_none,
        Bool.false_eq_true, if_false, lappend]
  · intro hf
    have hnone := hash_find_none_of_sub _ _ _ hsub.label_seq_name_graph hf
    obtain ⟨t', het, hfill⟩ := enter_tuple_fill c.label_seq_name_graph_cache_hash
      (label_seq_name_graph_key name graph)
      ((st.catalog.ag_label.find? (fun r => decide (r.seq_name = name ∧ r.graph = graph))).map
        fill_label_cache_data) hnone
    refine ⟨c,
      ((st.catalog.ag_label.find? (fun r => decide (r.seq_name = name ∧ r.graph = graph))).map
        fill_label_cache_data),
      { st with cache := { c with label_seq_name_graph_cache_hash := t' } }, hacc, ?_, hfill⟩
    simp only [search_label_seq_name_graph_cache_miss, hacc, het]
  · intro hf
    have hnone := hash_find_none_of_sub _ _ _ hsub.edge_schema hf
    obtain ⟨t', het, hfill⟩ := enter_data_fill c.edge_schema_cache_hash
      { graph := graph, edge_label_id := id }
      (edge_schema_data graph id
        (edge_schema_scan_loop graph id [] st.catalog.ag_graph_schema)) hnone
    refine ⟨c,
      (edge_schema_data graph id
        (edge_schema_scan_loop graph id [] st.catalog.ag_graph_schema)),
      { st with cache := { c with edge_schema_cache_hash := t' } }, hacc, ?_, hfill⟩
    simp only [search_edge_schema_cache_miss, hacc, het]
  · intro hf
    have hnone := hash_find_none_of_sub _ _ _ hsub.start_vertex_end_labels hf
    obtain ⟨t', het, hfill⟩ := enter_data_fill c.start_vertex_end_labels_cache_hash
      { graph := graph, vertex_label_id := id }
      (vertex_labels_data graph id
        (end_labels_scan_loop graph id [] st.catalog.ag_graph_schema)) hnone
    refine ⟨c,
      (vertex_labels_data graph id
        (end_labels_scan_loop graph id [] st.catalog.ag_graph_schema)),
      { st with cache := { c with start_vertex_end_labels_cache_hash := t' } }, hacc, ?_, hfill⟩
    simp only [search_start_vertex_end_labels_cache_miss, hacc, het]
  · intro hf
    have hnone := hash_find_none_of_sub _ _ _ hsub.end_vertex_start_labels hf
    obtain ⟨t', het, hfill⟩ := enter_data_fill c.end_vertex_start_labels_cache_hash
      { graph := graph, vertex_label_id := id }
      (vertex_labels_data graph id
        (start_labels_scan_loop graph id [] st.catalog.ag_graph_schema)) hnone
    refine ⟨c,
      (vertex_labels_data graph id
        (start_labels_scan_loop graph id [] st.catalog.ag_graph_schema)),
      { st with cache := { c with end_vertex_start_labels_cache_hash := t' } }, hacc, ?_, hfill⟩
    simp only [search_end_vertex_start_labels_cache_miss, hacc, het]

/-! ## What an invalidation by relation leaves alone -/

/-- C26 (the code at the failing input). The catalog holds the labels `Person`, of
relation 16400, and `AB`, of relation 16961, and the caches are empty.  The lookup of
the relation 16400 misses and returns the record of `Person`; afterwards the cache by
relation holds one entry, under the key 1936876880 (the bytes `Pers`), and none under
16400, so that the repeated lookup misses again, reads the catalog again and adds a
second entry.  The lookup of the relation 16961 returns the record of `AB`; the entry
it leaves has the key 16961, and the repeated lookup hits and returns another record,
with the empty name and the graph 5.  The lookup by (graph, label id) of `Person`, in
contrast, leaves its key in its cache, and the repeated lookup returns the same
record with the state as it was. -/
theorem relation_cache_fill_overwrites_key :
    (∃ st1 st2,
      search_label_relation_cache ex_state_labels [] 16400 =
        Except.ok (some (fill_label_cache_data ex_row_person), st1) ∧
      st1.cache.label_relation_cache_hash.map (fun e => e.1) = [1936876880] ∧
      hash_find st1.cache.label_relation_cache_hash 16400 = none ∧
      search_label_relation_cache st1 [] 16400 =
        Except.ok (some (fill_label_cache_data ex_row_person), st2) ∧
      st2.cache.label_relation_cache_hash.map (fun e => e.1) = [1936876880, 1936876880]) ∧
    (∃ st1 data,
      search_label_relation_cache ex_state_labels [] 16961 =
        Except.ok (some (fill_label_cache_data ex_row_ab), st1) ∧
      st1.cache.label_relation_cache_hash.map (fun e => e.1) = [16961] ∧
      search_label_relation_cache st1 [] 16961 = Except.ok (some data, st1) ∧
      data ≠ fill_label_cache_data ex_row_ab ∧
      data.name = "" ∧ data.graph = 5 ∧ data.seq_name = "d_seq") ∧
    (∃ st1,
      search_label_graph_oid_cache ex_state_labels [] 1 3 =
        Except.ok (some (fill_label_cache_data ex_row_person), st1) ∧
      hash_find st1.cache.label_graph_oid_cache_hash (label_graph_oid_key 1 3) =
        some (fill_label_cache_data ex_row_person) ∧
      search_label_graph_oid_cache st1 [] 1 3 =
        Except.ok (some (fill_label_cache_data ex_row_person), st1)) :=
  ⟨⟨_, _, by rfl, by decide, by decide, by rfl, by decide⟩,
    ⟨_, _, by rfl, by decide, by rfl, by decide, by decide, by decide, by decide⟩,
    ⟨_, by rfl, by decide, by rfl⟩⟩

/-! ## `_label_name` for a label id without a record -/

theorem schema_coherent_of_empty_schema_caches (st0 : AgState)
    (h1 : st0.cache.edge_schema_cache_hash = [])
    (h2 : st0.cache.start_vertex_end_labels_cache_hash = [])
    (h3 : st0.cache.end_vertex_start_labels_cache_hash = []) : SchemaCoherent st0 :=
  { edge_schema := fun _ he => by rw [h1] at he; simp at he
    start_vertex_end_labels := fun _ he => by rw [h2] at he; simp at he
    end_vertex_start_labels := fun _ he => by rw [h3] at he; simp at he }

/-- C28. Start from empty edge-schema caches, on any catalog and with any content of the
other caches, and run any sequence of operations: `insert_edge_schema_entry`, the three
delete sweeps of `ag_graph_schema`, searches of every cache, and label changes and
invalidation messages as well.  In the state that a successful sequence leaves, every
entry of the edge-schema cache, of the cache of end labels by start label and of the
cache of start labels by end label is the entry that its fill path builds from a scan
of the current `ag_graph_schema` rows for the entry's key, an entry without pairs or
label ids when no row has the key. -/
theorem schema_caches_agree_with_scan (st0 st : AgState) (ops : List Op)
    (h1 : st0.cache.edge_schema_cache_hash = [])
    (h2 : st0.cache.start_vertex_end_labels_cache_hash = [])
    (h3 : st0.cache.end_vertex_start_labels_cache_hash = [])
    (hrun : run st0 ops = Except.ok st) :
    (∀ e ∈ st.cache.edge_schema_cache_hash,
      e.2 = edge_schema_data e.1.graph e.1.edge_label_id
        (edge_schema_scan_loop e.1.graph e.1.edge_label_id [] st.catalog.ag_graph_schema)) ∧
    (∀ e ∈ st.cache.start_vertex_end_labels_cache_hash,
      e.2 = vertex_labels_data e.1.graph e.1.vertex_label_id
        (end_labels_scan_loop e.1.graph e.1.vertex_label_id [] st.catalog.ag_graph_schema)) ∧
    (∀ e ∈ st.cache.end_vertex_start_labels_cache_hash,
      e.2 = vertex_labels_data e.1.graph e.1.vertex_label_id
        (start_labels_scan_loop e.1.graph e.1.vertex_label_id [] st.catalog.ag_graph_schema)) := by
  have h : SchemaCoherent st :=
    run_schema_coherent ops st0 st (schema_coherent_of_empty_schema_caches st0 h1 h2 h3) hrun
  refine ⟨?_, ?_, ?_⟩
  · intro e he
    rw [edge_schema_scan_direct]
    exact h.edge_schema e he
  · intro e he
    rw [end_labels_scan_direct]
    exact h.start_vertex_end_labels e he
  · intro e he
    rw [start_labels_scan_direct]
    exact h.end_vertex_start_labels e he

/-- Witness of C28: the sequence `ex_ops_schema` caches an empty edge schema, which the
insertion flushes, and leaves one entry in each cache, among them the empty list of
start labels for the end label 9. -/
theorem schema_caches_agree_with_scan_witness :
    (ex_state_empty.cache.edge_schema_cache_hash = [] ∧
      ex_state_empty.cache.start_vertex_end_labels_cache_hash = [] ∧
      ex_state_empty.cache.end_vertex_start_labels_cache_hash = [] ∧
      run ex_state_empty ex_ops_schema = Except.ok ex_state_schema) ∧
    ((∀ e ∈ ex_state_schema.cache.edge_schema_cache_hash,
      e.2 = edge_schema_data e.1.graph e.1.edge_label_id
        (edge_schema_scan_loop e.1.graph e.1.edge_label_id []
          ex_state_schema.catalog.ag_graph_schema)) ∧
    (∀ e ∈ ex_state_schema.cache.start_vertex_end_labels_cache_hash,
      e.2 = vertex_labels_data e.1.graph e.1.vertex_label_id
        (end_labels_scan_loop e.1.graph e.1.vertex_label_id []
          ex_state_schema.catalog.ag_graph_schema)) ∧
    (∀ e ∈ ex_state_schema.cache.end_vertex_start_labels_cache_hash,
      e.2 = vertex_labels_data e.1.graph e.1.vertex_label_id
        (start_labels_scan_loop e.1.graph e.1.vertex_label_id []
          ex_state_schema.catalog.ag_graph_schema))) :=
  ⟨⟨rfl, rfl, rfl, by rfl⟩,
    schema_caches_agree_with_scan ex_state_empty ex_state_schema ex_ops_schema rfl rfl rfl
      (by rfl)⟩

end AGE
